import Mathlib

/-!
Verification development for the Tic-Tac-Toe repository
(`board.py`, `full_tree_search.py`, `game_tree.py`).

The Python code is shallowly embedded: the mutable `Board` object becomes a
Lean structure that operations transform functionally; Python exceptions
(`IndexError` raised by `play`, `ValueError` raised by `list.remove` and by
`max()` on an empty sequence) become `Except String` results; Python `assert`
failures become `Option.none`.  Player tokens are strings, as in the game
(`'O'`, `'X'`), and the empty-cell marker is the one-character string `" "`
(`Board.empty = ' '`); the interpreter interns one-character strings, so the
source's `is`/`is not` comparisons against `self.empty` coincide with string
equality and are embedded as equality.
-/

namespace TTT

abbrev Token := String

abbrev Coord := Nat × Nat

/-- The empty-cell marker `' '` (`self.empty` in `Board.__init__`). -/
def emptyTok : Token := " "

/-- `str.lower()`: lower-case each character.  (`String.toLower` itself is
implemented through `String.mapAux`, which the kernel cannot reduce; this
character-list form is definitionally computable and agrees with Python's
`lower` on the ASCII axis names used here.) -/
def strLower (s : String) : String := ⟨s.data.map Char.toLower⟩

/-- Reading `board[i][j]` from the nested-list grid.  Out-of-range access
raises `IndexError` in Python; every access performed by the embedded code on
a well-formed board is in range, and the default value `" "` is never
consulted there. -/
def cellD (g : List (List Token)) (i j : Nat) : Token :=
  (g.getD i []).getD j emptyTok

/-- The `Board` class of `board.py`: a square grid of tokens stored as nested
lists, plus the move history (`played_positions`, `played_tokens`) and the
list of remaining empty cells. -/
structure Board where
  num_rows : Nat
  num_cols : Nat
  num_cells : Nat
  empty : Token
  board : List (List Token)
  played_positions : List Coord
  played_tokens : List Token
  empty_cells : List Coord
deriving DecidableEq

/-- The body of `Board.__init__` (after the squareness assertion has
succeeded).  Note the source builds `empty_cells` as
`[(i, j) for i in range(num_cols) for j in range(num_rows)]` — the outer
index ranges over `num_cols` — which is faithful here. -/
def Board.fresh (num_rows num_cols : Nat) : Board :=
  { num_rows := num_rows
    num_cols := num_cols
    num_cells := num_rows * num_cols
    empty := emptyTok
    board := List.replicate num_rows (List.replicate num_cols emptyTok)
    played_positions := []
    played_tokens := []
    empty_cells := (List.range num_cols).flatMap fun i =>
      (List.range num_rows).map fun j => (i, j) }

/-- `Board(num_rows, num_cols)`: the constructor asserts
`num_rows == num_cols` (boards must be square); an assertion failure is
embedded as `none`. -/
def Board.init (num_rows num_cols : Nat) : Option Board :=
  if num_rows = num_cols then some (Board.fresh num_rows num_cols) else none

/-- `Board.rows` property: the grid itself. -/
def Board.rows (b : Board) : List (List Token) := b.board

/-- `Board.columns` property:
`[[self.board[row][col] for row in range(self.num_rows)] for col in range(self.num_cols)]`. -/
def Board.columns (b : Board) : List (List Token) :=
  (List.range b.num_cols).map fun col =>
    (List.range b.num_rows).map fun row => cellD b.board row col

/-- `Board.main_diagonal` property: `[self.board[i][i] for i in range(self.num_rows)]`. -/
def Board.main_diagonal (b : Board) : List Token :=
  (List.range b.num_rows).map fun i => cellD b.board i i

/-- `Board.anti_diagonal` property:
`[self.board[i][self.num_cols - i - 1] for i in range(self.num_rows)]`. -/
def Board.anti_diagonal (b : Board) : List Token :=
  (List.range b.num_rows).map fun i => cellD b.board i (b.num_cols - i - 1)

/-- `Board.play(row, col, token)`.  The already-played check comes first and
raises `IndexError` with a 1-indexed message (before any mutation, so a failed
call leaves the board unchanged); on success the grid cell is assigned, the
position and token are appended to the two history lists, and the coordinate
is removed from `empty_cells`.  `list.remove` on a missing element raises
`ValueError`; that branch is embedded as the second error case (it is
unreachable on well-formed boards). -/
def Board.play (b : Board) (row col : Nat) (token : Token) : Except String Board :=
  if (row, col) ∈ b.played_positions then
    .error s!"Invalid Positon - ({row + 1},{col + 1}) has already been played!"
  else if (row, col) ∈ b.empty_cells then
    .ok { b with
      board := b.board.set row ((b.board.getD row []).set col token)
      played_positions := b.played_positions ++ [(row, col)]
      played_tokens := b.played_tokens ++ [token]
      empty_cells := b.empty_cells.erase (row, col) }
  else
    .error "ValueError: list.remove(x): x not in list"

/-- One block of `Board.winner`: scan a list of lines; for each line whose
cells all equal its first cell (`all(row[0] == cell for cell in row)`), return
that first cell unless it is the empty marker, in which case keep scanning. -/
def checkLines (emp : Token) : List (List Token) → Option Token
  | [] => none
  | line :: rest =>
    if (line.all fun cell => line.headD emp == cell) && !(line.headD emp == emp) then
      some (line.headD emp)
    else
      checkLines emp rest

/-- `Board.winner()`: check the rows (top to bottom), then the columns (left
to right), then the main diagonal, then the anti-diagonal; the four source
blocks perform the identical uniform-line check, so they are embedded as one
scan over the concatenated line list, preserving the order. -/
def Board.winner (b : Board) : Option Token :=
  checkLines b.empty (b.rows ++ b.columns ++ [b.main_diagonal, b.anti_diagonal])

/-- `Board.full()`: `not self.empty_cells`. -/
def Board.full (b : Board) : Bool := b.empty_cells.isEmpty

/-- `Board.copy()`: a deep copy of every field.  In the value semantics of
this embedding a deep copy is the value itself; the reference-aliasing
behaviour of the Python object graph is modelled separately (namespace `Py`
below) for the frame claims. -/
def Board.copy (b : Board) : Board := b

/-- `Board.recitfy_game_history()` (sic): rebuild `empty_cells`,
`played_positions` and `played_tokens` by scanning the grid in row-major
order via `BoardIterator`, which walks positions `(i, j)` for
`i < len(board)` and `j < len(board[0])`, appending empty positions to
`empty_cells` and played positions/tokens to the history lists. -/
def Board.recitfy_game_history (b : Board) : Board :=
  let cells : List (Coord × Token) :=
    (List.range b.board.length).flatMap fun i =>
      (List.range (b.board.headD []).length).map fun j => ((i, j), cellD b.board i j)
  { b with
    empty_cells := (cells.filter fun pc => pc.2 == b.empty).map Prod.fst
    played_positions := (cells.filter fun pc => !(pc.2 == b.empty)).map Prod.fst
    played_tokens := (cells.filter fun pc => !(pc.2 == b.empty)).map Prod.snd }

/-- `Board.rotate(degrees)`: assert `degrees in (90, 180, 270)` (assertion
failure embedded as `none`), build a fresh board whose grid is the rotated
grid, and rectify its history:
* 90:  `[column[::-1] for column in self.columns]`
* 180: `[row[::-1] for row in self.rows[::-1]]`
* 270: `[column for column in self.columns[::-1]]` -/
def Board.rotate (b : Board) (degrees : Nat) : Option Board :=
  if degrees = 90 ∨ degrees = 180 ∨ degrees = 270 then
    let nb := Board.fresh b.num_rows b.num_cols
    let nb :=
      if degrees = 90 then { nb with board := b.columns.map List.reverse }
      else if degrees = 180 then { nb with board := b.rows.reverse.map List.reverse }
      else { nb with board := b.columns.reverse }
    some nb.recitfy_game_history
  else
    none

/-- `Board.reflect(axis)`: lower-case the axis, assert it is one of the eight
accepted spellings (assertion failure embedded as `none`), start from a copy,
overwrite its grid and rectify its history:
* horizontal:    `[row for row in self.rows[::-1]]`
* vertical:      `[row[::-1] for row in self.rows]`
* main diagonal: `[column[::-1] for column in self.columns[::-1]]`
* anti-diagonal: `[column for column in self.columns]` -/
def Board.reflect (b : Board) (axis : String) : Option Board :=
  let ax := strLower axis
  if ax ∈ ["horizontal", "h", "vertical", "v", "main diagonal", "md", "anti-diagonal", "ad"] then
    let nb := b.copy
    let nb :=
      if ax = "horizontal" ∨ ax = "h" then { nb with board := b.rows.reverse }
      else if ax = "vertical" ∨ ax = "v" then { nb with board := b.rows.map List.reverse }
      else if ax = "main diagonal" ∨ ax = "md" then
        { nb with board := b.columns.reverse.map List.reverse }
      else { nb with board := b.columns }
    some nb.recitfy_game_history
  else
    none

/-- `Board.isomorphisms` property: compute the three rotations and the four
reflections (their arguments are valid literals, so every `Option` is `some`
and `reduceOption` drops nothing), keep `self` followed by rotations that
differ from `self` under `Board.__eq__` (grid equality), then the reflections
that are `not in` that rotation list, and concatenate. -/
def Board.isomorphisms (b : Board) : List Board :=
  let rotations := [b.rotate 90, b.rotate 180, b.rotate 270].reduceOption
  let reflections := [b.reflect "h", b.reflect "v", b.reflect "md", b.reflect "ad"].reduceOption
  let rotations2 := b :: rotations.filter fun x => !(x.board == b.board)
  let reflections2 := reflections.filter fun x => !(rotations2.any fun r => x.board == r.board)
  rotations2 ++ reflections2

/-- `Board.isomorphic_to(other)`: `self in other.isomorphisms`, where list
membership uses `Board.__eq__`, i.e. grid equality. -/
def Board.isomorphic_to (b other : Board) : Bool :=
  other.isomorphisms.any fun x => b.board == x.board

/-- Test helper: play a move and keep the original board if the move raises.
Used only to build concrete boards for witnesses and counterexamples (on the
boards below every such move in fact succeeds), and inside the search
simulations, where every performed move is on an empty cell of a well-formed
board and hence succeeds. -/
def playForce (b : Board) (row col : Nat) (token : Token) : Board :=
  match b.play row col token with
  | .ok b2 => b2
  | .error _ => b

/-! ### Grid-level specification vocabulary

The following definitions are *specification-side*: square grids described by
an index formula.  They are used to state what the geometric transforms do to
individual cells, independently of the `columns`/`reverse` pipeline the code
uses, and to state the isomorphism-set claims. -/

/-- The n×n grid whose cell (i, j) is `f i j`. -/
def gridOfFun (n : Nat) (f : Nat → Nat → Token) : List (List Token) :=
  (List.range n).map fun i => (List.range n).map fun j => f i j

/-- A well-shaped n×n grid: n rows, each of length n. -/
def GridWF (n : Nat) (g : List (List Token)) : Prop :=
  g.length = n ∧ ∀ row ∈ g, row.length = n

/-- The dimension bookkeeping of a genuine board: the stored sizes are equal
(boards are square) and match the actual grid shape. -/
def Board.WFdims (b : Board) : Prop :=
  b.num_rows = b.num_cols ∧ GridWF b.num_rows b.board

/-- Clockwise 90° rotation, by index formula. -/
def rot90Grid (n : Nat) (g : List (List Token)) : List (List Token) :=
  gridOfFun n fun i j => cellD g (n - 1 - j) i

/-- 180° rotation, by index formula. -/
def rot180Grid (n : Nat) (g : List (List Token)) : List (List Token) :=
  gridOfFun n fun i j => cellD g (n - 1 - i) (n - 1 - j)

/-- Clockwise 270° rotation, by index formula. -/
def rot270Grid (n : Nat) (g : List (List Token)) : List (List Token) :=
  gridOfFun n fun i j => cellD g j (n - 1 - i)

/-- Reflection across the horizontal axis, by index formula. -/
def reflHGrid (n : Nat) (g : List (List Token)) : List (List Token) :=
  gridOfFun n fun i j => cellD g (n - 1 - i) j

/-- Reflection across the vertical axis, by index formula. -/
def reflVGrid (n : Nat) (g : List (List Token)) : List (List Token) :=
  gridOfFun n fun i j => cellD g i (n - 1 - j)

/-- The transform `reflect('md')` actually performs, by index formula: cell
(i, j) receives the value at (n-1-j, n-1-i).  Geometrically this is the
*anti-diagonal* reflection (it fixes the anti-diagonal, not the main one). -/
def reflMDGrid (n : Nat) (g : List (List Token)) : List (List Token) :=
  gridOfFun n fun i j => cellD g (n - 1 - j) (n - 1 - i)

/-- The transform `reflect('ad')` actually performs, by index formula: cell
(i, j) receives the value at (j, i), i.e. the transpose.  Geometrically this
is the *main-diagonal* reflection. -/
def reflADGrid (n : Nat) (g : List (List Token)) : List (List Token) :=
  gridOfFun n fun i j => cellD g j i

/-- The lines `winner()` examines, in their check order: the rows from top
to bottom, then the columns from left to right, then the main diagonal, then
the anti-diagonal. -/
def Board.linesInOrder (b : Board) : List (List Token) :=
  b.rows ++ b.columns ++ [b.main_diagonal, b.anti_diagonal]

/-- Specification-side predicate: `line` is non-empty, fully uniform, and
occupied by the non-empty token `t` (where `emp` is the empty marker). -/
def UniformLine (emp : Token) (line : List Token) (t : Token) : Prop :=
  t ≠ emp ∧ line ≠ [] ∧ ∀ c ∈ line, c = t

/-- The grids of the eight dihedral transforms of a board (identity first,
then the rotations in degree order, then the reflections in the source's
axis order). -/
def grid8 (b : Board) : List (List (List Token)) :=
  [b.board,
   rot90Grid b.num_rows b.board, rot180Grid b.num_rows b.board,
   rot270Grid b.num_rows b.board,
   reflHGrid b.num_rows b.board, reflVGrid b.num_rows b.board,
   reflMDGrid b.num_rows b.board, reflADGrid b.num_rows b.board]

/-- Full well-formedness of a board state: correct dimensions, the standard
empty marker, duplicate-free in-range bookkeeping lists, and the
grid/`empty_cells`/`played_positions` correspondence.  This is the invariant
the claims call the partition invariant; it holds for every board reachable
by the public operations (proved below). -/
def Board.WF (b : Board) : Prop :=
  b.WFdims ∧ b.empty = emptyTok ∧
  b.empty_cells.Nodup ∧ b.played_positions.Nodup ∧
  (∀ p ∈ b.empty_cells, p.1 < b.num_rows ∧ p.2 < b.num_cols) ∧
  (∀ p ∈ b.played_positions, p.1 < b.num_rows ∧ p.2 < b.num_cols) ∧
  (∀ i < b.num_rows, ∀ j < b.num_cols,
    ((i, j) ∈ b.empty_cells ↔ cellD b.board i j = emptyTok)) ∧
  (∀ i < b.num_rows, ∀ j < b.num_cols,
    ((i, j) ∈ b.played_positions ↔ ¬ cellD b.board i j = emptyTok))

instance decGridWF (n : Nat) (g : List (List Token)) : Decidable (GridWF n g) := by
  unfold GridWF; exact inferInstance

instance decWFdims (b : Board) : Decidable b.WFdims := by
  unfold Board.WFdims; exact inferInstance

instance decWF (b : Board) : Decidable b.WF := by
  unfold Board.WF; exact inferInstance

/-- The boards the claims quantify over: a freshly constructed board followed
by any sequence of successful in-range plays of non-empty tokens, and the
results of `copy`, `rotate` and `reflect` on such boards. -/
inductive Reachable : Board → Prop where
  | init : ∀ n, Reachable (Board.fresh n n)
  | play : ∀ b row col t b2, Reachable b → row < b.num_rows → col < b.num_cols →
      t ≠ emptyTok → b.play row col t = .ok b2 → Reachable b2
  | copy : ∀ b, Reachable b → Reachable b.copy
  | rotate : ∀ b d b2, Reachable b → b.rotate d = some b2 → Reachable b2
  | reflect : ∀ b a b2, Reachable b → b.reflect a = some b2 → Reachable b2

/-! ### The exhaustive permutation search (`full_tree_search.py`)

`full_tree_search(board, tokens)` enumerates all permutations of the board's
empty cells, simulates each to an outcome, and returns the closure
`get_move`.  `itertools.permutations` is embedded as `permutationsOf`
below, which enumerates every ordering of the (duplicate-free)
`empty_cells` list exactly once, choosing each position's element in list
order — the same order `itertools.permutations` produces.
`statistics.mean` on the integer score lists
is exact (it sums exactly and divides once) and is embedded in `ℚ`.
`random.sample(best_moves, 1)[0]` draws one element of `best_moves`
uniformly; `get_move` is embedded as returning the whole `best_moves` list
the draw is made from.  The `max()` call on an empty dict and the
out-of-range `perm[num_moves]` lookup raise in Python and are embedded as
`Except.error`. -/

/-- The per-permutation simulation of `full_tree_search`: replay the moves on
a copy, cycling `player_id` round-robin, stopping at the first winner;
`'Draw'` if the whole permutation is consumed with no winner.  (For an empty
`tokens` list Python would raise before reading any outcome; theorems about
the search assume `tokens` nonempty.) -/
def simulatePerm (tokens : List Token) : Board → Nat → List Coord → Token
  | _, _, [] => "Draw"
  | b, player_id, m :: rest =>
    let b2 := playForce b m.1 m.2 (tokens.getD player_id emptyTok)
    match b2.winner with
    | some w => w
    | none => simulatePerm tokens b2 ((player_id + 1) % tokens.length) rest

/-- All ways to select one element of a list: the element together with the
remaining list, in position order. -/
def selections {α : Type} : List α → List (α × List α)
  | [] => []
  | x :: xs => (x, xs) :: (selections xs).map fun p => (p.1, x :: p.2)

/-- Fuel-indexed permutation enumeration (fuel = list length; the fuel only
serves structural termination). -/
def permsFuel {α : Type} : Nat → List α → List (List α)
  | _, [] => [[]]
  | fuel + 1, l => (selections l).flatMap fun p => (permsFuel fuel p.2).map (p.1 :: ·)
  | 0, _ :: _ => []

/-- `itertools.permutations(l)`: every ordering of `l`, first element chosen
in position order, recursively.  (Lean's `List.permutations` enumerates the
same orderings but is not kernel-computable and in a different order; this
selection-based enumeration reproduces the itertools order itself.) -/
def permutationsOf {α : Type} (l : List α) : List (List α) :=
  permsFuel l.length l

/-- The `winners` dict: each permutation of the initialization board's empty
cells, mapped to its simulated outcome. -/
def winnersTable (board : Board) (tokens : List Token) : List (List Coord × Token) :=
  (permutationsOf board.empty_cells).map fun perm =>
    (perm, simulatePerm tokens board.copy 0 perm)

/-- The `next_moves` accumulation of `get_move`: for each surviving table
entry, pair the candidate move `perm[num_moves]` with the value
WIN=100 / DRAW=0 / LOSS=-100 of its recorded outcome.  An out-of-range
`perm[num_moves]` raises `IndexError`. -/
def nextMovesList (token : Token) (num_moves : Nat) :
    List (List Coord × Token) → Except String (List (Coord × Int))
  | [] => .ok []
  | (perm, w) :: rest =>
    let value : Int := if w == token then 100 else if w == "Draw" then 0 else -100
    match perm.get? num_moves with
    | none => .error "IndexError: tuple index out of range"
    | some key =>
      match nextMovesList token num_moves rest with
      | .error e => .error e
      | .ok tail => .ok ((key, value) :: tail)

/-- The score values collected for one candidate move (the lists the
`defaultdict(list)` holds). -/
def valuesFor (pairs : List (Coord × Int)) (m : Coord) : List Int :=
  (pairs.filter fun p => p.1 == m).map Prod.snd

/-- `statistics.mean` of a candidate's collected values, exactly, in `ℚ`. -/
def meanScore (pairs : List (Coord × Int)) (m : Coord) : ℚ :=
  (((valuesFor pairs m).map fun v => (v : ℚ)).sum) / ((valuesFor pairs m).length : ℚ)

/-- `best_moves`: the candidate moves (dict keys) whose mean score equals the
maximum of all the mean scores. -/
def bestMoves (pairs : List (Coord × Int)) : List Coord :=
  let keys := (pairs.map Prod.fst).dedup
  keys.filter fun m => keys.all fun k => decide (meanScore pairs k ≤ meanScore pairs m)

/-- The `get_move` closure captured over the initialization board and token
list.  Result: `.ok none` for "no move", `.ok (some bm)` where `bm` is the
list the returned move is drawn from (`best_moves`, or the singleton
short-circuit), `.error` when Python raises. -/
def get_move (board0 : Board) (tokens : List Token) (b : Board) (token : Token) :
    Except String (Option (List Coord)) :=
  let winners := winnersTable board0 tokens
  if b.empty_cells.isEmpty then .ok none
  else if b.empty_cells.length = 1 then .ok (some [b.empty_cells.headD (0, 0)])
  else
    let num_moves := b.played_positions.length
    let winners_subset :=
      if b.played_positions.isEmpty then winners
      else winners.filter fun pw => pw.1.take num_moves == b.played_positions
    match nextMovesList token num_moves winners_subset with
    | .error e => .error e
    | .ok pairs =>
      if pairs.isEmpty then .error "ValueError: max() arg is an empty sequence"
      else .ok (some (bestMoves pairs))

/-- Playing a sequence of moves in order (the scenario the search claims
quantify over); stops at the first raising move. -/
def playSeq (b : Board) : List (Coord × Token) → Except String Board
  | [] => .ok b
  | (m, t) :: rest =>
    match b.play m.1 m.2 t with
    | .error e => .error e
    | .ok b2 => playSeq b2 rest

/-! ### Python object semantics of the grid rows (for the frame claim)

In CPython a `Board`'s grid is a list of references to row-list objects.
`copy()` builds fresh rows (`[row.copy() for row in self.rows]`), and so do
the `rotate` branches and the `vertical`/`main diagonal`/`anti-diagonal`
branches of `reflect` (their comprehensions build new list objects).  The
`horizontal` branch, however, sets `new_board.board = [row for row in
self.rows[::-1]]`, which copies the *references*: the reflected board shares
its row objects with the original.  The tiny heap model below captures
exactly this: a store of row objects and boards holding row references. -/

structure PyHeap where
  rows : List (List Token)
deriving DecidableEq

structure PyGrid where
  rowRefs : List Nat
deriving DecidableEq

/-- The grid a board object presents, read through the heap. -/
def PyHeap.readGrid (h : PyHeap) (g : PyGrid) : List (List Token) :=
  g.rowRefs.map fun r => h.rows.getD r []

/-- Allocate the grid of `Board(n, n)`: n fresh blank row objects. -/
def pyFresh (h : PyHeap) (n : Nat) : PyHeap × PyGrid :=
  ({ rows := h.rows ++ List.replicate n (List.replicate n emptyTok) },
   { rowRefs := (List.range n).map fun i => h.rows.length + i })

/-- `Board.copy()`'s grid: `[row.copy() for row in self.rows]` — fresh row
objects with the same contents. -/
def pyCopy (h : PyHeap) (g : PyGrid) : PyHeap × PyGrid :=
  ({ rows := h.rows ++ h.readGrid g },
   { rowRefs := (List.range g.rowRefs.length).map fun i => h.rows.length + i })

/-- `reflect('horizontal')`'s grid assignment:
`[row for row in self.rows[::-1]]` — the *same* row objects, in reverse
order.  (The fresh rows `self.copy()` allocated are discarded by the
assignment; allocating and discarding them does not change what any board
reads, so the model skips the dead allocation.) -/
def pyReflectH (g : PyGrid) : PyGrid :=
  { rowRefs := g.rowRefs.reverse }

/-- `play`'s grid assignment `self.board[row][col] = token`: mutate the row
object the board's reference designates, in place. -/
def pyPlay (h : PyHeap) (g : PyGrid) (row col : Nat) (token : Token) : PyHeap :=
  let r := g.rowRefs.getD row 0
  { rows := h.rows.set r ((h.rows.getD r []).set col token) }

/-! ### The pruned game tree and its iterator (`game_tree.py`)

A `Node` plays its move on a private board copy during `__init__` and caches
move, token and resulting state.  `Node.__eq__` identifies nodes by
`(move, token_played, board)` with `Board.__eq__` being grid equality, so a
node's traversal identity is the triple embedded as `GNode`.  The tree shape
(`children` recomputes equal child `Node`s on every access, compared only
ever through `__eq__`/`isomorphic_to`) is embedded as a well-founded tree of
`GNode`s; a terminal node's `children is None` and an empty unvisited list
are indistinguishable to the iterator's `get_unvisited_items` (both are
treated as `None`), so `None` is embedded as `[]`. -/

structure GNode where
  move : Option Coord
  token_played : Option Token
  grid : List (List Token)
deriving DecidableEq

inductive GTree where
  | node (val : GNode) (children : List GTree)

def GTree.val : GTree → GNode
  | .node v _ => v

def GTree.children : GTree → List GTree
  | .node _ c => c

mutual

/-- All keys in the tree, in depth-first pre-order (with multiplicity). -/
def GTree.keyList : GTree → List GNode
  | .node v cs => v :: keyListAll cs

/-- Keys of a list of trees, in order. -/
def keyListAll : List GTree → List GNode
  | [] => []
  | t :: ts => t.keyList ++ keyListAll ts

end

mutual

/-- All subtrees (tree positions), the tree itself first. -/
def GTree.subtreesList : GTree → List GTree
  | .node v cs => .node v cs :: subtreesListAll cs

/-- Subtrees of a list of trees. -/
def subtreesListAll : List GTree → List GTree
  | [] => []
  | t :: ts => t.subtreesList ++ subtreesListAll ts

end

/-- A tree is coherent when its node identity (the `Node.__eq__` triple)
determines the whole subtree below a node.  Pruned game trees are coherent
(proved below): within one tree the grid determines the remaining
empty-cell order and the token rotation, which determine the children. -/
def Coherent (t : GTree) : Prop :=
  ∀ s1 ∈ t.subtreesList, ∀ s2 ∈ t.subtreesList, s1.val = s2.val → s1 = s2

/-- The `NodeIterator` state: the node `self.node` the next search starts
from, that node's chain of ancestors (nearest parent first — the `parent`
references), and `self.visited_nodes` (membership is via `Node.__eq__`,
hence a list of `GNode` identities). -/
structure ItState where
  curr : GTree
  ancs : List GTree
  visited : List GNode

/-- `get_unvisited_items(node.children)`: the children not yet visited.
The result `[]` plays the role of Python's `None`. -/
def unvisitedOf (visited : List GNode) (t : GTree) : List GTree :=
  t.children.filter fun c => !(visited.contains c.val)

/-- The ascent loop of `depth_first_search`: while the current node has no
unvisited children, move to its parent; stop at the root. -/
def ascend (visited : List GNode) : GTree → List GTree → GTree × List GTree
  | cur, [] => (cur, [])
  | cur, parent :: rest =>
    if (unvisitedOf visited cur).isEmpty then ascend visited parent rest
    else (cur, parent :: rest)

/-- One call of `NodeIterator.depth_first_search(current_node)`:
either `StopIteration`, or a yielded node identity together with the
new iterator state.  The bounded `fuel` only limits the self-recursion
(`return self.depth_first_search(next_node)`); from every state the real
iterator reaches, the recursion depth is at most 3, and the theorems below
run it with fuel 3 and prove `fuelOut` never occurs. -/
inductive DfsResult where
  | stop
  | yielded (out : GNode) (st : ItState)
  | fuelOut

def dfs : Nat → ItState → DfsResult
  | 0, _ => .fuelOut
  | fuel + 1, st =>
    let cur := st.curr
    let uc := unvisitedOf st.visited cur
    if uc.isEmpty && st.visited.contains cur.val then
      -- no unvisited children, already visited
      if st.ancs.isEmpty then .stop      -- at the root: StopIteration
      else
        -- climb; the local `unvisited_children` is unchanged (still "None"),
        -- so `next_node = current_node` (the ascended node) afterwards
        let ca := ascend st.visited cur st.ancs
        let st2 : ItState := { curr := ca.1, ancs := ca.2, visited := st.visited }
        if st.visited.contains ca.1.val then dfs fuel st2
        else .yielded ca.1.val { st2 with visited := st.visited ++ [ca.1.val] }
    else
      match uc with
      | c :: _ =>
        -- next_node = unvisited_children[0]
        let st2 : ItState := { curr := c, ancs := cur :: st.ancs, visited := st.visited }
        if st.visited.contains cur.val then dfs fuel st2
        else .yielded cur.val { st2 with visited := st.visited ++ [cur.val] }
      | [] =>
        -- next_node = current_node
        let st2 : ItState := { curr := cur, ancs := st.ancs, visited := st.visited }
        if st.visited.contains cur.val then dfs fuel st2
        else .yielded cur.val { st2 with visited := st.visited ++ [cur.val] }

/-- Repeated `next()` calls until `StopIteration`, collecting the yielded
node identities; `none` if either fuel bound is hit (the theorems prove it
never is, for the stated fuels). -/
def runIter (fuel : Nat) : Nat → ItState → Option (List GNode)
  | 0, _ => none
  | steps + 1, st =>
    match dfs fuel st with
    | .stop => some []
    | .fuelOut => none
    | .yielded out st2 => (runIter fuel steps st2).map fun rest => out :: rest

/-- `for n in iter(node)` on a root node: the iterator starts at the root
with an empty visited list. -/
def iterateTree (t : GTree) (fuel steps : Nat) : Option (List GNode) :=
  runIter fuel steps { curr := t, ancs := [], visited := [] }

/-- `tokens[1:] + tokens[:1]` — rotate the token list by one. -/
def rotateTokens (tokens : List Token) : List Token :=
  tokens.drop 1 ++ tokens.take 1

mutual

/-- `Node.__init__` followed by the (lazy) `children` property, producing the
node's identity tree and the node's private board.  `self.board.play` raises
only on an already-played cell; every move the tree plays is an empty cell
of a well-formed board, where `play` succeeds, so the raising path is
embedded through `playForce` (the theorems assume the root board well-formed
and only ever reach successful plays).  `fuel` bounds the construction
depth; each level consumes one empty cell, so any `fuel` of at least
`board.num_cells + 1` builds the full tree. -/
def nodeMake (fuel : Nat) (board : Board) (tokens : List Token)
    (move : Option Coord) (isRoot : Bool) : GTree × Board :=
  let token_played : Option Token :=
    if isRoot ∧ move = none then none else some (tokens.headD emptyTok)
  let b2 : Board :=
    match move with
    | some m => playForce board.copy m.1 m.2 (tokens.headD emptyTok)
    | none => board.copy
  let w0 := b2.winner
  let w := if w0 = none ∧ b2.full then some "Draw" else w0
  let val : GNode := { move := move, token_played := token_played, grid := b2.board }
  match w with
  | some _ => (.node val [], b2)      -- winner (or draw): no children
  | none =>
    match fuel with
    | 0 => (.node val [], b2)
    | fuel + 1 =>
      let tokens_rotate := if isRoot ∧ move = none then tokens else rotateTokens tokens
      let kids := kidsMake fuel b2 tokens_rotate b2.empty_cells []
      (.node val (kids.map Prod.fst), b2)
termination_by (fuel, 0, 0)

/-- The child-construction loop of the `children` property: one candidate
child per next move, kept only when the list is empty or the candidate is
not isomorphic to any already-kept child. -/
def kidsMake (fuel : Nat) (board : Board) (tokens : List Token) :
    List Coord → List (GTree × Board) → List (GTree × Board)
  | [], kept => kept
  | m :: rest, kept =>
    let child := nodeMake fuel board tokens (some m) false
    if kept.isEmpty then kidsMake fuel board tokens rest (kept ++ [child])
    else if kept.all fun other => !(child.2.isomorphic_to other.2) then
      kidsMake fuel board tokens rest (kept ++ [child])
    else kidsMake fuel board tokens rest kept
termination_by moves _kept => (fuel, 1, moves.length)

end

/-- The pruned game tree of `Node(board, tokens)` (root initialised with no
move), as a tree of node identities. -/
def gameTree (board : Board) (tokens : List Token) : GTree :=
  (nodeMake (board.num_cells + 1) board tokens none true).1

mutual

/-- Number of tree positions. -/
def GTree.size : GTree → Nat
  | .node _ cs => 1 + sizeAll cs

/-- Total size of a list of trees. -/
def sizeAll : List GTree → Nat
  | [] => 0
  | t :: ts => t.size + sizeAll ts

end

/-- `k` applications of the token rotation (the tokens list a node at depth
`k + 1` below the move-less root passes to `Node.__init__`). -/
def rotIter : Nat → List Token → List Token
  | 0, tokens => tokens
  | k + 1, tokens => rotIter k (rotateTokens tokens)

mutual

/-- The traversal the specification describes, as a recursion on the tree:
a depth-first pre-order walk that yields a node's identity and then walks
its children left to right, skipping (with its entire subtree) any node
whose identity has already been yielded.  `vis` is the list of identities
yielded so far. -/
def preYield (vis : List GNode) : GTree → List GNode
  | .node v cs => if vis.contains v then [] else v :: preYieldAll (vis ++ [v]) cs

/-- The same walk over a list of sibling trees, left to right, threading the
yielded identities. -/
def preYieldAll (vis : List GNode) : List GTree → List GNode
  | [] => []
  | t :: ts => preYield vis t ++ preYieldAll (vis ++ preYield vis t) ts

end

/-- What the walk still yields when resuming at node `t`: everything if `t`
has not been yielded yet, and otherwise the remainder of its children walk. -/
def resumeNode (vis : List GNode) (t : GTree) : List GNode :=
  if vis.contains t.val then preYieldAll vis t.children else preYield vis t

/-- What the walk still yields from an iterator position: resume the current
node, then each ancestor in turn. -/
def pathRem (vis : List GNode) : List GTree → List GNode
  | [] => []
  | p :: rest => resumeNode vis p ++ pathRem (vis ++ resumeNode vis p) rest

/-- `p` is a node-to-root chain of `t`: the head is a tree position, each
element is a child of the next, and the last element is the root `t`.  This
is the `parent`-pointer chain of the `Node` the iterator currently holds. -/
inductive IsPath (t : GTree) : List GTree → Prop where
  | root : IsPath t [t]
  | step : ∀ {c p rest}, IsPath t (p :: rest) → c ∈ p.children → IsPath t (c :: p :: rest)

/-- The visited list is subtree-closed outside the exception list `exc`:
any visited identity not in `exc` has every key of every subtree carrying it
already visited.  (`exc` holds the identities of the ancestors still being
walked.) -/
def ClosedExc (t : GTree) (vis exc : List GNode) : Prop :=
  ∀ k ∈ vis, k ∉ exc → ∀ s ∈ t.subtreesList, s.val = k → ∀ k2 ∈ s.keyList, k2 ∈ vis

/-- The state of a board occurring in the game tree grown from root board
`b`: well-formed, same dimensions and empty marker, and its empty-cell list
is the root's, filtered by emptiness in its own grid (play order cannot
reorder `empty_cells`, only delete). -/
def goodBoard (b Bp : Board) : Prop :=
  Bp.WF ∧ Bp.num_rows = b.num_rows ∧ Bp.num_cols = b.num_cols ∧ Bp.empty = emptyTok ∧
  Bp.empty_cells = b.empty_cells.filter fun c => cellD Bp.board c.1 c.2 == emptyTok

/-- The representation every subtree of the pruned game tree admits: either
the root itself, or the node built by playing `m` on a game-state board
reached after `d` moves, with the fuel and token rotation `d` determines. -/
def nodeOK (b : Board) (tokens : List Token) (s : GTree) : Prop :=
  s = gameTree b tokens ∨
  ∃ (Bp : Board) (d : Nat) (m : Coord),
    goodBoard b Bp ∧
    b.empty_cells.length = Bp.empty_cells.length + d ∧
    m ∈ Bp.empty_cells ∧
    s = (nodeMake (b.num_cells - d) Bp (rotIter d tokens) (some m) false).1

/-- Correspondence between two built child entries (tree and private board)
that makes the pruning loop take identical decisions: equal trees, and
boards with equal grids and dimensions. -/
def KidRel (q1 q2 : GTree × Board) : Prop :=
  q1.1 = q2.1 ∧ q1.2.board = q2.2.board ∧
  q1.2.num_rows = q2.2.num_rows ∧ q1.2.num_cols = q2.2.num_cols

/-! ### Concrete example boards for witnesses and counterexamples -/

/-- A 3×3 board with `X` at (0, 1), built by a successful play. -/
def exMid : Board := playForce (Board.fresh 3 3) 0 1 "X"

/-- A 3×3 board with `X` at (0, 0) and (2, 2): symmetric under 180° rotation
but not under 90° rotation. -/
def exDiag : Board := playForce (playForce (Board.fresh 3 3) 0 0 "X") 2 2 "X"

/-- A 3×3 board with the top row all `X`. -/
def exRowX : Board :=
  playForce (playForce (playForce (Board.fresh 3 3) 0 0 "X") 0 1 "X") 0 2 "X"

/-- A 2×2 board with `O` at (0, 0). -/
def exSmall : Board := playForce (Board.fresh 2 2) 0 0 "O"

/-! ## Theorems

First a lemma kit about `cellD`, `gridOfFun` and the list-level grid
transforms, then the claim theorems. -/

theorem getD_range_map {α : Type} (f : Nat → α) (n i : Nat) (d : α) (h : i < n) :
    ((List.range n).map f).getD i d = f i := by
  simp [List.getD_eq_getElem?_getD, List.getElem?_map, List.getElem?_range, h]

theorem getD_range_map_ge {α : Type} (f : Nat → α) (n i : Nat) (d : α) (h : n ≤ i) :
    ((List.range n).map f).getD i d = d := by
  rw [List.getD_eq_getElem?_getD, List.getElem?_eq_none (by simpa using h)]
  rfl

theorem cellD_eq_getElem {g : List (List Token)} {i j : Nat} (hi : i < g.length)
    (hj : j < g[i].length) : cellD g i j = g[i][j] := by
  have h0 : g.getD i [] = g[i] := by
    rw [List.getD_eq_getElem?_getD, List.getElem?_eq_getElem hi, Option.getD_some]
  rw [cellD, h0, List.getD_eq_getElem?_getD, List.getElem?_eq_getElem hj, Option.getD_some]

theorem cellD_gridOfFun (n : Nat) (f : Nat → Nat → Token) (i j : Nat)
    (hi : i < n) (hj : j < n) : cellD (gridOfFun n f) i j = f i j := by
  rw [gridOfFun, cellD, getD_range_map _ _ _ _ hi, getD_range_map _ _ _ _ hj]

theorem gridOfFun_WF (n : Nat) (f : Nat → Nat → Token) : GridWF n (gridOfFun n f) := by
  constructor
  · simp [gridOfFun]
  · intro row hrow
    rw [gridOfFun, List.mem_map] at hrow
    obtain ⟨i, _, rfl⟩ := hrow
    simp

theorem reverse_range_map {α : Type} (f : Nat → α) (n : Nat) :
    ((List.range n).map f).reverse = (List.range n).map fun k => f (n - 1 - k) := by
  apply List.ext_getElem
  · simp
  · intro i h1 h2
    simp only [List.length_reverse, List.length_map, List.length_range] at h1
    rw [List.getElem_reverse]
    simp

theorem gridOfFun_reverse (n : Nat) (f : Nat → Nat → Token) :
    (gridOfFun n f).reverse = gridOfFun n fun i j => f (n - 1 - i) j := by
  rw [gridOfFun, reverse_range_map]
  rfl

theorem gridOfFun_map_reverse (n : Nat) (f : Nat → Nat → Token) :
    (gridOfFun n f).map List.reverse = gridOfFun n fun i j => f i (n - 1 - j) := by
  rw [gridOfFun, List.map_map]
  apply List.map_congr_left
  intro i _
  exact reverse_range_map _ n

theorem columns_eq (b : Board) (hsq : b.num_rows = b.num_cols) :
    b.columns = gridOfFun b.num_rows fun i j => cellD b.board j i := by
  rw [Board.columns, gridOfFun, hsq]

theorem gridExt {n : Nat} {g1 g2 : List (List Token)} (h1 : GridWF n g1) (h2 : GridWF n g2)
    (h : ∀ i < n, ∀ j < n, cellD g1 i j = cellD g2 i j) : g1 = g2 := by
  obtain ⟨hl1, hr1⟩ := h1
  obtain ⟨hl2, hr2⟩ := h2
  apply List.ext_getElem (by omega)
  intro i hi1 hi2
  have hin : i < n := by omega
  apply List.ext_getElem
  · rw [hr1 _ (List.getElem_mem hi1), hr2 _ (List.getElem_mem hi2)]
  · intro j hj1 hj2
    have hjn : j < n := by
      rw [hr1 _ (List.getElem_mem hi1)] at hj1; omega
    have e := h i hin j hjn
    rwa [cellD_eq_getElem hi1 hj1, cellD_eq_getElem hi2 hj2] at e

theorem cellD_reverse {n : Nat} {g : List (List Token)} (hlen : g.length = n)
    (i j : Nat) (hi : i < n) : cellD g.reverse i j = cellD g (n - 1 - i) j := by
  have h1 : i < g.length := by omega
  rw [cellD, cellD, List.getD_eq_getElem?_getD, List.getD_eq_getElem?_getD,
    List.getElem?_reverse h1]
  have e : g.length - 1 - i = n - 1 - i := by omega
  rw [e]
  simp [List.getD_eq_getElem?_getD]

theorem cellD_map_reverse {n : Nat} {g : List (List Token)} (h : GridWF n g)
    (i j : Nat) (hi : i < n) (hj : j < n) :
    cellD (g.map List.reverse) i j = cellD g i (n - 1 - j) := by
  obtain ⟨hl, hr⟩ := h
  have hig : i < g.length := by omega
  have hrowlen : g[i].length = n := hr _ (List.getElem_mem hig)
  have hjr : j < g[i].length := by omega
  have hrev : j < g[i].reverse.length := by simpa using hjr
  have h2 : n - 1 - j < g[i].length := by omega
  have hmi : i < (g.map List.reverse).length := by simpa using hig
  have hmj : j < (g.map List.reverse)[i].length := by
    simpa using hrev
  rw [cellD_eq_getElem hmi hmj, cellD_eq_getElem hig h2]
  have e : (g.map List.reverse)[i][j] = g[i].reverse[j] := by
    simp
  rw [e, List.getElem_reverse]
  congr 1
  omega

theorem GridWF_reverse {n : Nat} {g : List (List Token)} (h : GridWF n g) :
    GridWF n g.reverse := by
  obtain ⟨hl, hr⟩ := h
  exact ⟨by rw [List.length_reverse]; exact hl,
    fun row hrow => hr row (List.mem_reverse.1 hrow)⟩

theorem GridWF_map_reverse {n : Nat} {g : List (List Token)} (h : GridWF n g) :
    GridWF n (g.map List.reverse) := by
  obtain ⟨hl, hr⟩ := h
  refine ⟨by simpa using hl, fun row hrow => ?_⟩
  rw [List.mem_map] at hrow
  obtain ⟨r, hrmem, rfl⟩ := hrow
  simpa using hr r hrmem

theorem rowsRev_eq {n : Nat} {g : List (List Token)} (h : GridWF n g) :
    g.reverse = reflHGrid n g := by
  refine gridExt (GridWF_reverse h) (gridOfFun_WF n _) fun i hi j hj => ?_
  rw [cellD_reverse h.1 i j hi, reflHGrid, cellD_gridOfFun _ _ _ _ hi hj]

theorem rowsMapRev_eq {n : Nat} {g : List (List Token)} (h : GridWF n g) :
    g.map List.reverse = reflVGrid n g := by
  refine gridExt (GridWF_map_reverse h) (gridOfFun_WF n _) fun i hi j hj => ?_
  rw [cellD_map_reverse h i j hi hj, reflVGrid, cellD_gridOfFun _ _ _ _ hi hj]

theorem rowsRevMapRev_eq {n : Nat} {g : List (List Token)} (h : GridWF n g) :
    g.reverse.map List.reverse = rot180Grid n g := by
  refine gridExt (GridWF_map_reverse (GridWF_reverse h)) (gridOfFun_WF n _)
    fun i hi j hj => ?_
  rw [cellD_map_reverse (GridWF_reverse h) i j hi hj, cellD_reverse h.1 _ _ hi,
    rot180Grid, cellD_gridOfFun _ _ _ _ hi hj]

/-! ### The grids the seven transforms produce -/

theorem rotate90_grid (b : Board) (h : b.WFdims) :
    (b.rotate 90).map Board.board = some (rot90Grid b.num_rows b.board) := by
  have e : b.rotate 90 = some (Board.recitfy_game_history
      { Board.fresh b.num_rows b.num_cols with board := b.columns.map List.reverse }) := rfl
  rw [e]
  show some (b.columns.map List.reverse) = _
  rw [columns_eq b h.1, gridOfFun_map_reverse]
  rfl

theorem rotate180_grid (b : Board) (h : b.WFdims) :
    (b.rotate 180).map Board.board = some (rot180Grid b.num_rows b.board) := by
  have e : b.rotate 180 = some (Board.recitfy_game_history
      { Board.fresh b.num_rows b.num_cols with board := b.rows.reverse.map List.reverse }) := rfl
  rw [e]
  show some (b.board.reverse.map List.reverse) = _
  rw [rowsRevMapRev_eq h.2]

theorem rotate270_grid (b : Board) (h : b.WFdims) :
    (b.rotate 270).map Board.board = some (rot270Grid b.num_rows b.board) := by
  have e : b.rotate 270 = some (Board.recitfy_game_history
      { Board.fresh b.num_rows b.num_cols with board := b.columns.reverse }) := rfl
  rw [e]
  show some b.columns.reverse = _
  rw [columns_eq b h.1, gridOfFun_reverse]
  rfl

theorem reflectH_grid (b : Board) (h : b.WFdims) :
    (b.reflect "h").map Board.board = some (reflHGrid b.num_rows b.board) := by
  have e : b.reflect "h" = some (Board.recitfy_game_history
      { b.copy with board := b.rows.reverse }) := rfl
  rw [e]
  show some b.board.reverse = _
  rw [rowsRev_eq h.2]

theorem reflectV_grid (b : Board) (h : b.WFdims) :
    (b.reflect "v").map Board.board = some (reflVGrid b.num_rows b.board) := by
  have e : b.reflect "v" = some (Board.recitfy_game_history
      { b.copy with board := b.rows.map List.reverse }) := rfl
  rw [e]
  show some (b.board.map List.reverse) = _
  rw [rowsMapRev_eq h.2]

theorem reflectMD_grid (b : Board) (h : b.WFdims) :
    (b.reflect "md").map Board.board = some (reflMDGrid b.num_rows b.board) := by
  have e : b.reflect "md" = some (Board.recitfy_game_history
      { b.copy with board := b.columns.reverse.map List.reverse }) := rfl
  rw [e]
  show some (b.columns.reverse.map List.reverse) = _
  rw [columns_eq b h.1, gridOfFun_reverse, gridOfFun_map_reverse]
  rfl

theorem reflectAD_grid (b : Board) (h : b.WFdims) :
    (b.reflect "ad").map Board.board = some (reflADGrid b.num_rows b.board) := by
  have e : b.reflect "ad" = some (Board.recitfy_game_history
      { b.copy with board := b.columns }) := rfl
  rw [e]
  show some b.columns = _
  rw [columns_eq b h.1]
  rfl

/-! ### Involution lemmas: the eight transforms are closed under inversion -/

theorem rot270_rot90 {n : Nat} {g : List (List Token)} (h : GridWF n g) :
    rot270Grid n (rot90Grid n g) = g := by
  refine gridExt (gridOfFun_WF n _) h fun i hi j hj => ?_
  rw [rot270Grid, cellD_gridOfFun _ _ _ _ hi hj,
    rot90Grid, cellD_gridOfFun _ _ _ _ hj (by omega)]
  congr 1
  omega

theorem rot90_rot270 {n : Nat} {g : List (List Token)} (h : GridWF n g) :
    rot90Grid n (rot270Grid n g) = g := by
  refine gridExt (gridOfFun_WF n _) h fun i hi j hj => ?_
  rw [rot90Grid, cellD_gridOfFun _ _ _ _ hi hj,
    rot270Grid, cellD_gridOfFun _ _ _ _ (by omega) hi]
  congr 1
  omega

theorem rot180_rot180 {n : Nat} {g : List (List Token)} (h : GridWF n g) :
    rot180Grid n (rot180Grid n g) = g := by
  refine gridExt (gridOfFun_WF n _) h fun i hi j hj => ?_
  rw [rot180Grid, cellD_gridOfFun _ _ _ _ hi hj,
    rot180Grid, cellD_gridOfFun _ _ _ _ (by omega) (by omega)]
  congr 1 <;> omega

theorem reflH_reflH {n : Nat} {g : List (List Token)} (h : GridWF n g) :
    reflHGrid n (reflHGrid n g) = g := by
  refine gridExt (gridOfFun_WF n _) h fun i hi j hj => ?_
  rw [reflHGrid, cellD_gridOfFun _ _ _ _ hi hj,
    reflHGrid, cellD_gridOfFun _ _ _ _ (by omega) hj]
  congr 1
  omega

theorem reflV_reflV {n : Nat} {g : List (List Token)} (h : GridWF n g) :
    reflVGrid n (reflVGrid n g) = g := by
  refine gridExt (gridOfFun_WF n _) h fun i hi j hj => ?_
  rw [reflVGrid, cellD_gridOfFun _ _ _ _ hi hj,
    reflVGrid, cellD_gridOfFun _ _ _ _ hi (by omega)]
  congr 1
  omega

theorem reflMD_reflMD {n : Nat} {g : List (List Token)} (h : GridWF n g) :
    reflMDGrid n (reflMDGrid n g) = g := by
  refine gridExt (gridOfFun_WF n _) h fun i hi j hj => ?_
  rw [reflMDGrid, cellD_gridOfFun _ _ _ _ hi hj,
    reflMDGrid, cellD_gridOfFun _ _ _ _ (by omega) (by omega)]
  congr 1 <;> omega

theorem reflAD_reflAD {n : Nat} {g : List (List Token)} (h : GridWF n g) :
    reflADGrid n (reflADGrid n g) = g := by
  refine gridExt (gridOfFun_WF n _) h fun i hi j hj => ?_
  rw [reflADGrid, cellD_gridOfFun _ _ _ _ hi hj,
    reflADGrid, cellD_gridOfFun _ _ _ _ hj hi]

/-! ### The shape of the isomorphism list -/

theorem any_map_eq {α β : Type} (f : α → β) (p : β → Bool) (l : List α) :
    (l.map f).any p = l.any fun a => p (f a) := by
  induction l with
  | nil => rfl
  | cons a t ih => simp [List.any_cons, ih]

theorem map_filter_eq {α β : Type} (f : α → β) (q : β → Bool) (l : List α) :
    (l.filter fun x => q (f x)).map f = (l.map f).filter q := by
  induction l with
  | nil => rfl
  | cons a t ih =>
    simp only [List.filter_cons, List.map_cons]
    by_cases hq : q (f a) <;> simp [hq, ih, List.filter_cons]

theorem map_board_some {o : Option Board} {g : List (List Token)}
    (h : o.map Board.board = some g) : ∃ x, o = some x ∧ x.board = g := by
  cases o with
  | none => simp at h
  | some x => exact ⟨x, rfl, by simpa using h⟩

theorem isomorphisms_shape (b : Board) (h : b.WFdims) :
    ∃ r90 r180 r270 fh fv fmd fad : Board,
      r90.board = rot90Grid b.num_rows b.board ∧
      r180.board = rot180Grid b.num_rows b.board ∧
      r270.board = rot270Grid b.num_rows b.board ∧
      fh.board = reflHGrid b.num_rows b.board ∧
      fv.board = reflVGrid b.num_rows b.board ∧
      fmd.board = reflMDGrid b.num_rows b.board ∧
      fad.board = reflADGrid b.num_rows b.board ∧
      b.isomorphisms =
        (b :: ([r90, r180, r270].filter fun x => !(x.board == b.board))) ++
        ([fh, fv, fmd, fad].filter fun x =>
          !((b :: ([r90, r180, r270].filter fun y => !(y.board == b.board))).any
              fun r => x.board == r.board)) := by
  obtain ⟨r90, h90, g90⟩ := map_board_some (rotate90_grid b h)
  obtain ⟨r180, h180, g180⟩ := map_board_some (rotate180_grid b h)
  obtain ⟨r270, h270, g270⟩ := map_board_some (rotate270_grid b h)
  obtain ⟨fh, hh, gh⟩ := map_board_some (reflectH_grid b h)
  obtain ⟨fv, hv, gv⟩ := map_board_some (reflectV_grid b h)
  obtain ⟨fmd, hmd, gmd⟩ := map_board_some (reflectMD_grid b h)
  obtain ⟨fad, had, gad⟩ := map_board_some (reflectAD_grid b h)
  refine ⟨r90, r180, r270, fh, fv, fmd, fad, g90, g180, g270, gh, gv, gmd, gad, ?_⟩
  simp only [Board.isomorphisms, h90, h180, h270, hh, hv, hmd, had,
    List.reduceOption_cons_of_some, List.reduceOption_nil]

/-- Membership in the isomorphism list, at grid level: a board counts as
isomorphic to `b` exactly when its grid is one of the eight dihedral
transform grids of `b`.  (The two de-duplicating filters never remove a grid
without a grid-equal board remaining in the list.) -/
theorem isomorphic_to_iff (a b : Board) (h : b.WFdims) :
    a.isomorphic_to b = true ↔ a.board ∈ grid8 b := by
  obtain ⟨r90, r180, r270, fh, fv, fmd, fad, g90, g180, g270, gh, gv, gmd, gad, hiso⟩ :=
    isomorphisms_shape b h
  rw [Board.isomorphic_to, hiso, List.any_eq_true]
  constructor
  · rintro ⟨x, hx, hbx⟩
    have hxa : a.board = x.board := by simpa using hbx
    rw [List.mem_append] at hx
    simp only [grid8, List.mem_cons, List.mem_singleton]
    rcases hx with hx | hx
    · rcases List.mem_cons.1 hx with rfl | hx
      · exact Or.inl hxa
      · have hx2 := (List.mem_filter.1 hx).1
        simp only [List.mem_cons, List.not_mem_nil, or_false] at hx2
        rcases hx2 with rfl | rfl | rfl
        · exact Or.inr (Or.inl (hxa.trans g90))
        · exact Or.inr (Or.inr (Or.inl (hxa.trans g180)))
        · exact Or.inr (Or.inr (Or.inr (Or.inl (hxa.trans g270))))
    · have hx2 := (List.mem_filter.1 hx).1
      simp only [List.mem_cons, List.not_mem_nil, or_false] at hx2
      rcases hx2 with rfl | rfl | rfl | rfl
      · exact Or.inr (Or.inr (Or.inr (Or.inr (Or.inl (hxa.trans gh)))))
      · exact Or.inr (Or.inr (Or.inr (Or.inr (Or.inr (Or.inl (hxa.trans gv))))))
      · exact Or.inr (Or.inr (Or.inr (Or.inr (Or.inr (Or.inr (Or.inl (hxa.trans gmd)))))))
      · exact Or.inr (Or.inr (Or.inr (Or.inr (Or.inr (Or.inr (Or.inr (Or.inl (hxa.trans gad))))))))
  · intro hmem
    -- helper: a rotation either survives its filter or its grid equals b's
    have useRot : ∀ r : Board, r ∈ ([r90, r180, r270] : List Board) → a.board = r.board →
        ∃ x, x ∈ (b :: ([r90, r180, r270].filter fun x => !(x.board == b.board))) ++
          ([fh, fv, fmd, fad].filter fun x =>
            !((b :: ([r90, r180, r270].filter fun y => !(y.board == b.board))).any
                fun r2 => x.board == r2.board)) ∧ (a.board == x.board) = true := by
      intro r hr har
      by_cases hrb : r.board = b.board
      · exact ⟨b, List.mem_append_left _ (List.mem_cons_self _ _),
          by simp [har, hrb]⟩
      · refine ⟨r, List.mem_append_left _ (List.mem_cons_of_mem _ ?_), by simp [har]⟩
        exact List.mem_filter.2 ⟨hr, by simp [hrb]⟩
    have useRefl : ∀ f : Board, f ∈ ([fh, fv, fmd, fad] : List Board) → a.board = f.board →
        ∃ x, x ∈ (b :: ([r90, r180, r270].filter fun x => !(x.board == b.board))) ++
          ([fh, fv, fmd, fad].filter fun x =>
            !((b :: ([r90, r180, r270].filter fun y => !(y.board == b.board))).any
                fun r2 => x.board == r2.board)) ∧ (a.board == x.board) = true := by
      intro f hf haf
      by_cases hq : ((b :: ([r90, r180, r270].filter fun y => !(y.board == b.board))).any
          fun r2 => f.board == r2.board) = true
      · rw [List.any_eq_true] at hq
        obtain ⟨r, hrmem, hfr⟩ := hq
        exact ⟨r, List.mem_append_left _ hrmem,
          by simp only [beq_iff_eq] at hfr ⊢; exact haf.trans hfr⟩
      · refine ⟨f, List.mem_append_right _ ?_, by simp [haf]⟩
        exact List.mem_filter.2 ⟨hf, by simp only [Bool.not_eq_true] at hq; simp [hq]⟩
    simp only [grid8, List.mem_cons, List.not_mem_nil, or_false] at hmem
    rcases hmem with hm | hm | hm | hm | hm | hm | hm | hm
    · exact ⟨b, List.mem_append_left _ (List.mem_cons_self _ _), by simp [hm]⟩
    · exact useRot r90 (by simp) (by rw [hm, g90])
    · exact useRot r180 (by simp) (by rw [hm, g180])
    · exact useRot r270 (by simp) (by rw [hm, g270])
    · exact useRefl fh (by simp) (by rw [hm, gh])
    · exact useRefl fv (by simp) (by rw [hm, gv])
    · exact useRefl fmd (by simp) (by rw [hm, gmd])
    · exact useRefl fad (by simp) (by rw [hm, gad])

/-- Reflexivity of `isomorphic_to` holds for every board: the board itself
heads its own isomorphism list. -/
theorem isomorphic_to_self (C : Board) : C.isomorphic_to C = true := by
  rw [Board.isomorphic_to, List.any_eq_true]
  refine ⟨C, ?_, by simp⟩
  simp [Board.isomorphisms]

/-- **C7**: `isomorphic_to` is reflexive — every board is isomorphic to
itself — and, for boards of equal size with well-shaped square grids, it is
symmetric: `A.isomorphic_to(B)` holds iff `B.isomorphic_to(A)` holds.
(Symmetry holds because each of the eight dihedral grid transforms has its
inverse among the eight.) -/
theorem C7_isomorphic_refl_symm (A B : Board) (hA : A.WFdims) (hB : B.WFdims)
    (hn : A.num_rows = B.num_rows) :
    A.isomorphic_to A = true ∧
      (A.isomorphic_to B = true ↔ B.isomorphic_to A = true) := by
  have symmAux : ∀ C D : Board, C.WFdims → D.WFdims → C.num_rows = D.num_rows →
      C.isomorphic_to D = true → D.isomorphic_to C = true := by
    intro C D hC hD hnr hCD
    rw [isomorphic_to_iff C D hD] at hCD
    rw [isomorphic_to_iff D C hC]
    have hgD : GridWF D.num_rows D.board := hD.2
    have hgD2 : GridWF C.num_rows D.board := by rw [hnr]; exact hgD
    simp only [grid8, List.mem_cons, List.not_mem_nil, or_false] at hCD ⊢
    rcases hCD with hm | hm | hm | hm | hm | hm | hm | hm
    · exact Or.inl hm.symm
    · -- C = rot90 D, so D = rot270 C
      refine Or.inr (Or.inr (Or.inr (Or.inl ?_)))
      rw [hm, ← hnr, rot270_rot90 hgD2]
    · refine Or.inr (Or.inr (Or.inl ?_))
      rw [hm, ← hnr, rot180_rot180 hgD2]
    · refine Or.inr (Or.inl ?_)
      rw [hm, ← hnr, rot90_rot270 hgD2]
    · refine Or.inr (Or.inr (Or.inr (Or.inr (Or.inl ?_))))
      rw [hm, ← hnr, reflH_reflH hgD2]
    · refine Or.inr (Or.inr (Or.inr (Or.inr (Or.inr (Or.inl ?_)))))
      rw [hm, ← hnr, reflV_reflV hgD2]
    · refine Or.inr (Or.inr (Or.inr (Or.inr (Or.inr (Or.inr (Or.inl ?_))))))
      rw [hm, ← hnr, reflMD_reflMD hgD2]
    · refine Or.inr (Or.inr (Or.inr (Or.inr (Or.inr (Or.inr (Or.inr ?_))))))
      rw [hm, ← hnr, reflAD_reflAD hgD2]
  exact ⟨isomorphic_to_self A,
    ⟨symmAux A B hA hB hn, symmAux B A hB hA hn.symm⟩⟩

/-- Witness for C7 at concrete boards: `exDiag` and `exMid` are well-formed
3×3 boards of equal size, and the reflexivity/symmetry conclusion holds for
them. -/
theorem C7_isomorphic_refl_symm_witness :
    exDiag.WFdims ∧ exMid.WFdims ∧ exDiag.num_rows = exMid.num_rows ∧
      (exDiag.isomorphic_to exDiag = true ∧
        (exDiag.isomorphic_to exMid = true ↔ exMid.isomorphic_to exDiag = true)) :=
  ⟨by decide, by decide, by decide,
    C7_isomorphic_refl_symm exDiag exMid (by decide) (by decide) (by decide)⟩

/-- **C2 (amended)**: for a well-formed n×n board and 0-indexed `i, j < n`,
`rotate` 90/180/270 put at (i, j) the values at (n-1-j, i), (n-1-i, n-1-j)
and (j, n-1-i) — the clockwise geometric rotations — and `reflect`
horizontal/vertical put the values at (n-1-i, j) and (i, n-1-j); but the two
diagonal axes are swapped relative to the claim: `reflect('main diagonal')`
puts at (i, j) the value at (n-1-j, n-1-i) (the anti-diagonal reflection)
and `reflect('anti-diagonal')` the value at (j, i) (the main-diagonal
reflection / transpose). -/
theorem C2_transform_cells (b : Board) (h : b.WFdims) (i j : Nat)
    (hi : i < b.num_rows) (hj : j < b.num_rows) :
    ((b.rotate 90).map fun x => cellD x.board i j) =
        some (cellD b.board (b.num_rows - 1 - j) i) ∧
    ((b.rotate 180).map fun x => cellD x.board i j) =
        some (cellD b.board (b.num_rows - 1 - i) (b.num_rows - 1 - j)) ∧
    ((b.rotate 270).map fun x => cellD x.board i j) =
        some (cellD b.board j (b.num_rows - 1 - i)) ∧
    ((b.reflect "horizontal").map fun x => cellD x.board i j) =
        some (cellD b.board (b.num_rows - 1 - i) j) ∧
    ((b.reflect "vertical").map fun x => cellD x.board i j) =
        some (cellD b.board i (b.num_rows - 1 - j)) ∧
    ((b.reflect "main diagonal").map fun x => cellD x.board i j) =
        some (cellD b.board (b.num_rows - 1 - j) (b.num_rows - 1 - i)) ∧
    ((b.reflect "anti-diagonal").map fun x => cellD x.board i j) =
        some (cellD b.board j i) := by
  obtain ⟨r90, h90, g90⟩ := map_board_some (rotate90_grid b h)
  obtain ⟨r180, h180, g180⟩ := map_board_some (rotate180_grid b h)
  obtain ⟨r270, h270, g270⟩ := map_board_some (rotate270_grid b h)
  obtain ⟨fh, hh, gh⟩ := map_board_some (reflectH_grid b h)
  obtain ⟨fv, hv, gv⟩ := map_board_some (reflectV_grid b h)
  obtain ⟨fmd, hmd, gmd⟩ := map_board_some (reflectMD_grid b h)
  obtain ⟨fad, had, gad⟩ := map_board_some (reflectAD_grid b h)
  have eH : b.reflect "horizontal" = b.reflect "h" := rfl
  have eV : b.reflect "vertical" = b.reflect "v" := rfl
  have eMD : b.reflect "main diagonal" = b.reflect "md" := rfl
  have eAD : b.reflect "anti-diagonal" = b.reflect "ad" := rfl
  refine ⟨?_, ?_, ?_, ?_, ?_, ?_, ?_⟩
  · rw [h90]
    show some (cellD r90.board i j) = _
    rw [g90, rot90Grid, cellD_gridOfFun _ _ _ _ hi hj]
  · rw [h180]
    show some (cellD r180.board i j) = _
    rw [g180, rot180Grid, cellD_gridOfFun _ _ _ _ hi hj]
  · rw [h270]
    show some (cellD r270.board i j) = _
    rw [g270, rot270Grid, cellD_gridOfFun _ _ _ _ hi hj]
  · rw [eH, hh]
    show some (cellD fh.board i j) = _
    rw [gh, reflHGrid, cellD_gridOfFun _ _ _ _ hi hj]
  · rw [eV, hv]
    show some (cellD fv.board i j) = _
    rw [gv, reflVGrid, cellD_gridOfFun _ _ _ _ hi hj]
  · rw [eMD, hmd]
    show some (cellD fmd.board i j) = _
    rw [gmd, reflMDGrid, cellD_gridOfFun _ _ _ _ hi hj]
  · rw [eAD, had]
    show some (cellD fad.board i j) = _
    rw [gad, reflADGrid, cellD_gridOfFun _ _ _ _ hi hj]

/-- Witness for the amended C2 at a concrete input: the well-formed board
`exMid` with (i, j) = (1, 0). -/
theorem C2_transform_cells_witness :
    exMid.WFdims ∧ 1 < exMid.num_rows ∧ 0 < exMid.num_rows ∧
      (((exMid.rotate 90).map fun x => cellD x.board 1 0) =
          some (cellD exMid.board (exMid.num_rows - 1 - 0) 1) ∧
       ((exMid.rotate 180).map fun x => cellD x.board 1 0) =
          some (cellD exMid.board (exMid.num_rows - 1 - 1) (exMid.num_rows - 1 - 0)) ∧
       ((exMid.rotate 270).map fun x => cellD x.board 1 0) =
          some (cellD exMid.board 0 (exMid.num_rows - 1 - 1)) ∧
       ((exMid.reflect "horizontal").map fun x => cellD x.board 1 0) =
          some (cellD exMid.board (exMid.num_rows - 1 - 1) 0) ∧
       ((exMid.reflect "vertical").map fun x => cellD x.board 1 0) =
          some (cellD exMid.board 1 (exMid.num_rows - 1 - 0)) ∧
       ((exMid.reflect "main diagonal").map fun x => cellD x.board 1 0) =
          some (cellD exMid.board (exMid.num_rows - 1 - 0) (exMid.num_rows - 1 - 1)) ∧
       ((exMid.reflect "anti-diagonal").map fun x => cellD x.board 1 0) =
          some (cellD exMid.board 0 1)) :=
  ⟨by decide, by decide, by decide, C2_transform_cells exMid (by decide) 1 0 (by decide) (by decide)⟩

/-- **C2 counterexample**: at the concrete board `exMid` (a 3×3 board with
`X` at (0, 1)), the claim's formula for the main-diagonal reflection fails:
cell (1, 0) of `reflect('main diagonal')` does not hold the value of cell
(0, 1) of the original (the code computes the anti-diagonal reflection for
this axis, leaving that cell empty). -/
theorem C2_transform_cells_cex :
    ¬ (((exMid.reflect "main diagonal").map fun x => cellD x.board 1 0) =
        some (cellD exMid.board 0 1)) := by decide

/-- **C1 (amended)**: for a well-formed board, the isomorphism list is,
grid-wise, exactly: the board's own grid first; then the 90/180/270-degree
rotation grids, in that order, discarding those equal to the board's grid
(and only those — rotations are not compared with each other); then the
horizontal/vertical/main-diagonal/anti-diagonal reflection grids, in that
order, discarding those equal to the board's grid or to a *retained*
rotation grid (reflections are not compared with each other).  Duplicates
among the rotations, or among the reflections, are therefore not removed —
see the counterexample. -/
theorem C1_isomorphisms_list (b : Board) (h : b.WFdims) :
    b.isomorphisms.map Board.board =
      b.board ::
        (([rot90Grid b.num_rows b.board, rot180Grid b.num_rows b.board,
           rot270Grid b.num_rows b.board].filter fun g => !(g == b.board)) ++
         ([reflHGrid b.num_rows b.board, reflVGrid b.num_rows b.board,
           reflMDGrid b.num_rows b.board, reflADGrid b.num_rows b.board].filter fun g =>
            !((b.board :: ([rot90Grid b.num_rows b.board, rot180Grid b.num_rows b.board,
                rot270Grid b.num_rows b.board].filter fun g2 => !(g2 == b.board))).any
                fun r => g == r))) := by
  obtain ⟨r90, r180, r270, fh, fv, fmd, fad, g90, g180, g270, gh, gv, gmd, gad, hiso⟩ :=
    isomorphisms_shape b h
  rw [hiso, List.map_append, List.map_cons]
  have hrot : ([r90, r180, r270].filter fun x => !(x.board == b.board)).map Board.board =
      [rot90Grid b.num_rows b.board, rot180Grid b.num_rows b.board,
       rot270Grid b.num_rows b.board].filter fun g => !(g == b.board) := by
    rw [map_filter_eq Board.board (fun g => !(g == b.board))]
    congr 1
    simp [g90, g180, g270]
  have hmapcons : (b.board :: ([rot90Grid b.num_rows b.board, rot180Grid b.num_rows b.board,
        rot270Grid b.num_rows b.board].filter fun g2 => !(g2 == b.board))) =
      (b :: ([r90, r180, r270].filter fun y => !(y.board == b.board))).map Board.board := by
    rw [List.map_cons, hrot]
  have hpred : ∀ x : Board,
      (!((b :: ([r90, r180, r270].filter fun y => !(y.board == b.board))).any
          fun r => x.board == r.board)) =
      (!((b.board :: ([rot90Grid b.num_rows b.board, rot180Grid b.num_rows b.board,
          rot270Grid b.num_rows b.board].filter fun g2 => !(g2 == b.board))).any
          fun r => x.board == r)) := by
    intro x
    rw [hmapcons, any_map_eq]
  have hrefl : ([fh, fv, fmd, fad].filter fun x =>
        !((b :: ([r90, r180, r270].filter fun y => !(y.board == b.board))).any
            fun r => x.board == r.board)).map Board.board =
      [reflHGrid b.num_rows b.board, reflVGrid b.num_rows b.board,
       reflMDGrid b.num_rows b.board, reflADGrid b.num_rows b.board].filter fun g =>
        !((b.board :: ([rot90Grid b.num_rows b.board, rot180Grid b.num_rows b.board,
            rot270Grid b.num_rows b.board].filter fun g2 => !(g2 == b.board))).any
            fun r => g == r) := by
    rw [List.filter_congr fun x _ => hpred x,
      map_filter_eq Board.board (fun g =>
        !((b.board :: ([rot90Grid b.num_rows b.board, rot180Grid b.num_rows b.board,
            rot270Grid b.num_rows b.board].filter fun g2 => !(g2 == b.board))).any
            fun r => g == r))]
    congr 1
    simp [gh, gv, gmd, gad]
  rw [hrot, hrefl, List.cons_append]

/-- Witness for the amended C1 at the concrete board `exDiag`. -/
theorem C1_isomorphisms_list_witness :
    exDiag.WFdims ∧
      exDiag.isomorphisms.map Board.board =
        exDiag.board ::
          (([rot90Grid exDiag.num_rows exDiag.board, rot180Grid exDiag.num_rows exDiag.board,
             rot270Grid exDiag.num_rows exDiag.board].filter fun g => !(g == exDiag.board)) ++
           ([reflHGrid exDiag.num_rows exDiag.board, reflVGrid exDiag.num_rows exDiag.board,
             reflMDGrid exDiag.num_rows exDiag.board,
             reflADGrid exDiag.num_rows exDiag.board].filter fun g =>
              !((exDiag.board :: ([rot90Grid exDiag.num_rows exDiag.board,
                  rot180Grid exDiag.num_rows exDiag.board,
                  rot270Grid exDiag.num_rows exDiag.board].filter fun g2 =>
                    !(g2 == exDiag.board))).any fun r => g == r))) :=
  ⟨by decide, C1_isomorphisms_list exDiag (by decide)⟩

/-- **C1 counterexample**: the claim says no two elements of
`isomorphisms(B)` have cell-wise equal grids.  At `exDiag` — a 3×3 board
with `X` at (0, 0) and (2, 2), symmetric under 180° but not under 90° — the
90° and 270° rotations coincide, neither equals the board itself, and both
survive the filters (rotations are only ever compared against the board), so
the list contains two distinct positions with equal grids. -/
theorem C1_isomorphisms_cex :
    ¬ List.Pairwise (fun x y : Board => x.board ≠ y.board) exDiag.isomorphisms := by
  decide

/-! ### C4: winner detection -/

/-- The boolean the winner scan checks for one line is exactly "some
non-empty token occupies the whole (non-empty) line". -/
theorem uniform_cond_iff (emp : Token) (line : List Token) (hne : line ≠ []) :
    (((line.all fun cell => line.headD emp == cell) && !(line.headD emp == emp)) = true) ↔
    ∃ t, t ≠ emp ∧ ∀ c ∈ line, c = t := by
  constructor
  · intro hc
    rw [Bool.and_eq_true, List.all_eq_true] at hc
    refine ⟨line.headD emp, by simpa using hc.2, fun c hcmem => ?_⟩
    have := hc.1 c hcmem
    simp only [beq_iff_eq] at this
    exact this.symm
  · rintro ⟨t, ht, hall⟩
    match line, hne with
    | a :: tl, _ =>
      have ha : a = t := hall a (List.mem_cons_self a tl)
      rw [Bool.and_eq_true, List.all_eq_true]
      refine ⟨fun c hcmem => ?_, ?_⟩
      · simp only [List.headD_cons, beq_iff_eq, ha]
        exact (hall c hcmem).symm
      · simp [List.headD_cons, ha, ht]

/-- `checkLines` returns the token of the first uniform non-empty line, and
`none` exactly when no line is uniformly occupied. -/
theorem checkLines_spec (emp : Token) (lines : List (List Token))
    (hne : ∀ l ∈ lines, l ≠ []) :
    (∀ t, checkLines emp lines = some t ↔
      ∃ pre line post, lines = pre ++ line :: post ∧
        UniformLine emp line t ∧
        ∀ l2 ∈ pre, ∀ t2, ¬ UniformLine emp l2 t2) ∧
    (checkLines emp lines = none ↔
      ∀ line ∈ lines, ∀ t, ¬ UniformLine emp line t) := by
  induction lines with
  | nil =>
    refine ⟨fun t => ?_, by simp [checkLines]⟩
    simp only [checkLines]
    constructor
    · intro hnone; cases hnone
    · rintro ⟨pre, line, post, habs, -, -⟩
      exact absurd habs (by simp)
  | cons line rest ih =>
    have hlne : line ≠ [] := hne line (List.mem_cons_self _ _)
    have hrne : ∀ l ∈ rest, l ≠ [] := fun l hl => hne l (List.mem_cons_of_mem _ hl)
    obtain ⟨ihsome, ihnone⟩ := ih hrne
    by_cases hc : ((line.all fun cell => line.headD emp == cell) &&
        !(line.headD emp == emp)) = true
    · -- the first line is uniform: the scan returns its head
      obtain ⟨t0, ht0, hall0⟩ := (uniform_cond_iff emp line hlne).1 hc
      have hhead : line.headD emp = t0 := by
        match line, hlne with
        | a :: tl, _ => exact hall0 a (List.mem_cons_self a tl)
      have hval : checkLines emp (line :: rest) = some (line.headD emp) := by
        rw [checkLines, if_pos hc]
      constructor
      · intro t
        rw [hval, hhead]
        constructor
        · rintro h2
          injection h2 with h2
          exact ⟨[], line, rest, by simp, ⟨h2 ▸ ht0, hlne, h2 ▸ hall0⟩, by simp⟩
        · rintro ⟨pre, l2, post, hdec, ⟨htne, hl2ne, hl2all⟩, hpre⟩
          match pre, hdec with
          | [], hdec =>
            have hl2 : l2 = line := by
              have := congrArg (fun l => List.headD l ([] : List Token)) hdec
              simpa using this.symm
            subst hl2
            -- both t0 and t occupy l2, which is non-empty
            match l2, hl2ne with
            | a :: tl, _ =>
              have h1 := hl2all a (List.mem_cons_self a tl)
              have h2 := hall0 a (List.mem_cons_self a tl)
              rw [← h1, h2]
          | p :: pre2, hdec =>
            have hp : p = line := by
              have := congrArg (fun l => List.headD l ([] : List Token)) hdec
              simpa using this.symm
            exact absurd ⟨ht0, hlne, hall0⟩ (hp ▸ hpre p (List.mem_cons_self _ _) t0)
      · rw [hval]
        constructor
        · intro habs; cases habs
        · intro hnone
          exact absurd ⟨ht0, hlne, hall0⟩ (hnone line (List.mem_cons_self _ _) t0)
    · -- the first line is not uniform: the scan continues with the rest
      have hnotuni : ∀ t2, ¬ UniformLine emp line t2 := by
        rintro t2 ⟨ht2, -, hall2⟩
        exact hc ((uniform_cond_iff emp line hlne).2 ⟨t2, ht2, hall2⟩)
      have hval : checkLines emp (line :: rest) = checkLines emp rest := by
        rw [checkLines, if_neg hc]
      constructor
      · intro t
        rw [hval, ihsome t]
        constructor
        · rintro ⟨pre, l2, post, hdec, huni, hpre⟩
          refine ⟨line :: pre, l2, post, by rw [hdec, List.cons_append], huni, ?_⟩
          intro l3 hl3 t3
          rcases List.mem_cons.1 hl3 with rfl | hl3
          · exact hnotuni t3
          · exact hpre l3 hl3 t3
        · rintro ⟨pre, l2, post, hdec, huni, hpre⟩
          match pre, hdec with
          | [], hdec =>
            have hl2 : l2 = line := by
              have := congrArg (fun l => List.headD l ([] : List Token)) hdec
              simpa using this.symm
            exact absurd (hl2 ▸ huni) (hnotuni t)
          | p :: pre2, hdec =>
            have hrest : rest = pre2 ++ l2 :: post := by
              have := congrArg List.tail hdec
              simpa using this
            exact ⟨pre2, l2, post, hrest, huni,
              fun l3 hl3 t3 => hpre l3 (List.mem_cons_of_mem _ hl3) t3⟩
      · rw [hval, ihnone]
        constructor
        · intro hn line2 hline2 t2
          rcases List.mem_cons.1 hline2 with rfl | hline2
          · exact hnotuni t2
          · exact hn line2 hline2 t2
        · intro hn line2 hline2 t2
          exact hn line2 (List.mem_cons_of_mem _ hline2) t2

/-- On a well-formed n×n board with n ≥ 1, every examined line is
non-empty. -/
theorem linesInOrder_ne (b : Board) (h : b.WFdims) (hn : 1 ≤ b.num_rows) :
    ∀ l ∈ b.linesInOrder, l ≠ [] := by
  intro l hl
  rw [Board.linesInOrder, List.mem_append, List.mem_append] at hl
  rcases hl with (hl | hl) | hl
  · have := h.2.2 l hl
    intro habs
    rw [habs] at this
    simp only [List.length_nil] at this
    omega
  · rw [Board.columns, List.mem_map] at hl
    obtain ⟨c, -, rfl⟩ := hl
    intro habs
    have := congrArg List.length habs
    simp only [List.length_map, List.length_range, List.length_nil] at this
    omega
  · rcases List.mem_cons.1 hl with rfl | hl
    · intro habs
      have := congrArg List.length habs
      simp only [Board.main_diagonal, List.length_map, List.length_range,
        List.length_nil] at this
      omega
    · rcases List.mem_cons.1 hl with rfl | hl
      · intro habs
        have := congrArg List.length habs
        simp only [Board.anti_diagonal, List.length_map, List.length_range,
          List.length_nil] at this
        omega
      · cases hl

/-- **C4**: for every well-formed board (n ≥ 1), `winner()` returns `some t`
exactly when `t` occupies the first fully-uniform non-empty line in the
check order rows (top to bottom), columns (left to right), main diagonal,
anti-diagonal — in particular, with several simultaneous winning lines of
different tokens, the first-checked line's token is the result — and
returns `none` exactly when no non-empty uniform line exists. -/
theorem C4_winner_first_uniform_line (b : Board) (h : b.WFdims) (hn : 1 ≤ b.num_rows) :
    (∀ t, b.winner = some t ↔
      ∃ pre line post, b.linesInOrder = pre ++ line :: post ∧
        UniformLine b.empty line t ∧
        ∀ l2 ∈ pre, ∀ t2, ¬ UniformLine b.empty l2 t2) ∧
    (b.winner = none ↔ ∀ line ∈ b.linesInOrder, ∀ t, ¬ UniformLine b.empty line t) :=
  checkLines_spec b.empty b.linesInOrder (linesInOrder_ne b h hn)

/-! ### Well-formedness: establishment and preservation (C5, C6) -/

/-- The full coordinate enumeration `Board.__init__` uses has length
rows·cols. -/
theorem coordEnum_length (n m : Nat) :
    ((List.range n).flatMap fun i => (List.range m).map fun j => (i, j)).length = n * m := by
  rw [List.length_flatMap]
  have e : (List.map (List.length ∘ fun i => List.map (fun j => (i, j)) (List.range m))
      (List.range n)) = List.replicate n m := by
    rw [show (List.length ∘ fun i => List.map (fun j : Nat => (i, j)) (List.range m)) =
      fun i => m by funext i; simp]
    simp [List.map_const]
  rw [e, List.sum_replicate, smul_eq_mul]

theorem coordEnum_nodup (n m : Nat) :
    ((List.range n).flatMap fun i => (List.range m).map fun j => (i, j)).Nodup := by
  show ((List.range n).product (List.range m)).Nodup
  exact List.Nodup.product (List.nodup_range n) (List.nodup_range m)

theorem coordEnum_mem (n m : Nat) (p : Coord) :
    (p ∈ (List.range n).flatMap fun i => (List.range m).map fun j => (i, j)) ↔
      p.1 < n ∧ p.2 < m := by
  rw [List.mem_flatMap]
  constructor
  · rintro ⟨a, ha, hp⟩
    rw [List.mem_map] at hp
    obtain ⟨b, hb, rfl⟩ := hp
    exact ⟨List.mem_range.1 ha, List.mem_range.1 hb⟩
  · rintro ⟨h1, h2⟩
    exact ⟨p.1, List.mem_range.2 h1, List.mem_map.2 ⟨p.2, List.mem_range.2 h2, by rfl⟩⟩

/-- Reading a cell after the assignment `board[row][col] = token`. -/
theorem cellD_set {n : Nat} {g : List (List Token)} (hwf : GridWF n g)
    {row col : Nat} (hrow : row < n) (hcol : col < n) (t : Token) (i j : Nat)
    (hi : i < n) (hj : j < n) :
    cellD (g.set row ((g.getD row []).set col t)) i j =
      if i = row ∧ j = col then t else cellD g i j := by
  obtain ⟨hl, hr⟩ := hwf
  have hrg : row < g.length := by omega
  have hig : i < g.length := by omega
  have hrowget : g.getD row [] = g[row] := by
    rw [List.getD_eq_getElem?_getD, List.getElem?_eq_getElem hrg, Option.getD_some]
  have hrowlen : g[row].length = n := hr _ (List.getElem_mem hrg)
  by_cases hir : i = row
  · subst hir
    have houter : (g.set i ((g.getD i []).set col t)).getD i [] = (g.getD i []).set col t := by
      rw [List.getD_eq_getElem?_getD, List.getElem?_set, if_pos rfl, if_pos hig,
        Option.getD_some]
    by_cases hjc : j = col
    · subst hjc
      rw [if_pos ⟨rfl, rfl⟩, cellD, houter, hrowget]
      rw [List.getD_eq_getElem?_getD, List.getElem?_set, if_pos rfl, if_pos (by omega),
        Option.getD_some]
    · rw [if_neg (by tauto), cellD, houter, hrowget]
      have hinner : (g[i].set col t).getD j emptyTok = g[i].getD j emptyTok := by
        rw [List.getD_eq_getElem?_getD, List.getElem?_set,
          if_neg (fun habs => hjc habs.symm), ← List.getD_eq_getElem?_getD]
      rw [hinner, cellD, hrowget]
  · rw [if_neg (by tauto), cellD, cellD]
    have houter : (g.set row ((g.getD row []).set col t)).getD i [] = g.getD i [] := by
      rw [List.getD_eq_getElem?_getD, List.getElem?_set,
        if_neg (fun habs => hir habs.symm), ← List.getD_eq_getElem?_getD]
    rw [houter]

/-- A fresh board is well-formed. -/
theorem WF_fresh (n : Nat) : (Board.fresh n n).WF := by
  have hcell : ∀ i < n, ∀ j < n,
      cellD (List.replicate n (List.replicate n emptyTok)) i j = emptyTok := by
    intro i hi j hj
    have houter : (List.replicate n (List.replicate n emptyTok)).getD i [] =
        List.replicate n emptyTok := by
      rw [List.getD_eq_getElem?_getD, List.getElem?_replicate, if_pos hi, Option.getD_some]
    rw [cellD, houter, List.getD_eq_getElem?_getD, List.getElem?_replicate, if_pos hj,
      Option.getD_some]
  refine ⟨⟨rfl, by simp [Board.fresh], ?_⟩, rfl, ?_, List.nodup_nil, ?_, ?_, ?_, ?_⟩
  · intro row hrow
    rw [Board.fresh] at hrow
    rw [List.eq_of_mem_replicate hrow, List.length_replicate]
    rfl
  · exact coordEnum_nodup n n
  · intro p hp
    exact (coordEnum_mem n n p).1 hp
  · intro p hp
    cases hp
  · intro i hi j hj
    constructor
    · intro _
      exact hcell i hi j hj
    · intro _
      exact (coordEnum_mem n n (i, j)).2 ⟨hi, hj⟩
  · intro i hi j hj
    constructor
    · intro habs
      cases habs
    · intro habs
      exact absurd (hcell i hi j hj) habs

/-- A successful play on a well-formed board with a non-empty token yields a
well-formed board. -/
theorem WF_play {b b2 : Board} {row col : Nat} {t : Token} (h : b.WF)
    (hrow : row < b.num_rows) (hcol : col < b.num_cols) (ht : t ≠ emptyTok)
    (hp : b.play row col t = .ok b2) : b2.WF := by
  obtain ⟨⟨hsq, hgl, hgr⟩, hemp, hen, hpn, her, hpr, hei, hpi⟩ := h
  by_cases h1 : (row, col) ∈ b.played_positions
  · rw [Board.play, if_pos h1] at hp
    exact Except.noConfusion hp
  by_cases h2 : (row, col) ∈ b.empty_cells
  case neg =>
    rw [Board.play, if_neg h1, if_neg h2] at hp
    exact Except.noConfusion hp
  rw [Board.play, if_neg h1, if_pos h2] at hp
  injection hp with hp
  subst hp
  have hgwf : GridWF b.num_rows b.board := ⟨hgl, hgr⟩
  have hcell : ∀ i, i < b.num_rows → ∀ j, j < b.num_cols →
      cellD (b.board.set row ((b.board.getD row []).set col t)) i j =
        if i = row ∧ j = col then t else cellD b.board i j := by
    intro i hi j hj
    exact cellD_set hgwf hrow (by omega) t i j hi (by omega)
  refine ⟨⟨hsq, ?_, ?_⟩, hemp, hen.erase _, ?_, ?_, ?_, ?_, ?_⟩
  · show (b.board.set row _).length = b.num_rows
    rw [List.length_set]; exact hgl
  · intro r hr
    rcases List.mem_or_eq_of_mem_set hr with hr | rfl
    · exact hgr r hr
    · rw [List.length_set]
      by_cases hrl : row < b.board.length
      · have : b.board.getD row [] = b.board[row] := by
          rw [List.getD_eq_getElem?_getD, List.getElem?_eq_getElem hrl, Option.getD_some]
        rw [this]
        exact hgr _ (List.getElem_mem hrl)
      · rw [List.getD_eq_getElem?_getD, List.getElem?_eq_none (by omega)]
        exfalso; omega
  · rw [List.nodup_append]
    refine ⟨hpn, List.nodup_singleton _, ?_⟩
    intro p hpmem
    simp only [List.mem_singleton]
    rintro rfl
    exact h1 hpmem
  · intro p hpmem
    exact her p (List.mem_of_mem_erase hpmem)
  · intro p hpmem
    rw [List.mem_append, List.mem_singleton] at hpmem
    rcases hpmem with hpmem | rfl
    · exact hpr p hpmem
    · exact ⟨hrow, hcol⟩
  · intro i hi j hj
    rw [hen.mem_erase_iff, hcell i hi j hj]
    constructor
    · rintro ⟨hne, hmem⟩
      rw [if_neg (by rintro ⟨rfl, rfl⟩; exact hne rfl)]
      exact (hei i hi j hj).1 hmem
    · intro hcl
      by_cases hij : i = row ∧ j = col
      · rw [if_pos hij] at hcl
        exact absurd hcl ht
      · rw [if_neg hij] at hcl
        refine ⟨?_, (hei i hi j hj).2 hcl⟩
        rintro habs
        apply hij
        exact ⟨congrArg Prod.fst habs, congrArg Prod.snd habs⟩
  · intro i hi j hj
    rw [List.mem_append, List.mem_singleton, hcell i hi j hj]
    constructor
    · rintro (hmem | habs)
      · rw [if_neg]
        · exact (hpi i hi j hj).1 hmem
        · rintro ⟨rfl, rfl⟩
          exact h1 hmem
      · rw [show i = row from congrArg Prod.fst habs,
          show j = col from congrArg Prod.snd habs, if_pos ⟨rfl, rfl⟩]
        exact ht
    · intro hcl
      by_cases hij : i = row ∧ j = col
      · exact Or.inr (by rw [hij.1, hij.2])
      · rw [if_neg hij] at hcl
        exact Or.inl ((hpi i hi j hj).2 hcl)

/-- The partition counting consequence of well-formedness. -/
theorem WF_count (b : Board) (h : b.WF) :
    b.played_positions.length + b.empty_cells.length = b.num_rows * b.num_cols := by
  obtain ⟨⟨hsq, hgl, hgr⟩, hemp, hen, hpn, her, hpr, hei, hpi⟩ := h
  have hdisj : b.played_positions.Disjoint b.empty_cells := by
    intro p hp hp2
    obtain ⟨h1, h2⟩ := hpr p hp
    exact absurd ((hei p.1 h1 p.2 (by omega)).1 (by simpa using hp2))
      (by simpa using (hpi p.1 h1 p.2 (by omega)).1 (by simpa using hp))
  have hnodup : (b.played_positions ++ b.empty_cells).Nodup :=
    List.Nodup.append hpn hen hdisj
  have hmemiff : ∀ p : Coord, p ∈ b.played_positions ++ b.empty_cells ↔
      p ∈ (List.range b.num_rows).flatMap fun i =>
        (List.range b.num_cols).map fun j => (i, j) := by
    intro p
    rw [List.mem_append, coordEnum_mem]
    constructor
    · rintro (hp | hp)
      · exact hpr p hp
      · exact her p hp
    · rintro ⟨h1, h2⟩
      by_cases hc : cellD b.board p.1 p.2 = emptyTok
      · exact Or.inr (by simpa using (hei p.1 h1 p.2 h2).2 hc)
      · exact Or.inl (by simpa using (hpi p.1 h1 p.2 h2).2 hc)
  have hperm := (List.perm_ext_iff_of_nodup hnodup
    (coordEnum_nodup b.num_rows b.num_cols)).2 hmemiff
  have := hperm.length_eq
  rw [List.length_append, coordEnum_length] at this
  exact this

/-- `recitfy_game_history` establishes well-formedness from scratch on any
board whose grid is a well-shaped square and whose empty marker is the
standard one. -/
theorem WF_rectify (x : Board) (hsq : x.num_rows = x.num_cols)
    (hg : GridWF x.num_rows x.board) (hemp : x.empty = emptyTok) :
    x.recitfy_game_history.WF := by
  obtain ⟨hl, hr⟩ := hg
  set n := x.num_rows with hn
  set m := (x.board.headD []).length with hm
  have hmn : 1 ≤ n → m = n := by
    intro h1
    match e : x.board, (show x.board ≠ [] by intro habs; rw [habs] at hl; simp at hl; omega) with
    | a :: tl, _ =>
      have : a ∈ x.board := by rw [e]; exact List.mem_cons_self _ _
      have := hr a this
      rw [hm, e]
      simp only [List.headD_cons]
      omega
  have hcellsmem : ∀ pc : Coord × Token,
      (pc ∈ (List.range x.board.length).flatMap fun i =>
        (List.range m).map fun j => ((i, j), cellD x.board i j)) ↔
      (pc.1.1 < n ∧ pc.1.2 < m ∧ pc.2 = cellD x.board pc.1.1 pc.1.2) := by
    intro pc
    rw [List.mem_flatMap]
    constructor
    · rintro ⟨a, ha, hpc⟩
      rw [List.mem_map] at hpc
      obtain ⟨b2, hb2, rfl⟩ := hpc
      exact ⟨by rw [← hl]; exact List.mem_range.1 ha, List.mem_range.1 hb2, rfl⟩
    · rintro ⟨h1, h2, h3⟩
      refine ⟨pc.1.1, List.mem_range.2 (by omega), List.mem_map.2
        ⟨pc.1.2, List.mem_range.2 h2, ?_⟩⟩
      show (pc.1, cellD x.board pc.1.1 pc.1.2) = pc
      rw [← h3]
  have hfstmap : (((List.range x.board.length).flatMap fun i =>
      (List.range m).map fun j => ((i, j), cellD x.board i j)).map Prod.fst) =
      (List.range x.board.length).flatMap fun i => (List.range m).map fun j => (i, j) := by
    rw [List.map_flatMap]
    apply List.flatMap_congr
    intro a _
    rw [List.map_map]
    rfl
  have hfstnodup : (((List.range x.board.length).flatMap fun i =>
      (List.range m).map fun j => ((i, j), cellD x.board i j)).map Prod.fst).Nodup := by
    rw [hfstmap]
    exact coordEnum_nodup _ _
  have hsubnodup : ∀ q : Coord × Token → Bool,
      ((((List.range x.board.length).flatMap fun i =>
        (List.range m).map fun j => ((i, j), cellD x.board i j)).filter q).map
          Prod.fst).Nodup := by
    intro q
    exact hfstnodup.sublist (List.Sublist.map Prod.fst (List.filter_sublist _))
  have hfiltmem : ∀ (q : Coord × Token → Bool) (p : Coord),
      (p ∈ (((List.range x.board.length).flatMap fun i =>
        (List.range m).map fun j => ((i, j), cellD x.board i j)).filter q).map
          Prod.fst) ↔
      (p.1 < n ∧ p.2 < m ∧ q (p, cellD x.board p.1 p.2) = true) := by
    intro q p
    rw [List.mem_map]
    constructor
    · rintro ⟨pc, hpc, rfl⟩
      rw [List.mem_filter] at hpc
      obtain ⟨hpc, hq⟩ := hpc
      obtain ⟨h1, h2, h3⟩ := (hcellsmem pc).1 hpc
      refine ⟨h1, h2, ?_⟩
      have : pc = (pc.1, cellD x.board pc.1.1 pc.1.2) := by
        rw [← h3]
      rw [← this]
      exact hq
    · rintro ⟨h1, h2, hq⟩
      refine ⟨(p, cellD x.board p.1 p.2), List.mem_filter.2 ⟨?_, hq⟩, rfl⟩
      exact (hcellsmem (p, cellD x.board p.1 p.2)).2 ⟨h1, h2, rfl⟩
  show Board.WF _
  rw [Board.recitfy_game_history]
  refine ⟨⟨hsq, hl, hr⟩, hemp, hsubnodup _, hsubnodup _, ?_, ?_, ?_, ?_⟩
  · intro p hp
    obtain ⟨h1, h2, -⟩ := (hfiltmem _ p).1 hp
    have hmeq := hmn (by omega)
    show p.1 < x.num_rows ∧ p.2 < x.num_cols
    omega
  · intro p hp
    obtain ⟨h1, h2, -⟩ := (hfiltmem _ p).1 hp
    have hmeq := hmn (by omega)
    show p.1 < x.num_rows ∧ p.2 < x.num_cols
    omega
  · intro i hi j hj
    have hi2 : i < x.num_rows := hi
    have hj2 : j < x.num_cols := hj
    rw [hfiltmem]
    have hmeq := hmn (by omega)
    rw [hemp]
    constructor
    · rintro ⟨-, -, hq⟩
      simpa using hq
    · intro hc
      exact ⟨by omega, by omega, by simpa using hc⟩
  · intro i hi j hj
    have hi2 : i < x.num_rows := hi
    have hj2 : j < x.num_cols := hj
    rw [hfiltmem]
    have hmeq := hmn (by omega)
    rw [hemp]
    constructor
    · rintro ⟨-, -, hq⟩
      simpa using hq
    · intro hc
      exact ⟨by omega, by omega, by simpa using hc⟩

/-- The columns of a well-formed board form a well-shaped square grid. -/
theorem columns_WF (b : Board) (hsq : b.num_rows = b.num_cols) :
    GridWF b.num_rows b.columns := by
  rw [columns_eq b hsq]
  exact gridOfFun_WF _ _

/-- A successful `rotate` yields a well-formed board. -/
theorem WF_rotate {b b2 : Board} {d : Nat} (h : b.WF) (hro : b.rotate d = some b2) :
    b2.WF := by
  obtain ⟨⟨hsq, hgwf⟩, hemp, -⟩ := h
  rw [Board.rotate] at hro
  split_ifs at hro with hd h90 h180
  · injection hro with hro
    subst hro
    exact WF_rectify _ hsq (GridWF_map_reverse (columns_WF b hsq)) rfl
  · injection hro with hro
    subst hro
    exact WF_rectify _ hsq (GridWF_map_reverse (GridWF_reverse hgwf)) rfl
  · injection hro with hro
    subst hro
    exact WF_rectify _ hsq (GridWF_reverse (columns_WF b hsq)) rfl

/-- A successful `reflect` yields a well-formed board. -/
theorem WF_reflect {b b2 : Board} {axis : String} (h : b.WF)
    (hre : b.reflect axis = some b2) : b2.WF := by
  obtain ⟨⟨hsq, hgwf⟩, hemp, -⟩ := h
  rw [Board.reflect] at hre
  split_ifs at hre with hax hh hv hmd
  · injection hre with hre
    subst hre
    exact WF_rectify _ hsq (GridWF_reverse hgwf) hemp
  · injection hre with hre
    subst hre
    exact WF_rectify _ hsq (GridWF_map_reverse hgwf) hemp
  · injection hre with hre
    subst hre
    exact WF_rectify _ hsq (GridWF_map_reverse (GridWF_reverse (columns_WF b hsq))) hemp
  · injection hre with hre
    subst hre
    exact WF_rectify _ hsq (columns_WF b hsq) hemp

/-- Every reachable board is well-formed. -/
theorem Reachable_WF {b : Board} (h : Reachable b) : b.WF := by
  induction h with
  | init n => exact WF_fresh n
  | play b row col t b2 _ hrow hcol ht hp ih => exact WF_play ih hrow hcol ht hp
  | copy b _ ih => exact ih
  | rotate b d b2 _ hro ih => exact WF_rotate ih hro
  | reflect b a b2 _ hre ih => exact WF_reflect ih hre

/-- **C5**: for every board built from a fresh board by successful in-range
plays of non-empty tokens, and every board obtained from such boards by
`copy`, `rotate` or `reflect`: `played_positions` and `empty_cells`
partition the coordinate space with no overlap, their lengths sum to
`num_rows * num_cols`, and a grid cell holds the empty marker iff its
coordinate is in `empty_cells`. -/
theorem C5_partition (b : Board) (h : Reachable b) :
    (∀ i < b.num_rows, ∀ j < b.num_cols,
      ((i, j) ∈ b.played_positions ↔ (i, j) ∉ b.empty_cells)) ∧
    b.played_positions.length + b.empty_cells.length = b.num_rows * b.num_cols ∧
    (∀ i < b.num_rows, ∀ j < b.num_cols,
      (cellD b.board i j = b.empty ↔ (i, j) ∈ b.empty_cells)) := by
  have hwf := Reachable_WF h
  obtain ⟨hdims, hemp, hen, hpn, her, hpr, hei, hpi⟩ := hwf
  refine ⟨?_, WF_count b (Reachable_WF h), ?_⟩
  · intro i hi j hj
    rw [hpi i hi j hj, hei i hi j hj]
  · intro i hi j hj
    rw [hemp]
    exact (hei i hi j hj).symm

/-- Witness for C5 at the concrete reachable board `exMid`. -/
theorem C5_partition_witness :
    Reachable exMid ∧
      ((∀ i < exMid.num_rows, ∀ j < exMid.num_cols,
        ((i, j) ∈ exMid.played_positions ↔ (i, j) ∉ exMid.empty_cells)) ∧
      exMid.played_positions.length + exMid.empty_cells.length =
        exMid.num_rows * exMid.num_cols ∧
      (∀ i < exMid.num_rows, ∀ j < exMid.num_cols,
        (cellD exMid.board i j = exMid.empty ↔ (i, j) ∈ exMid.empty_cells))) :=
  have hre : Reachable exMid :=
    Reachable.play (Board.fresh 3 3) 0 1 "X" exMid (Reachable.init 3)
      (by decide) (by decide) (by decide) rfl
  ⟨hre, C5_partition exMid hre⟩

/-- **C6**: on a reachable board, `play(row, col, token)` with in-range
coordinates raises the "already played" `IndexError` — whose message shows
1-indexed coordinates — exactly when (row, col) is in `played_positions`
(so playing the same cell twice always fails the second time, whatever the
token; the check precedes every mutation, so a failing call leaves the
board unchanged, which the `Except` embedding renders by returning the
error without a new board).  On success the grid cell holds the token, the
position and token are appended to the histories, and the coordinate is
removed from `empty_cells`. -/
theorem C6_play_contract (b : Board) (h : Reachable b) (row col : Nat) (t : Token)
    (hrow : row < b.num_rows) (hcol : col < b.num_cols) :
    ((∃ b2, b.play row col t = .ok b2) ↔ (row, col) ∉ b.played_positions) ∧
    (b.play row col t =
        .error s!"Invalid Positon - ({row + 1},{col + 1}) has already been played!" ↔
      (row, col) ∈ b.played_positions) ∧
    (∀ b2, b.play row col t = .ok b2 →
      cellD b2.board row col = t ∧
      b2.played_positions = b.played_positions ++ [(row, col)] ∧
      b2.played_tokens = b.played_tokens ++ [t] ∧
      b2.empty_cells = b.empty_cells.erase (row, col) ∧
      (row, col) ∉ b2.empty_cells ∧
      (∀ t2, b2.play row col t2 =
        .error s!"Invalid Positon - ({row + 1},{col + 1}) has already been played!")) := by
  obtain ⟨⟨hsq, hgl, hgr⟩, hemp, hen, hpn, her, hpr, hei, hpi⟩ := Reachable_WF h
  have hokiff : (∃ b2, b.play row col t = .ok b2) ↔ (row, col) ∉ b.played_positions := by
    constructor
    · rintro ⟨b2, hp⟩ hmem
      rw [Board.play, if_pos hmem] at hp
      exact Except.noConfusion hp
    · intro hmem
      have hcell : cellD b.board row col = emptyTok := by
        by_contra hc
        exact hmem ((hpi row hrow col (by omega)).2 hc)
      have hecmem : (row, col) ∈ b.empty_cells := (hei row hrow col (by omega)).2 hcell
      exact ⟨_, by rw [Board.play, if_neg hmem, if_pos hecmem]⟩
  refine ⟨hokiff, ?_, ?_⟩
  · constructor
    · intro herr
      by_contra hmem
      have hcell : cellD b.board row col = emptyTok := by
        by_contra hc
        exact hmem ((hpi row hrow col (by omega)).2 hc)
      have hecmem : (row, col) ∈ b.empty_cells := (hei row hrow col (by omega)).2 hcell
      rw [Board.play, if_neg hmem, if_pos hecmem] at herr
      exact Except.noConfusion herr
    · intro hmem
      rw [Board.play, if_pos hmem]
  · intro b2 hp
    by_cases hmem : (row, col) ∈ b.played_positions
    · rw [Board.play, if_pos hmem] at hp
      exact Except.noConfusion hp
    · by_cases hec : (row, col) ∈ b.empty_cells
      · rw [Board.play, if_neg hmem, if_pos hec] at hp
        injection hp with hp
        subst hp
        have hgwf : GridWF b.num_rows b.board := ⟨hgl, hgr⟩
        refine ⟨?_, rfl, rfl, rfl, ?_, ?_⟩
        · show cellD (b.board.set row ((b.board.getD row []).set col t)) row col = t
          rw [cellD_set hgwf hrow (by omega) t row col hrow (by omega), if_pos ⟨rfl, rfl⟩]
        · show (row, col) ∉ b.empty_cells.erase (row, col)
          rw [hen.mem_erase_iff]
          rintro ⟨habs, -⟩
          exact habs rfl
        · intro t2
          have hmem2 : (row, col) ∈ b.played_positions ++ [(row, col)] := by
            rw [List.mem_append, List.mem_singleton]
            exact Or.inr rfl
          show Board.play _ row col t2 = _
          rw [Board.play, if_pos hmem2]
      · rw [Board.play, if_neg hmem, if_neg hec] at hp
        exact Except.noConfusion hp

/-- Witness for C6: on the fresh 3×3 board, playing (0, 1) with token `X`
at in-range coordinates satisfies the contract. -/
theorem C6_play_contract_witness :
    Reachable (Board.fresh 3 3) ∧ 0 < (Board.fresh 3 3).num_rows ∧
      1 < (Board.fresh 3 3).num_cols ∧
      (((∃ b2, (Board.fresh 3 3).play 0 1 "X" = .ok b2) ↔
          (0, 1) ∉ (Board.fresh 3 3).played_positions) ∧
       ((Board.fresh 3 3).play 0 1 "X" =
          .error "Invalid Positon - (1,2) has already been played!" ↔
        (0, 1) ∈ (Board.fresh 3 3).played_positions) ∧
       (∀ b2, (Board.fresh 3 3).play 0 1 "X" = .ok b2 →
        cellD b2.board 0 1 = "X" ∧
        b2.played_positions = (Board.fresh 3 3).played_positions ++ [(0, 1)] ∧
        b2.played_tokens = (Board.fresh 3 3).played_tokens ++ ["X"] ∧
        b2.empty_cells = (Board.fresh 3 3).empty_cells.erase (0, 1) ∧
        (0, 1) ∉ b2.empty_cells ∧
        (∀ t2, b2.play 0 1 t2 =
          .error "Invalid Positon - (1,2) has already been played!"))) :=
  ⟨Reachable.init 3, by decide, by decide,
    C6_play_contract (Board.fresh 3 3) (Reachable.init 3) 0 1 "X" (by decide) (by decide)⟩

/-- Witness for C4 at the concrete board `exRowX` (top row all `X`): its
winner is `X`, and the characterization instantiates. -/
theorem C4_winner_first_uniform_line_witness :
    exRowX.WFdims ∧ 1 ≤ exRowX.num_rows ∧ exRowX.winner = some "X" ∧
      (∀ t, exRowX.winner = some t ↔
        ∃ pre line post, exRowX.linesInOrder = pre ++ line :: post ∧
          UniformLine exRowX.empty line t ∧
          ∀ l2 ∈ pre, ∀ t2, ¬ UniformLine exRowX.empty l2 t2) ∧
      (exRowX.winner = none ↔
        ∀ line ∈ exRowX.linesInOrder, ∀ t, ¬ UniformLine exRowX.empty line t) :=
  ⟨by decide, by decide, by decide,
    (C4_winner_first_uniform_line exRowX (by decide) (by decide)).1,
    (C4_winner_first_uniform_line exRowX (by decide) (by decide)).2⟩

/-! ### C9: aliasing of grid rows under the horizontal reflection -/

/-- **C9 (code bug)**: `reflect('horizontal')` assigns
`[row for row in self.rows[::-1]]`, copying the row *references* instead of
the rows (every other branch of `reflect`, all of `rotate`, and `copy` build
fresh row lists).  Playing a move on the reflected board therefore mutates
the original board's grid, contradicting the claim that boards returned by
copy/rotate/reflect are independent of the original.  Concretely: from a
fresh 3×3 board, horizontally reflect it and play `X` at (0, 0) on the
reflection; the original board's grid — blank before — now shows `X` at
(2, 0). -/
theorem C9_reflect_h_aliasing_bug :
    (let fr := pyFresh ⟨[]⟩ 3
     let c := pyReflectH fr.2
     let h2 := pyPlay fr.1 c 0 0 "X"
     cellD (fr.1.readGrid fr.2) 2 0 = emptyTok ∧
     cellD (h2.readGrid fr.2) 2 0 = "X" ∧
     h2.readGrid fr.2 ≠ fr.1.readGrid fr.2) := by decide

/-! ### C8 and C10: the exhaustive permutation search -/

/-- Existence of a maximum under a rational-valued scoring of a non-empty
list. -/
theorem exists_max_score {α : Type} (l : List α) (f : α → ℚ) (h : l ≠ []) :
    ∃ a ∈ l, ∀ b ∈ l, f b ≤ f a := by
  induction l with
  | nil => exact absurd rfl h
  | cons a t ih =>
    cases t with
    | nil =>
      refine ⟨a, List.mem_singleton_self a, ?_⟩
      intro b hb
      rw [List.mem_singleton.1 hb]
    | cons c t2 =>
      obtain ⟨m, hm, hmax⟩ := ih (by simp)
      by_cases hc : f m ≤ f a
      · refine ⟨a, List.mem_cons_self _ _, ?_⟩
        intro b hb
        rcases List.mem_cons.1 hb with rfl | hb
        · exact le_refl _
        · exact le_trans (hmax b hb) hc
      · refine ⟨m, List.mem_cons_of_mem _ hm, ?_⟩
        intro b hb
        rcases List.mem_cons.1 hb with rfl | hb
        · exact le_of_not_le hc
        · exact hmax b hb

/-- When every surviving permutation is long enough, the `next_moves`
accumulation succeeds and produces one (candidate, value) pair per table
entry. -/
theorem nextMovesList_eval (token : Token) (k : Nat) (subset : List (List Coord × Token))
    (hlen : ∀ pw ∈ subset, k < pw.1.length) :
    nextMovesList token k subset = .ok (subset.map fun pw =>
      (pw.1.getD k (0, 0), if pw.2 == token then (100 : Int)
        else if pw.2 == "Draw" then 0 else -100)) := by
  induction subset with
  | nil => rfl
  | cons pw rest ih =>
    obtain ⟨perm, w⟩ := pw
    have hk : k < perm.length := hlen (perm, w) (List.mem_cons_self _ _)
    have hget : perm.get? k = some (perm.getD k (0, 0)) := by
      rw [List.get?_eq_getElem?, List.getElem?_eq_getElem hk,
        List.getD_eq_getElem?_getD, List.getElem?_eq_getElem hk, Option.getD_some]
    rw [nextMovesList, hget, ih (fun pw2 hpw2 => hlen pw2 (List.mem_cons_of_mem _ hpw2))]
    rfl

/-- `best_moves` is non-empty and consists of candidate moves of maximal
mean score. -/
theorem bestMoves_spec (pairs : List (Coord × Int)) (hne : pairs ≠ []) :
    bestMoves pairs ≠ [] ∧
    ∀ m ∈ bestMoves pairs, (∃ v, (m, v) ∈ pairs) ∧
      ∀ m2 v2, (m2, v2) ∈ pairs → meanScore pairs m2 ≤ meanScore pairs m := by
  have hkeys : (pairs.map Prod.fst).dedup ≠ [] := by
    intro habs
    match pairs, hne with
    | p :: rest, _ =>
      have : p.1 ∈ (((p :: rest).map Prod.fst).dedup) :=
        List.mem_dedup.2 (List.mem_map.2 ⟨p, List.mem_cons_self _ _, rfl⟩)
      rw [habs] at this
      cases this
  obtain ⟨mx, hmx, hmxmax⟩ :=
    exists_max_score ((pairs.map Prod.fst).dedup) (meanScore pairs) hkeys
  constructor
  · intro habs
    have : mx ∈ bestMoves pairs := by
      rw [bestMoves]
      refine List.mem_filter.2 ⟨hmx, ?_⟩
      rw [List.all_eq_true]
      intro k hk
      exact decide_eq_true (hmxmax k hk)
    rw [habs] at this
    cases this
  · intro m hm
    rw [bestMoves] at hm
    obtain ⟨hmk, hall⟩ := List.mem_filter.1 hm
    have hmpairs : ∃ v, (m, v) ∈ pairs := by
      obtain ⟨p, hp, hp2⟩ := List.mem_map.1 (List.mem_dedup.1 hmk)
      refine ⟨p.2, ?_⟩
      have : (m, p.2) = p := by
        rw [← hp2]
      rw [this]
      exact hp
    refine ⟨hmpairs, ?_⟩
    intro m2 v2 hm2
    have hm2k : m2 ∈ (pairs.map Prod.fst).dedup :=
      List.mem_dedup.2 (List.mem_map.2 ⟨(m2, v2), hm2, rfl⟩)
    rw [List.all_eq_true] at hall
    exact of_decide_eq_true (hall m2 hm2k)

/-- The branch selection of `get_move` when the board has no played moves is
the same as filtering with the empty prefix. -/
theorem subset_uniform (ws : List (List Coord × Token)) (pp : List Coord) :
    (if pp.isEmpty then ws else ws.filter fun pw => pw.1.take pp.length == pp) =
    ws.filter fun pw => pw.1.take pp.length == pp := by
  by_cases h : pp.isEmpty
  · rw [if_pos h]
    have he : pp = [] := List.isEmpty_iff.1 h
    subst he
    symm
    apply List.filter_eq_self.2
    intro pw _
    simp
  · rw [if_neg h]

/-- `get_move` on a board with at least two empty cells, unfolded to the
match on the accumulated candidate list. -/
theorem get_move_main (board0 : Board) (tokens : List Token) (b : Board) (token : Token)
    (hlen : 2 ≤ b.empty_cells.length) :
    get_move board0 tokens b token =
      (match nextMovesList token b.played_positions.length
          ((winnersTable board0 tokens).filter fun pw =>
            pw.1.take b.played_positions.length == b.played_positions) with
      | .error e => .error e
      | .ok pairs =>
        if pairs.isEmpty then .error "ValueError: max() arg is an empty sequence"
        else .ok (some (bestMoves pairs))) := by
  have h1 : ¬ (b.empty_cells.isEmpty = true) := by
    rw [List.isEmpty_iff]
    intro habs
    rw [habs] at hlen
    simp at hlen
  have h2 : ¬ (b.empty_cells.length = 1) := by omega
  rw [get_move]
  simp only [if_neg h1, if_neg h2, subset_uniform]

/-- Complete case analysis of `get_move` (shared by the C8 and C10
developments): empty / singleton short-circuits, and the filtered-table
scoring path. -/
theorem get_move_cases (board0 : Board) (tokens : List Token) (b : Board)
    (token : Token) :
    (b.empty_cells = [] → get_move board0 tokens b token = .ok none) ∧
    (∀ c, b.empty_cells = [c] → get_move board0 tokens b token = .ok (some [c])) ∧
    (2 ≤ b.empty_cells.length →
      ∀ subset, subset = ((winnersTable board0 tokens).filter fun pw =>
          pw.1.take b.played_positions.length == b.played_positions) →
        subset ≠ [] →
        (∀ pw ∈ subset, b.played_positions.length < pw.1.length) →
        ∃ pairs, pairs = (subset.map fun pw =>
            (pw.1.getD b.played_positions.length (0, 0),
             if pw.2 == token then (100 : Int)
             else if pw.2 == "Draw" then 0 else -100)) ∧
          get_move board0 tokens b token = .ok (some (bestMoves pairs)) ∧
          bestMoves pairs ≠ [] ∧
          (∀ m ∈ bestMoves pairs, (∃ v, (m, v) ∈ pairs) ∧
            ∀ m2 v2, (m2, v2) ∈ pairs → meanScore pairs m2 ≤ meanScore pairs m)) := by
  refine ⟨?_, ?_, ?_⟩
  · intro hmt
    rw [get_move, if_pos (by rw [hmt]; rfl)]
  · intro c hc
    have hne : ¬ (b.empty_cells.isEmpty = true) := by
      rw [List.isEmpty_iff, hc]
      intro habs
      cases habs
    rw [get_move, if_neg hne, if_pos (by rw [hc]; rfl)]
    rw [hc]
    rfl
  · intro hlen subset hsub hsubne hsublen
    have heval := nextMovesList_eval token b.played_positions.length subset hsublen
    refine ⟨_, rfl, ?_, ?_, ?_⟩
    · rw [get_move_main board0 tokens b token hlen, ← hsub, heval]
      have hpne : (subset.map fun pw =>
          (pw.1.getD b.played_positions.length (0, 0),
           if pw.2 == token then (100 : Int)
           else if pw.2 == "Draw" then 0 else -100)).isEmpty = false := by
        rw [List.isEmpty_eq_false_iff_exists_mem]
        match subset, hsubne with
        | pw :: rest, _ => exact ⟨_, List.mem_map.2 ⟨pw, List.mem_cons_self _ _, rfl⟩⟩
      have hred : ∀ (ps : List (Coord × Int)), ps.isEmpty = false →
          (match (Except.ok ps : Except String (List (Coord × Int))) with
           | .error e => (.error e : Except String (Option (List Coord)))
           | .ok pairs =>
             if pairs.isEmpty then .error "ValueError: max() arg is an empty sequence"
             else .ok (some (bestMoves pairs))) = .ok (some (bestMoves ps)) := by
        intro ps hps
        show (if ps.isEmpty then _ else _) = _
        rw [hps]
        rfl
      exact hred _ hpne
    · refine (bestMoves_spec _ ?_).1
      intro habs
      rw [List.map_eq_nil_iff] at habs
      exact hsubne habs
    · refine (bestMoves_spec _ ?_).2
      intro habs
      rw [List.map_eq_nil_iff] at habs
      exact hsubne habs

/-- **C8**: `get_move(board, token)` returns no move when the board has no
empty cells and the unique empty cell when exactly one remains; otherwise it
restricts the outcome table to the permutations whose prefix equals
`board.played_positions` in play order, pairs each surviving permutation's
next entry (the one immediately after the matched prefix) with +100 when its
recorded outcome equals `token`, 0 for `"Draw"` and −100 otherwise, and the
move it returns is drawn from the candidates whose mean collected value is
maximal.  (The third part is stated under the hypotheses that make the
Python computation return at all: at least one permutation survives the
prefix filter and each surviving one is long enough to have a next entry —
see C10 for what happens otherwise.) -/
theorem C8_get_move_spec (board0 : Board) (tokens : List Token) (b : Board)
    (token : Token) :
    (b.empty_cells = [] → get_move board0 tokens b token = .ok none) ∧
    (∀ c, b.empty_cells = [c] → get_move board0 tokens b token = .ok (some [c])) ∧
    (2 ≤ b.empty_cells.length →
      ∀ subset, subset = ((winnersTable board0 tokens).filter fun pw =>
          pw.1.take b.played_positions.length == b.played_positions) →
        subset ≠ [] →
        (∀ pw ∈ subset, b.played_positions.length < pw.1.length) →
        ∃ pairs, pairs = (subset.map fun pw =>
            (pw.1.getD b.played_positions.length (0, 0),
             if pw.2 == token then (100 : Int)
             else if pw.2 == "Draw" then 0 else -100)) ∧
          get_move board0 tokens b token = .ok (some (bestMoves pairs)) ∧
          bestMoves pairs ≠ [] ∧
          (∀ m ∈ bestMoves pairs, (∃ v, (m, v) ∈ pairs) ∧
            ∀ m2 v2, (m2, v2) ∈ pairs → meanScore pairs m2 ≤ meanScore pairs m)) :=
  get_move_cases board0 tokens b token

/-- Witness for C8: the scoring path at the 2×2 board `exSmall` (O already
at (0,0)), searching from the fresh 2×2 board with tokens O, X for X's
move. -/
theorem C8_get_move_spec_witness :
    2 ≤ exSmall.empty_cells.length ∧
    ((winnersTable (Board.fresh 2 2) ["O", "X"]).filter fun pw =>
        pw.1.take exSmall.played_positions.length == exSmall.played_positions) ≠ [] ∧
    (∀ pw ∈ (winnersTable (Board.fresh 2 2) ["O", "X"]).filter fun pw =>
        pw.1.take exSmall.played_positions.length == exSmall.played_positions,
      exSmall.played_positions.length < pw.1.length) ∧
    ∃ pairs, pairs = (((winnersTable (Board.fresh 2 2) ["O", "X"]).filter fun pw =>
        pw.1.take exSmall.played_positions.length == exSmall.played_positions).map fun pw =>
        (pw.1.getD exSmall.played_positions.length (0, 0),
         if pw.2 == "X" then (100 : Int) else if pw.2 == "Draw" then 0 else -100)) ∧
      get_move (Board.fresh 2 2) ["O", "X"] exSmall "X" = .ok (some (bestMoves pairs)) ∧
      bestMoves pairs ≠ [] ∧
      (∀ m ∈ bestMoves pairs, (∃ v, (m, v) ∈ pairs) ∧
        ∀ m2 v2, (m2, v2) ∈ pairs → meanScore pairs m2 ≤ meanScore pairs m) := by
  refine ⟨by decide, by decide, by decide, ?_⟩
  exact (C8_get_move_spec (Board.fresh 2 2) ["O", "X"] exSmall "X").2.2 (by decide) _ rfl
    (by decide) (by decide)

/-- Effect of a successful move sequence on the history fields. -/
theorem playSeq_ok {b0 : Board} {moves : List (Coord × Token)} {b : Board}
    (h : playSeq b0 moves = .ok b) :
    b.played_positions = b0.played_positions ++ moves.map Prod.fst ∧
    b.empty_cells = (moves.map Prod.fst).foldl (fun acc m => acc.erase m) b0.empty_cells := by
  induction moves generalizing b0 with
  | nil =>
    injection h with h
    subst h
    exact ⟨(List.append_nil _).symm, rfl⟩
  | cons mt rest ih =>
    obtain ⟨m, t⟩ := mt
    rw [playSeq] at h
    cases hp : b0.play m.1 m.2 t with
    | error e =>
      rw [hp] at h
      exact Except.noConfusion h
    | ok b1 =>
      rw [hp] at h
      obtain ⟨h1, h2⟩ := ih h
      have hfields : b1.played_positions = b0.played_positions ++ [m] ∧
          b1.empty_cells = b0.empty_cells.erase m := by
        by_cases hm1 : (m.1, m.2) ∈ b0.played_positions
        · rw [Board.play, if_pos hm1] at hp
          exact Except.noConfusion hp
        by_cases hm2 : (m.1, m.2) ∈ b0.empty_cells
        case neg =>
          rw [Board.play, if_neg hm1, if_neg hm2] at hp
          exact Except.noConfusion hp
        rw [Board.play, if_neg hm1, if_pos hm2] at hp
        injection hp with hp
        subst hp
        exact ⟨rfl, rfl⟩
      refine ⟨?_, ?_⟩
      · rw [h1, hfields.1, List.map_cons, List.append_assoc]
        rfl
      · rw [h2, hfields.2, List.map_cons, List.foldl_cons]

/-- Folding `erase` over a duplicate-free batch of present elements:
membership characterization and length bookkeeping. -/
theorem foldl_erase_facts (ps : List Coord) : ∀ (l : List Coord), l.Nodup → ps.Nodup →
    (∀ p ∈ ps, p ∈ l) →
    (∀ x, x ∈ ps.foldl (fun acc m => acc.erase m) l ↔ (x ∈ l ∧ x ∉ ps)) ∧
    (ps.foldl (fun acc m => acc.erase m) l).length + ps.length = l.length := by
  induction ps with
  | nil =>
    intro l _ _ _
    simp
  | cons p rest ih =>
    intro l hl hps hsub
    have hpl : p ∈ l := hsub p (List.mem_cons_self _ _)
    have hpnotrest : p ∉ rest := (List.nodup_cons.1 hps).1
    have hrestnodup : rest.Nodup := (List.nodup_cons.1 hps).2
    have hln : (l.erase p).Nodup := hl.erase p
    have hsub2 : ∀ q ∈ rest, q ∈ l.erase p := by
      intro q hq
      rw [hl.mem_erase_iff]
      exact ⟨fun habs => hpnotrest (habs ▸ hq), hsub q (List.mem_cons_of_mem _ hq)⟩
    obtain ⟨ihmem, ihlen⟩ := ih (l.erase p) hln hrestnodup hsub2
    rw [List.foldl_cons]
    constructor
    · intro x
      rw [ihmem x, hl.mem_erase_iff, List.mem_cons]
      constructor
      · rintro ⟨⟨hxp, hxl⟩, hxr⟩
        exact ⟨hxl, by rintro (rfl | hx) <;> [exact hxp rfl; exact hxr hx]⟩
      · rintro ⟨hxl, hxpr⟩
        exact ⟨⟨fun habs => hxpr (Or.inl habs), hxl⟩, fun hx => hxpr (Or.inr hx)⟩
    · rw [List.length_cons, List.length_erase_of_mem hpl] at *
      have hlpos : 1 ≤ l.length := List.length_pos.2 (List.ne_nil_of_mem hpl)
      omega

/-- Each selection, put back in front of its remainder, is a permutation of
the list it was drawn from. -/
theorem selections_perm {α : Type} : ∀ (l : List α) (p : α × List α),
    p ∈ selections l → (p.1 :: p.2).Perm l := by
  intro l
  induction l with
  | nil =>
    intro p hp
    cases hp
  | cons x xs ih =>
    intro p hp
    rw [selections, List.mem_cons] at hp
    cases hp with
    | inl h =>
      subst h
      exact List.Perm.refl _
    | inr h =>
      obtain ⟨q, hq, rfl⟩ := List.mem_map.1 h
      have h1 : (q.1 :: x :: q.2).Perm (x :: q.1 :: q.2) := List.Perm.swap x q.1 q.2
      exact h1.trans ((ih q hq).cons x)

/-- Selecting an element of the list yields `List.erase` as remainder. -/
theorem selections_erase {α : Type} [DecidableEq α] :
    ∀ {l : List α} {y : α}, y ∈ l → (y, l.erase y) ∈ selections l := by
  intro l
  induction l with
  | nil =>
    intro y hy
    cases hy
  | cons x xs ih =>
    intro y hy
    by_cases hxy : y = x
    · subst hxy
      rw [List.erase_cons_head]
      exact List.mem_cons_self _ _
    · have hyxs : y ∈ xs := by
        cases List.mem_cons.1 hy with
        | inl h => exact absurd h hxy
        | inr h => exact h
      have herase : (x :: xs).erase y = x :: xs.erase y := by
        rw [List.erase_cons, if_neg (fun h => hxy (eq_of_beq h).symm)]
      rw [herase, selections]
      exact List.mem_cons_of_mem _ (List.mem_map.2 ⟨(y, xs.erase y), ih hyxs, rfl⟩)

/-- The fueled enumeration, at full fuel, contains exactly the permutations
of the list. -/
theorem mem_permsFuel {α : Type} [DecidableEq α] :
    ∀ (fuel : Nat) (l m : List α), l.length = fuel →
      (m ∈ permsFuel fuel l ↔ m.Perm l) := by
  intro fuel
  induction fuel with
  | zero =>
    intro l m hl
    have hnil : l = [] := List.length_eq_zero.1 hl
    subst hnil
    have he : permsFuel 0 ([] : List α) = [[]] := rfl
    rw [he, List.mem_singleton, List.perm_nil]
  | succ fuel ih =>
    intro l m hl
    match l, hl with
    | x :: xs, hl =>
      have he : permsFuel (fuel + 1) (x :: xs) =
          (selections (x :: xs)).flatMap fun p => (permsFuel fuel p.2).map (p.1 :: ·) := rfl
      rw [he, List.mem_flatMap]
      constructor
      · rintro ⟨p, hp, hm⟩
        obtain ⟨t, ht, rfl⟩ := List.mem_map.1 hm
        have hperm := selections_perm (x :: xs) p hp
        have hplen : p.2.length = fuel := by
          have hle := hperm.length_eq
          simp only [List.length_cons] at hle hl
          omega
        exact ((ih p.2 t hplen).1 ht).cons p.1 |>.trans hperm
      · intro hm
        match m, hm with
        | [], hm =>
          have := List.perm_nil.1 hm.symm
          exact absurd this (List.cons_ne_nil x xs)
        | y :: t, hm =>
          have hy : y ∈ x :: xs := hm.mem_iff.1 (List.mem_cons_self _ _)
          have ht : t.Perm ((x :: xs).erase y) := (List.cons_perm_iff_perm_erase.1 hm).2
          refine ⟨(y, (x :: xs).erase y), selections_erase hy, ?_⟩
          refine List.mem_map.2 ⟨t, ?_, rfl⟩
          refine (ih _ t ?_).2 ht
          rw [List.length_erase_of_mem hy]
          simp only [List.length_cons] at hl ⊢
          omega

/-- `permutationsOf l` contains exactly the permutations of `l`. -/
theorem mem_permutationsOf {α : Type} [DecidableEq α] {l m : List α} :
    m ∈ permutationsOf l ↔ m.Perm l :=
  mem_permsFuel l.length l m rfl

/-! ### The depth-first iterator on coherent finite trees (toward C3)

The development first settles the iterator in the abstract: for any
`Coherent` tree, running `dfs` with recursion fuel 3 from the initial state
follows exactly the recursive pre-order walk `preYield`, never exhausts its
fuel, and stops after yielding every identity in the tree exactly once.
The pruned game trees are then proved coherent, and C3 instantiates the
two halves. -/

theorem contains_iff {α : Type} [DecidableEq α] (l : List α) (a : α) :
    l.contains a = true ↔ a ∈ l := by
  show List.elem a l = true ↔ a ∈ l
  exact List.elem_iff

theorem contains_false_iff {α : Type} [DecidableEq α] (l : List α) (a : α) :
    l.contains a = false ↔ a ∉ l := by
  rw [← contains_iff l a]
  cases l.contains a <;> simp

theorem contains_mono_append {α : Type} [DecidableEq α] {l1 : List α} (l2 : List α) {a : α}
    (h : l1.contains a = true) : (l1 ++ l2).contains a = true := by
  rw [contains_iff] at h ⊢
  exact List.mem_append_left _ h

theorem subtreesList_self (t : GTree) : t ∈ t.subtreesList := by
  cases t with
  | node v cs => exact List.mem_cons_self _ _

mutual

theorem subtrees_trans : ∀ (t s1 : GTree), s1 ∈ t.subtreesList →
    ∀ s2 ∈ s1.subtreesList, s2 ∈ t.subtreesList
  | .node v cs, s1, h1, s2, h2 => by
    rw [GTree.subtreesList, List.mem_cons] at h1
    cases h1 with
    | inl he =>
      rw [← he]
      exact h2
    | inr hm =>
      rw [GTree.subtreesList, List.mem_cons]
      exact Or.inr (subtrees_trans_all cs s1 hm s2 h2)

theorem subtrees_trans_all : ∀ (ts : List GTree) (s1 : GTree), s1 ∈ subtreesListAll ts →
    ∀ s2 ∈ s1.subtreesList, s2 ∈ subtreesListAll ts
  | [], s1, h1, _, _ => absurd h1 (List.not_mem_nil s1)
  | t :: ts, s1, h1, s2, h2 => by
    rw [subtreesListAll, List.mem_append] at h1 ⊢
    cases h1 with
    | inl hl => exact Or.inl (subtrees_trans t s1 hl s2 h2)
    | inr hr => exact Or.inr (subtrees_trans_all ts s1 hr s2 h2)

end

mutual

theorem size_le_subtrees : ∀ (t s : GTree), s ∈ t.subtreesList → s.size ≤ t.size
  | .node v cs, s, h => by
    rw [GTree.subtreesList, List.mem_cons] at h
    cases h with
    | inl he => rw [he]
    | inr hm =>
      have := size_le_all cs s hm
      show s.size ≤ 1 + sizeAll cs
      omega

theorem size_le_all : ∀ (ts : List GTree) (s : GTree), s ∈ subtreesListAll ts →
    s.size ≤ sizeAll ts
  | [], s, h => absurd h (List.not_mem_nil s)
  | t :: ts, s, h => by
    rw [subtreesListAll, List.mem_append] at h
    show s.size ≤ t.size + sizeAll ts
    cases h with
    | inl hl =>
      have := size_le_subtrees t s hl
      omega
    | inr hr =>
      have := size_le_all ts s hr
      omega

end

/-- A member of a tree's child forest is strictly smaller than the tree. -/
theorem size_lt_of_mem_children_subtrees (t s : GTree)
    (h : s ∈ subtreesListAll t.children) : s.size < t.size := by
  cases t with
  | node v cs =>
    have := size_le_all cs s h
    show s.size < 1 + sizeAll cs
    omega

theorem mem_subtreesListAll_of_mem {c : GTree} {cs : List GTree} (hc : c ∈ cs) :
    c ∈ subtreesListAll cs := by
  induction cs with
  | nil => cases hc
  | cons t ts ih =>
    rw [subtreesListAll, List.mem_append]
    cases List.mem_cons.1 hc with
    | inl he => exact Or.inl (he ▸ subtreesList_self c)
    | inr hm => exact Or.inr (ih hm)

/-- A child of a tree is among its subtrees. -/
theorem child_subtree_mem (t c : GTree) (hc : c ∈ t.children) : c ∈ t.subtreesList := by
  cases t with
  | node v cs =>
    rw [GTree.subtreesList, List.mem_cons]
    exact Or.inr (mem_subtreesListAll_of_mem hc)

/-- Every element of a node-to-root chain is a tree position. -/
theorem IsPath_mem {t : GTree} : ∀ {p : List GTree}, IsPath t p → ∀ x ∈ p, x ∈ t.subtreesList := by
  intro p h
  induction h with
  | root =>
    intro x hx
    rw [List.mem_singleton] at hx
    rw [hx]
    exact subtreesList_self t
  | step hpath hc ih =>
    intro x hx
    cases List.mem_cons.1 hx with
    | inl he =>
      rw [he]
      exact subtrees_trans t _ (ih _ (List.mem_cons_self _ _)) _ (child_subtree_mem _ _ hc)
    | inr hm => exact ih x hm

theorem IsPath_tail {t : GTree} {c p : GTree} {rest : List GTree}
    (h : IsPath t (c :: p :: rest)) : IsPath t (p :: rest) := by
  cases h with
  | step hp _ => exact hp

/-- In a coherent tree no node shares its identity with one of its own
children (their subtrees would coincide and the child would contain
itself). -/
theorem val_ne_of_child {t : GTree} (hco : Coherent t) {p c : GTree}
    (hp : p ∈ t.subtreesList) (hc : c ∈ p.children) : c.val ≠ p.val := by
  intro he
  have hcs : c ∈ t.subtreesList := subtrees_trans t p hp c (child_subtree_mem p c hc)
  have heq : c = p := hco c hcs p hp he
  subst heq
  have hlt := size_lt_of_mem_children_subtrees c c (mem_subtreesListAll_of_mem hc)
  omega

theorem preYield_eq (vis : List GNode) (t : GTree) :
    preYield vis t =
      if vis.contains t.val then [] else t.val :: preYieldAll (vis ++ [t.val]) t.children := by
  cases t with
  | node v cs => rfl

theorem preYield_visited {vis : List GNode} {t : GTree} (h : vis.contains t.val = true) :
    preYield vis t = [] := by
  rw [preYield_eq, if_pos h]

theorem preYield_fresh {vis : List GNode} {t : GTree} (h : vis.contains t.val = false) :
    preYield vis t = t.val :: preYieldAll (vis ++ [t.val]) t.children := by
  rw [preYield_eq, if_neg (by rw [h]; exact Bool.false_ne_true)]

theorem preYieldAll_all_visited : ∀ (cs : List GTree) (vis : List GNode),
    (∀ c ∈ cs, vis.contains c.val = true) → preYieldAll vis cs = [] := by
  intro cs
  induction cs with
  | nil => intro vis _; rfl
  | cons t ts ih =>
    intro vis hall
    have ht : preYield vis t = [] := preYield_visited (hall t (List.mem_cons_self _ _))
    show preYield vis t ++ preYieldAll (vis ++ preYield vis t) ts = []
    rw [ht, List.append_nil, List.nil_append]
    exact ih vis fun c hc => hall c (List.mem_cons_of_mem _ hc)

theorem preYieldAll_append : ∀ (l1 l2 : List GTree) (vis : List GNode),
    preYieldAll vis (l1 ++ l2) =
      preYieldAll vis l1 ++ preYieldAll (vis ++ preYieldAll vis l1) l2 := by
  intro l1
  induction l1 with
  | nil =>
    intro l2 vis
    show preYieldAll vis l2 = [] ++ preYieldAll (vis ++ []) l2
    rw [List.nil_append, List.append_nil]
  | cons t ts ih =>
    intro l2 vis
    show preYield vis t ++ preYieldAll (vis ++ preYield vis t) (ts ++ l2) =
      (preYield vis t ++ preYieldAll (vis ++ preYield vis t) ts) ++ _
    rw [ih l2 (vis ++ preYield vis t), List.append_assoc, List.append_assoc]
    have hcons : preYieldAll vis (t :: ts) =
        preYield vis t ++ preYieldAll (vis ++ preYield vis t) ts := rfl
    rw [hcons]

theorem resumeNode_visited {vis : List GNode} {t : GTree} (h : vis.contains t.val = true) :
    resumeNode vis t = preYieldAll vis t.children := by
  rw [resumeNode, if_pos h]

theorem resumeNode_fresh {vis : List GNode} {t : GTree} (h : vis.contains t.val = false) :
    resumeNode vis t = preYield vis t := by
  rw [resumeNode, if_neg (by rw [h]; exact Bool.false_ne_true)]

/-- Dropping a finished path head: a visited node with no unvisited children
contributes nothing more. -/
theorem pathRem_drop {vis : List GNode} {p : GTree} (rest : List GTree)
    (hv : vis.contains p.val = true) (hu : unvisitedOf vis p = []) :
    pathRem vis (p :: rest) = pathRem vis rest := by
  have hall : ∀ c ∈ p.children, vis.contains c.val = true := by
    intro c hc
    have hnc := List.filter_eq_nil_iff.1 hu c hc
    cases hb : vis.contains c.val with
    | false => exact absurd (by rw [hb]; rfl) hnc
    | true => rfl
  have hres : resumeNode vis p = [] := by
    rw [resumeNode_visited hv, preYieldAll_all_visited _ _ hall]
  show resumeNode vis p ++ pathRem (vis ++ resumeNode vis p) rest = pathRem vis rest
  rw [hres, List.nil_append, List.append_nil]

/-- Yielding a fresh path head: the walk emits its identity and resumes at
the same node. -/
theorem pathRem_fresh_head {vis : List GNode} {p : GTree} (rest : List GTree)
    (hv : vis.contains p.val = false) :
    pathRem vis (p :: rest) = p.val :: pathRem (vis ++ [p.val]) (p :: rest) := by
  have h1 : resumeNode vis p = p.val :: preYieldAll (vis ++ [p.val]) p.children :=
    (resumeNode_fresh hv).trans (preYield_fresh hv)
  have h2 : resumeNode (vis ++ [p.val]) p = preYieldAll (vis ++ [p.val]) p.children := by
    rw [resumeNode_visited]
    rw [contains_iff]
    exact List.mem_append_right _ (List.mem_singleton_self _)
  show resumeNode vis p ++ pathRem (vis ++ resumeNode vis p) rest = _
  conv_rhs =>
    rw [pathRem]
  rw [h1, h2]
  simp only [List.cons_append, List.append_assoc, List.append_nil, List.nil_append,
    List.singleton_append]

/-- Descending to the first unvisited child preserves the remaining yield. -/
theorem pathRem_descend {vis : List GNode} {p c : GTree} {cs' : List GTree}
    (rest : List GTree) (hv : vis.contains p.val = true)
    (hu : unvisitedOf vis p = c :: cs') :
    pathRem vis (p :: rest) = pathRem vis (c :: p :: rest) := by
  obtain ⟨l1, l2, hch, hl1, hcf0, -⟩ := List.filter_eq_cons_iff.1 hu
  have hl1v : ∀ x ∈ l1, vis.contains x.val = true := by
    intro x hx
    have := hl1 x hx
    cases hb : vis.contains x.val with
    | false => exact absurd (by rw [hb]; rfl) this
    | true => rfl
  have hcf : vis.contains c.val = false := by
    cases hb : vis.contains c.val with
    | true => rw [hb] at hcf0; exact absurd hcf0 (by decide)
    | false => rfl
  have hysc : preYield vis c = c.val :: preYieldAll (vis ++ [c.val]) c.children :=
    preYield_fresh hcf
  have hcmem : (vis ++ preYield vis c).contains c.val = true := by
    rw [contains_iff]
    refine List.mem_append_right _ ?_
    rw [hysc]
    exact List.mem_cons_self _ _
  have hl1v2 : ∀ x ∈ l1, (vis ++ preYield vis c).contains x.val = true := fun x hx =>
    contains_mono_append _ (hl1v x hx)
  -- the resumption of p before the descent
  have hres1 : resumeNode vis p = preYield vis c ++ preYieldAll (vis ++ preYield vis c) l2 := by
    rw [resumeNode_visited hv, hch, preYieldAll_append,
      preYieldAll_all_visited _ _ hl1v, List.append_nil, List.nil_append]
    show preYield vis c ++ preYieldAll (vis ++ preYield vis c) l2 = _
    rfl
  -- the resumption of p after the descent
  have hres2 : resumeNode (vis ++ preYield vis c) p =
      preYieldAll (vis ++ preYield vis c) l2 := by
    rw [resumeNode_visited (contains_mono_append _ hv), hch, preYieldAll_append,
      preYieldAll_all_visited _ _ hl1v2, List.append_nil, List.nil_append]
    show preYield (vis ++ preYield vis c) c ++ _ = _
    rw [preYield_visited hcmem, List.nil_append, List.append_nil]
  show resumeNode vis p ++ pathRem (vis ++ resumeNode vis p) rest = _
  conv_rhs =>
    rw [pathRem]
  rw [resumeNode_fresh hcf]
  show _ = preYield vis c ++ pathRem (vis ++ preYield vis c) (p :: rest)
  conv_rhs =>
    rw [pathRem]
  rw [hres1, hres2, List.append_assoc, List.append_assoc]

/-- Recording a node's own identity does not change which of its children
are unvisited (in a coherent tree no child shares the parent's identity). -/
theorem unvisitedOf_append_self {t : GTree} (hco : Coherent t) {p : GTree}
    (hp : p ∈ t.subtreesList) (vis : List GNode) :
    unvisitedOf (vis ++ [p.val]) p = unvisitedOf vis p := by
  rw [unvisitedOf, unvisitedOf]
  refine List.filter_congr ?_
  intro c hc
  have hne : c.val ≠ p.val := val_ne_of_child hco hp hc
  have hcont : (vis ++ [p.val]).contains c.val = vis.contains c.val := by
    cases hb : vis.contains c.val with
    | true => exact contains_mono_append _ hb
    | false =>
      rw [contains_false_iff]
      intro hm
      cases List.mem_append.1 hm with
      | inl h => exact (contains_false_iff _ _).1 hb h
      | inr h => exact hne (List.mem_singleton.1 h)
  rw [hcont]

/-- One-step unfolding of the search on positive fuel. -/
theorem dfs_eq (fuel : Nat) (curr : GTree) (ancs : List GTree) (vis : List GNode) :
    dfs (fuel + 1) ⟨curr, ancs, vis⟩ =
      if (unvisitedOf vis curr).isEmpty && vis.contains curr.val then
        (if ancs.isEmpty then .stop
         else
           if vis.contains (ascend vis curr ancs).1.val then
             dfs fuel ⟨(ascend vis curr ancs).1, (ascend vis curr ancs).2, vis⟩
           else
             .yielded (ascend vis curr ancs).1.val
               ⟨(ascend vis curr ancs).1, (ascend vis curr ancs).2,
                 vis ++ [(ascend vis curr ancs).1.val]⟩)
      else
        match unvisitedOf vis curr with
        | c :: _ =>
          if vis.contains curr.val then dfs fuel ⟨c, curr :: ancs, vis⟩
          else .yielded curr.val ⟨c, curr :: ancs, vis ++ [curr.val]⟩
        | [] =>
          if vis.contains curr.val then dfs fuel ⟨curr, ancs, vis⟩
          else .yielded curr.val ⟨curr, ancs, vis ++ [curr.val]⟩ := rfl

theorem dfs_fresh_nil (fuel : Nat) (curr : GTree) (ancs : List GTree) (vis : List GNode)
    (hv : vis.contains curr.val = false) (hu : unvisitedOf vis curr = []) :
    dfs (fuel + 1) ⟨curr, ancs, vis⟩ = .yielded curr.val ⟨curr, ancs, vis ++ [curr.val]⟩ := by
  rw [dfs_eq, hu, hv]
  rfl

theorem dfs_fresh_cons (fuel : Nat) (curr : GTree) (ancs : List GTree) (vis : List GNode)
    (c : GTree) (cs' : List GTree)
    (hv : vis.contains curr.val = false) (hu : unvisitedOf vis curr = c :: cs') :
    dfs (fuel + 1) ⟨curr, ancs, vis⟩ =
      .yielded curr.val ⟨c, curr :: ancs, vis ++ [curr.val]⟩ := by
  rw [dfs_eq, hu, hv]
  rfl

theorem dfs_visited_cons (fuel : Nat) (curr : GTree) (ancs : List GTree) (vis : List GNode)
    (c : GTree) (cs' : List GTree)
    (hv : vis.contains curr.val = true) (hu : unvisitedOf vis curr = c :: cs') :
    dfs (fuel + 1) ⟨curr, ancs, vis⟩ = dfs fuel ⟨c, curr :: ancs, vis⟩ := by
  rw [dfs_eq, hu, hv]
  rfl

theorem dfs_finished (fuel : Nat) (curr : GTree) (vis : List GNode)
    (hv : vis.contains curr.val = true) (hu : unvisitedOf vis curr = []) :
    dfs (fuel + 1) ⟨curr, [], vis⟩ = .stop := by
  rw [dfs_eq, hu, hv]
  rfl

theorem dfs_ascend (fuel : Nat) (curr : GTree) (a : GTree) (rest : List GTree)
    (vis : List GNode)
    (hv : vis.contains curr.val = true) (hu : unvisitedOf vis curr = [])
    (hca : vis.contains (ascend vis curr (a :: rest)).1.val = true) :
    dfs (fuel + 1) ⟨curr, a :: rest, vis⟩ =
      dfs fuel ⟨(ascend vis curr (a :: rest)).1, (ascend vis curr (a :: rest)).2, vis⟩ := by
  rw [dfs_eq, hu, hv, hca]
  rfl

/-- What the ascent loop guarantees: it lands on a visited chain position
with an unvisited child (unless it reaches the root), without changing the
remaining yield. -/
theorem ascend_facts {t : GTree} (vis : List GNode) :
    ∀ (ancs : List GTree) (cur : GTree), IsPath t (cur :: ancs) →
      vis.contains cur.val = true → (∀ a ∈ ancs, vis.contains a.val = true) →
      IsPath t ((ascend vis cur ancs).1 :: (ascend vis cur ancs).2) ∧
      vis.contains (ascend vis cur ancs).1.val = true ∧
      (∀ a ∈ (ascend vis cur ancs).2, vis.contains a.val = true) ∧
      (unvisitedOf vis (ascend vis cur ancs).1 = [] → (ascend vis cur ancs).2 = []) ∧
      pathRem vis (cur :: ancs) = pathRem vis ((ascend vis cur ancs).1 :: (ascend vis cur ancs).2) := by
  intro ancs
  induction ancs with
  | nil =>
    intro cur hpath hv _
    have he : ascend vis cur [] = (cur, []) := rfl
    rw [he]
    refine ⟨hpath, hv, ?_, ?_, ?_⟩
    · intro a ha
      cases ha
    · intro _
      rfl
    · rfl
  | cons a rest ih =>
    intro cur hpath hv hancs
    have he : ascend vis cur (a :: rest) =
        if (unvisitedOf vis cur).isEmpty then ascend vis a rest else (cur, a :: rest) := rfl
    by_cases hu : (unvisitedOf vis cur).isEmpty = true
    · rw [he, if_pos hu]
      have ha : vis.contains a.val = true := hancs a (List.mem_cons_self _ _)
      have hrest : ∀ x ∈ rest, vis.contains x.val = true := fun x hx =>
        hancs x (List.mem_cons_of_mem _ hx)
      obtain ⟨f1, f2, f3, f4, f5⟩ := ih a (IsPath_tail hpath) ha hrest
      refine ⟨f1, f2, f3, f4, ?_⟩
      rw [← f5]
      exact pathRem_drop _ hv (List.isEmpty_iff.1 hu)
    · rw [he, if_neg hu]
      refine ⟨hpath, hv, hancs, ?_, rfl⟩
      intro habs
      exact absurd (by rw [habs]; rfl) hu

/-- Yielding a not-yet-visited current node: the search emits its identity
and moves to its first unvisited child (or stays put when there is none),
matching the remaining yield. -/
theorem dfs_yield_fresh {t : GTree} (hco : Coherent t) (fuel : Nat) (p : GTree)
    (ancs : List GTree) (vis : List GNode) (hpath : IsPath t (p :: ancs))
    (hancs : ∀ a ∈ ancs, vis.contains a.val = true)
    (hfresh : vis.contains p.val = false) :
    ∃ curr2 ancs2,
      dfs (fuel + 1) ⟨p, ancs, vis⟩ = .yielded p.val ⟨curr2, ancs2, vis ++ [p.val]⟩ ∧
      pathRem vis (p :: ancs) = p.val :: pathRem (vis ++ [p.val]) (curr2 :: ancs2) ∧
      IsPath t (curr2 :: ancs2) ∧ (∀ a ∈ ancs2, (vis ++ [p.val]).contains a.val = true) := by
  have hselfmem : ((vis ++ [p.val]) : List GNode).contains p.val = true := by
    rw [contains_iff]
    exact List.mem_append_right _ (List.mem_singleton_self _)
  cases hu : unvisitedOf vis p with
  | nil =>
    refine ⟨p, ancs, dfs_fresh_nil fuel p ancs vis hfresh hu,
      pathRem_fresh_head ancs hfresh, hpath, ?_⟩
    intro a ha
    exact contains_mono_append _ (hancs a ha)
  | cons c cs' =>
    have hcchild : c ∈ p.children := by
      have hcm : c ∈ unvisitedOf vis p := by
        rw [hu]
        exact List.mem_cons_self _ _
      exact (List.mem_filter.1 hcm).1
    have hpath2 : IsPath t (c :: p :: ancs) := IsPath.step hpath hcchild
    refine ⟨c, p :: ancs, dfs_fresh_cons fuel p ancs vis c cs' hfresh hu, ?_, hpath2, ?_⟩
    · rw [pathRem_fresh_head ancs hfresh]
      have hpmem : p ∈ t.subtreesList := IsPath_mem hpath p (List.mem_cons_self _ _)
      have hstable : unvisitedOf (vis ++ [p.val]) p = c :: cs' := by
        rw [unvisitedOf_append_self hco hpmem, hu]
      rw [pathRem_descend ancs hselfmem hstable]
    · intro a ha
      cases List.mem_cons.1 ha with
      | inl hea =>
        rw [hea]
        exact hselfmem
      | inr hm => exact contains_mono_append _ (hancs a hm)

/-- One `next()` call: from any reachable iterator position of a coherent
tree, the recursion-3-bounded search either raises `StopIteration` with
nothing left to yield, or yields exactly the head of the remaining yield and
reaches a position whose remaining yield is the tail. -/
theorem dfs_step {t : GTree} (hco : Coherent t) (curr : GTree) (ancs : List GTree)
    (vis : List GNode) (hpath : IsPath t (curr :: ancs))
    (hancs : ∀ a ∈ ancs, vis.contains a.val = true) :
    (dfs 3 ⟨curr, ancs, vis⟩ = .stop ∧ pathRem vis (curr :: ancs) = []) ∨
    (∃ k curr2 ancs2, dfs 3 ⟨curr, ancs, vis⟩ = .yielded k ⟨curr2, ancs2, vis ++ [k]⟩ ∧
      pathRem vis (curr :: ancs) = k :: pathRem (vis ++ [k]) (curr2 :: ancs2) ∧
      IsPath t (curr2 :: ancs2) ∧ ∀ a ∈ ancs2, (vis ++ [k]).contains a.val = true) := by
  by_cases hv : vis.contains curr.val = true
  · cases hu : unvisitedOf vis curr with
    | cons c cs' =>
      have hcfresh : vis.contains c.val = false := by
        have hcm : c ∈ unvisitedOf vis curr := by
          rw [hu]
          exact List.mem_cons_self _ _
        have hb := (List.mem_filter.1 hcm).2
        cases hb2 : vis.contains c.val with
        | true => rw [hb2] at hb; exact absurd hb (by decide)
        | false => rfl
      have hcchild : c ∈ curr.children := by
        have hcm : c ∈ unvisitedOf vis curr := by
          rw [hu]
          exact List.mem_cons_self _ _
        exact (List.mem_filter.1 hcm).1
      have hpath2 : IsPath t (c :: curr :: ancs) := IsPath.step hpath hcchild
      have hancs2 : ∀ a ∈ curr :: ancs, vis.contains a.val = true := by
        intro a ha
        cases List.mem_cons.1 ha with
        | inl hea => rw [hea]; exact hv
        | inr hm => exact hancs a hm
      obtain ⟨c2, a2, hd, hrem, hp2, ha2⟩ :=
        dfs_yield_fresh hco 1 c (curr :: ancs) vis hpath2 hancs2 hcfresh
      right
      refine ⟨c.val, c2, a2, ?_, ?_, hp2, ha2⟩
      · rw [dfs_visited_cons 2 curr ancs vis c cs' hv hu]
        exact hd
      · rw [pathRem_descend ancs hv hu]
        exact hrem
    | nil =>
      cases ancs with
      | nil =>
        left
        refine ⟨dfs_finished 2 curr vis hv hu, ?_⟩
        rw [pathRem_drop [] hv hu]
        rfl
      | cons a rest =>
        obtain ⟨f1, f2, f3, f4, f5⟩ := ascend_facts vis (a :: rest) curr hpath hv hancs
        cases hu2 : unvisitedOf vis (ascend vis curr (a :: rest)).1 with
        | nil =>
          have hca2 : (ascend vis curr (a :: rest)).2 = [] := f4 hu2
          left
          constructor
          · rw [dfs_ascend 2 curr a rest vis hv hu f2, hca2]
            exact dfs_finished 1 _ vis f2 hu2
          · rw [f5, hca2, pathRem_drop [] f2 hu2]
            rfl
        | cons c3 cs3 =>
          have hc3fresh : vis.contains c3.val = false := by
            have hcm : c3 ∈ unvisitedOf vis (ascend vis curr (a :: rest)).1 := by
              rw [hu2]
              exact List.mem_cons_self _ _
            have hb := (List.mem_filter.1 hcm).2
            cases hb2 : vis.contains c3.val with
            | true => rw [hb2] at hb; exact absurd hb (by decide)
            | false => rfl
          have hc3child : c3 ∈ (ascend vis curr (a :: rest)).1.children := by
            have hcm : c3 ∈ unvisitedOf vis (ascend vis curr (a :: rest)).1 := by
              rw [hu2]
              exact List.mem_cons_self _ _
            exact (List.mem_filter.1 hcm).1
          have hpath3 : IsPath t (c3 :: (ascend vis curr (a :: rest)).1 ::
              (ascend vis curr (a :: rest)).2) := IsPath.step f1 hc3child
          have hancs3 : ∀ x ∈ (ascend vis curr (a :: rest)).1 ::
              (ascend vis curr (a :: rest)).2, vis.contains x.val = true := by
            intro x hx
            cases List.mem_cons.1 hx with
            | inl hex => rw [hex]; exact f2
            | inr hm => exact f3 x hm
          obtain ⟨c2, a2, hd, hrem, hp2, ha2⟩ :=
            dfs_yield_fresh hco 0 c3 _ vis hpath3 hancs3 hc3fresh
          right
          refine ⟨c3.val, c2, a2, ?_, ?_, hp2, ha2⟩
          · rw [dfs_ascend 2 curr a rest vis hv hu f2,
              dfs_visited_cons 1 _ _ vis c3 cs3 f2 hu2]
            exact hd
          · rw [f5, pathRem_descend _ f2 hu2]
            exact hrem
  · have hv' : vis.contains curr.val = false := by
      cases hb : vis.contains curr.val with
      | true => exact absurd hb hv
      | false => rfl
    obtain ⟨c2, a2, hd, hrem, hp2, ha2⟩ := dfs_yield_fresh hco 2 curr ancs vis hpath hancs hv'
    right
    exact ⟨curr.val, c2, a2, hd, hrem, hp2, ha2⟩

/-- Running the iterator to exhaustion from a reachable position returns
exactly the remaining yield (in particular it terminates: `StopIteration`
is reached within the step bound, and the recursion fuel 3 is never
exhausted). -/
theorem runIter_eq_pathRem {t : GTree} (hco : Coherent t) :
    ∀ (n : Nat) (curr : GTree) (ancs : List GTree) (vis : List GNode),
      IsPath t (curr :: ancs) → (∀ a ∈ ancs, vis.contains a.val = true) →
      (pathRem vis (curr :: ancs)).length ≤ n →
      runIter 3 (n + 1) ⟨curr, ancs, vis⟩ = some (pathRem vis (curr :: ancs)) := by
  intro n
  induction n with
  | zero =>
    intro curr ancs vis hpath hancs hlen
    cases dfs_step hco curr ancs vis hpath hancs with
    | inl h =>
      rw [runIter, h.1, h.2]
    | inr h =>
      obtain ⟨k, c2, a2, hd, hrem, -, -⟩ := h
      rw [hrem] at hlen
      simp at hlen
  | succ n ih =>
    intro curr ancs vis hpath hancs hlen
    cases dfs_step hco curr ancs vis hpath hancs with
    | inl h =>
      rw [runIter, h.1, h.2]
    | inr h =>
      obtain ⟨k, c2, a2, hd, hrem, hp2, ha2⟩ := h
      have hlen2 : (pathRem (vis ++ [k]) (c2 :: a2)).length ≤ n := by
        rw [hrem, List.length_cons] at hlen
        omega
      rw [runIter, hd]
      show (runIter 3 (n + 1) ⟨c2, a2, vis ++ [k]⟩).map (fun rest => k :: rest) =
        some (pathRem vis (curr :: ancs))
      rw [ih c2 a2 (vis ++ [k]) hp2 ha2 hlen2, hrem]
      rfl

/-- Iterating a coherent tree with recursion fuel 3 and any sufficient step
budget returns exactly the pre-order walk. -/
theorem iterateTree_eq_preYield {t : GTree} (hco : Coherent t) (n : Nat)
    (hlen : (preYield [] t).length ≤ n) :
    iterateTree t 3 (n + 1) = some (preYield [] t) := by
  have hinit : pathRem [] [t] = preYield [] t := by
    show resumeNode [] t ++ pathRem ([] ++ resumeNode [] t) [] = _
    rw [resumeNode_fresh (by rw [contains_false_iff]; exact List.not_mem_nil _)]
    show preYield [] t ++ [] = preYield [] t
    rw [List.append_nil]
  rw [iterateTree, runIter_eq_pathRem hco n t [] [] IsPath.root
    (by intro a ha; cases ha) (by rw [hinit]; exact hlen), hinit]

mutual

theorem preYield_nodup_aux : ∀ (s : GTree) (vis : List GNode), vis.Nodup →
    (vis ++ preYield vis s).Nodup
  | .node v cs, vis, hn => by
    by_cases hv : vis.contains v = true
    · rw [preYield_visited hv, List.append_nil]
      exact hn
    · have hv' : vis.contains v = false := by
        cases hb : vis.contains v with
        | true => exact absurd hb hv
        | false => rfl
      rw [preYield_fresh hv']
      have hvnotmem : v ∉ vis := (contains_false_iff _ _).1 hv'
      have hn2 : (vis ++ [v]).Nodup :=
        (List.perm_append_singleton v vis).nodup_iff.2 (List.nodup_cons.2 ⟨hvnotmem, hn⟩)
      have hres := preYieldAll_nodup_aux cs (vis ++ [v]) hn2
      rw [List.append_cons]
      exact hres

theorem preYieldAll_nodup_aux : ∀ (cs : List GTree) (vis : List GNode), vis.Nodup →
    (vis ++ preYieldAll vis cs).Nodup
  | [], vis, hn => by
    rw [show preYieldAll vis ([] : List GTree) = [] from rfl, List.append_nil]
    exact hn
  | c :: cs, vis, hn => by
    have h1 := preYield_nodup_aux c vis hn
    have h2 := preYieldAll_nodup_aux cs (vis ++ preYield vis c) h1
    show (vis ++ (preYield vis c ++ preYieldAll (vis ++ preYield vis c) cs)).Nodup
    rw [← List.append_assoc]
    exact h2

end

/-- The pre-order walk never yields an identity twice. -/
theorem preYield_nodup (t : GTree) : (preYield [] t).Nodup := by
  have h := preYield_nodup_aux t [] List.nodup_nil
  rwa [List.nil_append] at h

mutual

theorem preYield_sub_keys : ∀ (s : GTree) (vis : List GNode) (k : GNode),
    k ∈ preYield vis s → k ∈ s.keyList
  | .node v cs, vis, k, hk => by
    by_cases hv : vis.contains v = true
    · rw [preYield_visited hv] at hk
      cases hk
    · have hv' : vis.contains v = false := by
        cases hb : vis.contains v with
        | true => exact absurd hb hv
        | false => rfl
      rw [preYield_fresh hv'] at hk
      rw [GTree.keyList]
      cases List.mem_cons.1 hk with
      | inl he => exact he ▸ List.mem_cons_self _ _
      | inr hm => exact List.mem_cons_of_mem _ (preYieldAll_sub_keys cs _ k hm)

theorem preYieldAll_sub_keys : ∀ (cs : List GTree) (vis : List GNode) (k : GNode),
    k ∈ preYieldAll vis cs → k ∈ keyListAll cs
  | [], _, k, hk => absurd hk (List.not_mem_nil k)
  | c :: cs, vis, k, hk => by
    rw [show preYieldAll vis (c :: cs) =
      preYield vis c ++ preYieldAll (vis ++ preYield vis c) cs from rfl,
      List.mem_append] at hk
    rw [keyListAll, List.mem_append]
    cases hk with
    | inl h => exact Or.inl (preYield_sub_keys c vis k h)
    | inr h => exact Or.inr (preYieldAll_sub_keys cs _ k h)

end

mutual

/-- Completeness of the walk on coherent trees: starting from a
subtree-closed visited list (ancestors excepted), the walk covers every key
of the subtree and restores closure. -/
theorem preYield_complete : ∀ (s t : GTree) (vis exc : List GNode), Coherent t →
    s ∈ t.subtreesList → ClosedExc t vis exc →
    (∀ e ∈ exc, ∃ a ∈ t.subtreesList, a.val = e ∧ s ∈ subtreesListAll a.children) →
    ClosedExc t (vis ++ preYield vis s) exc ∧ ∀ k ∈ s.keyList, k ∈ vis ++ preYield vis s
  | .node v cs, t, vis, exc, hco, hmem, hclosed, hexc => by
    by_cases hv : vis.contains v = true
    · rw [preYield_visited hv, List.append_nil]
      refine ⟨hclosed, ?_⟩
      have hvnotexc : v ∉ exc := by
        intro hvexc
        obtain ⟨a, hamem, haval, hsub⟩ := hexc v hvexc
        have haeq : a = GTree.node v cs := hco a hamem (GTree.node v cs) hmem haval
        rw [haeq] at hsub
        have hlt := size_lt_of_mem_children_subtrees (GTree.node v cs) (GTree.node v cs) hsub
        omega
      exact fun k hk => hclosed v ((contains_iff _ _).1 hv) hvnotexc (GTree.node v cs) hmem rfl k hk
    · have hv' : vis.contains v = false := by
        cases hb : vis.contains v with
        | true => exact absurd hb hv
        | false => rfl
      rw [preYield_fresh hv']
      simp only [GTree.val, GTree.children, GTree.keyList]
      have hclosed2 : ClosedExc t (vis ++ [v]) (exc ++ [v]) := by
        intro k hk hknotin s2 hs2 hs2v k2 hk2
        cases List.mem_append.1 hk with
        | inr hkv => exact absurd (List.mem_append_right _ hkv) hknotin
        | inl hkvis =>
          have hknotexc : k ∉ exc := fun hke => hknotin (List.mem_append_left _ hke)
          exact List.mem_append_left _ (hclosed k hkvis hknotexc s2 hs2 hs2v k2 hk2)
      have hexc2 : ∀ e ∈ exc ++ [v], ∃ a ∈ t.subtreesList, a.val = e ∧
          ∀ c ∈ cs, c ∈ subtreesListAll a.children := by
        intro e he
        cases List.mem_append.1 he with
        | inl heo =>
          obtain ⟨a, hamem, haval, hsub⟩ := hexc e heo
          exact ⟨a, hamem, haval, fun c hc =>
            subtrees_trans_all a.children (GTree.node v cs) hsub c (child_subtree_mem _ c hc)⟩
        | inr hev =>
          rw [List.mem_singleton] at hev
          exact ⟨GTree.node v cs, hmem, hev.symm, fun c hc => mem_subtreesListAll_of_mem hc⟩
      obtain ⟨hclosedK, hkeysK⟩ := preYieldAll_complete cs t (vis ++ [v]) (exc ++ [v]) hco
        (fun c hc => subtrees_trans t _ hmem c (child_subtree_mem _ c hc)) hclosed2 hexc2
      have hshape : vis ++ v :: preYieldAll (vis ++ [v]) cs =
          (vis ++ [v]) ++ preYieldAll (vis ++ [v]) cs := by
        rw [List.append_cons]
      rw [hshape]
      constructor
      · intro k hk hknot s2 hs2 hs2v k2 hk2
        by_cases hkv : k = v
        · have hs2eq : s2 = GTree.node v cs := hco s2 hs2 _ hmem (by rw [hs2v, hkv]; rfl)
          rw [hs2eq] at hk2
          simp only [GTree.keyList] at hk2
          cases List.mem_cons.1 hk2 with
          | inl he2 =>
            rw [he2]
            exact List.mem_append_left _ (List.mem_append_right _ (List.mem_singleton_self _))
          | inr hm2 => exact hkeysK k2 hm2
        · refine hclosedK k hk ?_ s2 hs2 hs2v k2 hk2
          intro hin
          cases List.mem_append.1 hin with
          | inl h => exact hknot h
          | inr h => exact hkv (List.mem_singleton.1 h)
      · intro k hk
        cases List.mem_cons.1 hk with
        | inl he =>
          rw [he]
          exact List.mem_append_left _ (List.mem_append_right _ (List.mem_singleton_self _))
        | inr hm => exact hkeysK k hm

theorem preYieldAll_complete : ∀ (cs : List GTree) (t : GTree) (vis exc : List GNode),
    Coherent t → (∀ c ∈ cs, c ∈ t.subtreesList) → ClosedExc t vis exc →
    (∀ e ∈ exc, ∃ a ∈ t.subtreesList, a.val = e ∧ ∀ c ∈ cs, c ∈ subtreesListAll a.children) →
    ClosedExc t (vis ++ preYieldAll vis cs) exc ∧
      ∀ k ∈ keyListAll cs, k ∈ vis ++ preYieldAll vis cs
  | [], t, vis, exc, _, _, hclosed, _ => by
    constructor
    · rw [show preYieldAll vis ([] : List GTree) = [] from rfl, List.append_nil]
      exact hclosed
    · intro k hk
      rw [keyListAll] at hk
      cases hk
  | c :: cs, t, vis, exc, hco, hmems, hclosed, hexc => by
    obtain ⟨hcl1, hk1⟩ := preYield_complete c t vis exc hco (hmems c (List.mem_cons_self _ _))
      hclosed (fun e he => by
        obtain ⟨a, h1, h2, h3⟩ := hexc e he
        exact ⟨a, h1, h2, h3 c (List.mem_cons_self _ _)⟩)
    obtain ⟨hcl2, hk2⟩ := preYieldAll_complete cs t (vis ++ preYield vis c) exc hco
      (fun x hx => hmems x (List.mem_cons_of_mem _ hx)) hcl1 (fun e he => by
        obtain ⟨a, h1, h2, h3⟩ := hexc e he
        exact ⟨a, h1, h2, fun x hx => h3 x (List.mem_cons_of_mem _ hx)⟩)
    have hshape : vis ++ preYieldAll vis (c :: cs) =
        (vis ++ preYield vis c) ++ preYieldAll (vis ++ preYield vis c) cs := by
      show vis ++ (preYield vis c ++ preYieldAll (vis ++ preYield vis c) cs) = _
      rw [List.append_assoc]
    rw [hshape]
    refine ⟨hcl2, ?_⟩
    intro k hk
    rw [keyListAll, List.mem_append] at hk
    cases hk with
    | inl h => exact List.mem_append_left _ (hk1 k h)
    | inr h => exact hk2 k h

end

/-- On a coherent tree the pre-order walk yields exactly the distinct
identities of the tree. -/
theorem preYield_mem_iff {t : GTree} (hco : Coherent t) (k : GNode) :
    k ∈ preYield [] t ↔ k ∈ t.keyList := by
  constructor
  · exact preYield_sub_keys t [] k
  · intro hk
    have hmain := preYield_complete t t [] [] hco (subtreesList_self t)
      (by intro k2 hk2; cases hk2) (by intro e he; cases he)
    have h2 := hmain.2 k hk
    rwa [List.nil_append] at h2

/-! ### Coherence of the pruned game tree -/

theorem rotateTokens_ne_nil {tokens : List Token} (h : tokens ≠ []) :
    rotateTokens tokens ≠ [] := by
  cases tokens with
  | nil => exact absurd rfl h
  | cons x xs =>
    rw [rotateTokens]
    simp

theorem rotateTokens_mem {tokens : List Token} {x : Token}
    (h : x ∈ rotateTokens tokens) : x ∈ tokens := by
  rw [rotateTokens] at h
  cases List.mem_append.1 h with
  | inl h2 => exact List.drop_subset _ _ h2
  | inr h2 => exact List.take_subset _ _ h2

theorem rotIter_ne_nil (d : Nat) {tokens : List Token} (h : tokens ≠ []) :
    rotIter d tokens ≠ [] := by
  induction d generalizing tokens with
  | zero => exact h
  | succ d ih => exact ih (rotateTokens_ne_nil h)

theorem rotIter_mem (d : Nat) {tokens : List Token} {x : Token}
    (h : x ∈ rotIter d tokens) : x ∈ tokens := by
  induction d generalizing tokens with
  | zero => exact h
  | succ d ih => exact rotateTokens_mem (ih h)

theorem rotIter_succ_right (d : Nat) (tokens : List Token) :
    rotIter (d + 1) tokens = rotateTokens (rotIter d tokens) := by
  induction d generalizing tokens with
  | zero => rfl
  | succ d ih =>
    show rotIter (d + 1) (rotateTokens tokens) = _
    rw [ih (rotateTokens tokens)]
    rfl

theorem headD_mem_of_ne_nil {l : List Token} (h : l ≠ []) : l.headD emptyTok ∈ l := by
  cases l with
  | nil => exact absurd rfl h
  | cons x xs => exact List.mem_cons_self x xs

/-- On a well-formed board an empty cell is never in the played history. -/
theorem WF_empty_not_played {b : Board} (h : b.WF) {m : Coord} (hm : m ∈ b.empty_cells) :
    (m.1, m.2) ∉ b.played_positions := by
  obtain ⟨⟨hsq, hgwf⟩, hemp, hen, hpn, her, hpr, hei, hpi⟩ := h
  obtain ⟨h1, h2⟩ := her m hm
  have hcell : cellD b.board m.1 m.2 = emptyTok := (hei m.1 h1 m.2 h2).1 hm
  intro habs
  exact (hpi m.1 h1 m.2 h2).1 habs hcell

theorem play_ok_explicit {b : Board} {r c : Nat} (tok : Token)
    (hnp : (r, c) ∉ b.played_positions) (hin : (r, c) ∈ b.empty_cells) :
    b.play r c tok = .ok { b with
      board := b.board.set r ((b.board.getD r []).set c tok)
      played_positions := b.played_positions ++ [(r, c)]
      played_tokens := b.played_tokens ++ [tok]
      empty_cells := b.empty_cells.erase (r, c) } := by
  rw [Board.play, if_neg hnp, if_pos hin]

theorem playForce_explicit {b : Board} {r c : Nat} (tok : Token)
    (hnp : (r, c) ∉ b.played_positions) (hin : (r, c) ∈ b.empty_cells) :
    playForce b r c tok = { b with
      board := b.board.set r ((b.board.getD r []).set c tok)
      played_positions := b.played_positions ++ [(r, c)]
      played_tokens := b.played_tokens ++ [tok]
      empty_cells := b.empty_cells.erase (r, c) } := by
  rw [playForce, play_ok_explicit tok hnp hin]

/-- `winner()` reads only the grid, the dimensions and the empty marker. -/
theorem winner_congr {b1 b2 : Board} (hb : b1.board = b2.board)
    (hr : b1.num_rows = b2.num_rows) (hc : b1.num_cols = b2.num_cols)
    (he : b1.empty = b2.empty) : b1.winner = b2.winner := by
  simp only [Board.winner, Board.rows, Board.columns, Board.main_diagonal,
    Board.anti_diagonal, hb, hr, hc, he]

/-- Filtering two board lists with grid-wise equal elements under grid-read
predicates keeps the grids aligned. -/
theorem map_board_filter_congr : ∀ (l1 l2 : List Board) (p1 p2 : Board → Bool),
    l1.map (fun x => x.board) = l2.map (fun x => x.board) →
    (∀ x1 x2 : Board, x1.board = x2.board → p1 x1 = p2 x2) →
    (l1.filter p1).map (fun x => x.board) = (l2.filter p2).map (fun x => x.board) := by
  intro l1
  induction l1 with
  | nil =>
    intro l2 p1 p2 hmap _
    cases l2 with
    | nil => rfl
    | cons y l2 => cases hmap
  | cons x l1 ih =>
    intro l2 p1 p2 hmap hp
    cases l2 with
    | nil => cases hmap
    | cons y l2 =>
      rw [List.map_cons, List.map_cons] at hmap
      injection hmap with hxy hrest
      rw [List.filter_cons, List.filter_cons, hp x y hxy]
      cases hpy : p2 y with
      | true =>
        rw [if_pos rfl, if_pos rfl, List.map_cons, List.map_cons, hxy,
          ih l2 p1 p2 hrest hp]
      | false =>
        rw [if_neg (by simp), if_neg (by simp)]
        exact ih l2 p1 p2 hrest hp

theorem any_board_congr : ∀ (l1 l2 : List Board) (p1 p2 : Board → Bool),
    l1.map (fun x => x.board) = l2.map (fun x => x.board) →
    (∀ x1 x2 : Board, x1.board = x2.board → p1 x1 = p2 x2) →
    l1.any p1 = l2.any p2 := by
  intro l1
  induction l1 with
  | nil =>
    intro l2 p1 p2 hmap _
    cases l2 with
    | nil => rfl
    | cons y l2 => cases hmap
  | cons x l1 ih =>
    intro l2 p1 p2 hmap hp
    cases l2 with
    | nil => cases hmap
    | cons y l2 =>
      rw [List.map_cons, List.map_cons] at hmap
      injection hmap with hxy hrest
      rw [List.any_cons, List.any_cons, hp x y hxy, ih l2 p1 p2 hrest hp]

/-- The grids of the isomorphism list are a function of the board's grid and
dimensions alone. -/
theorem isomorphisms_map_board_congr {o1 o2 : Board} (ho : o1.board = o2.board)
    (hr : o1.num_rows = o2.num_rows) (hc : o1.num_cols = o2.num_cols) :
    o1.isomorphisms.map (fun x => x.board) = o2.isomorphisms.map (fun x => x.board) := by
  have hcols : o1.columns = o2.columns := by
    simp only [Board.columns, ho, hr, hc]
  have hrotmaps : ∀ (o : Board),
      ([o.rotate 90, o.rotate 180, o.rotate 270].reduceOption).map (fun x => x.board) =
        [o.columns.map List.reverse, o.board.reverse.map List.reverse, o.columns.reverse] := by
    intro o
    rfl
  have hreflmaps : ∀ (o : Board),
      ([o.reflect "h", o.reflect "v", o.reflect "md", o.reflect "ad"].reduceOption).map
          (fun x => x.board) =
        [o.board.reverse, o.board.map List.reverse, o.columns.reverse.map List.reverse,
          o.columns] := by
    intro o
    rfl
  have hrots : ([o1.rotate 90, o1.rotate 180, o1.rotate 270].reduceOption).map
      (fun x => x.board) =
      ([o2.rotate 90, o2.rotate 180, o2.rotate 270].reduceOption).map (fun x => x.board) := by
    rw [hrotmaps o1, hrotmaps o2, ho, hcols]
  have hrefls : ([o1.reflect "h", o1.reflect "v", o1.reflect "md", o1.reflect "ad"].reduceOption).map
      (fun x => x.board) =
      ([o2.reflect "h", o2.reflect "v", o2.reflect "md", o2.reflect "ad"].reduceOption).map
        (fun x => x.board) := by
    rw [hreflmaps o1, hreflmaps o2, ho, hcols]
  have hpred1 : ∀ x1 x2 : Board, x1.board = x2.board →
      (!(x1.board == o1.board)) = (!(x2.board == o2.board)) := by
    intro x1 x2 hx
    rw [hx, ho]
  have hrotfil := map_board_filter_congr _ _ (fun x => !(x.board == o1.board))
    (fun x => !(x.board == o2.board)) hrots hpred1
  have hrot2maps :
      ((o1 :: ([o1.rotate 90, o1.rotate 180, o1.rotate 270].reduceOption).filter
          fun x => !(x.board == o1.board)).map (fun x => x.board)) =
      ((o2 :: ([o2.rotate 90, o2.rotate 180, o2.rotate 270].reduceOption).filter
          fun x => !(x.board == o2.board)).map (fun x => x.board)) := by
    rw [List.map_cons, List.map_cons, hrotfil, ho]
  have hpred2 : ∀ x1 x2 : Board, x1.board = x2.board →
      (!((o1 :: ([o1.rotate 90, o1.rotate 180, o1.rotate 270].reduceOption).filter
          fun x => !(x.board == o1.board)).any fun r => x1.board == r.board)) =
      (!((o2 :: ([o2.rotate 90, o2.rotate 180, o2.rotate 270].reduceOption).filter
          fun x => !(x.board == o2.board)).any fun r => x2.board == r.board)) := by
    intro x1 x2 hx
    have hany := any_board_congr _ _ (fun r => x1.board == r.board)
      (fun r => x2.board == r.board) hrot2maps (fun y1 y2 hy => by
        show (x1.board == y1.board) = (x2.board == y2.board)
        rw [hx, hy])
    rw [hany]
  have hreflfil := map_board_filter_congr _ _
    (fun x => !((o1 :: ([o1.rotate 90, o1.rotate 180, o1.rotate 270].reduceOption).filter
        fun x => !(x.board == o1.board)).any fun r => x.board == r.board))
    (fun x => !((o2 :: ([o2.rotate 90, o2.rotate 180, o2.rotate 270].reduceOption).filter
        fun x => !(x.board == o2.board)).any fun r => x.board == r.board)) hrefls hpred2
  simp only [Board.isomorphisms]
  rw [List.map_append, List.map_append, hrot2maps, hreflfil]

/-- `isomorphic_to` reads only the two grids and the argument's dimensions. -/
theorem isomorphic_to_congr {x1 x2 o1 o2 : Board}
    (hx : x1.board = x2.board) (ho : o1.board = o2.board)
    (hr : o1.num_rows = o2.num_rows) (hc : o1.num_cols = o2.num_cols) :
    x1.isomorphic_to o1 = x2.isomorphic_to o2 := by
  rw [Board.isomorphic_to, Board.isomorphic_to]
  refine any_board_congr _ _ (fun y => x1.board == y.board) (fun y => x2.board == y.board)
    (isomorphisms_map_board_congr ho hr hc) ?_
  intro y1 y2 hy
  show (x1.board == y1.board) = (x2.board == y2.board)
  rw [hx, hy]

/-- Unfolding `nodeMake` on a node that plays a move. -/
theorem nodeMake_some (fuel : Nat) (bd : Board) (tks : List Token) (m : Coord) (isR : Bool) :
    nodeMake fuel bd tks (some m) isR =
      (let b2 := playForce bd m.1 m.2 (tks.headD emptyTok)
       let val : GNode := ⟨some m, some (tks.headD emptyTok), b2.board⟩
       match (if b2.winner = none ∧ b2.full then some "Draw" else b2.winner) with
       | some _ => (GTree.node val [], b2)
       | none =>
         match fuel with
         | 0 => (GTree.node val [], b2)
         | f + 1 =>
           (GTree.node val
              ((kidsMake f b2 (rotateTokens tks) b2.empty_cells []).map Prod.fst), b2)) := by
  rw [nodeMake.eq_def]
  have hcond : ¬(isR = true ∧ (some m : Option Coord) = none) := by
    rintro ⟨-, habs⟩
    cases habs
  simp only [Board.copy, if_neg hcond]

/-- Unfolding `nodeMake` at the move-less root. -/
theorem nodeMake_none (fuel : Nat) (bd : Board) (tks : List Token) :
    nodeMake fuel bd tks none true =
      (let val : GNode := ⟨none, none, bd.board⟩
       match (if bd.winner = none ∧ bd.full then some "Draw" else bd.winner) with
       | some _ => (GTree.node val [], bd)
       | none =>
         match fuel with
         | 0 => (GTree.node val [], bd)
         | f + 1 =>
           (GTree.node val ((kidsMake f bd tks bd.empty_cells []).map Prod.fst), bd)) := by
  rw [nodeMake.eq_def]
  simp only [Board.copy, eq_self_iff_true, and_self, if_true]

theorem kidsMake_nil (fuel : Nat) (bd : Board) (tks : List Token)
    (kept : List (GTree × Board)) : kidsMake fuel bd tks [] kept = kept := by
  rw [kidsMake]

theorem kidsMake_cons (fuel : Nat) (bd : Board) (tks : List Token) (m : Coord)
    (rest : List Coord) (kept : List (GTree × Board)) :
    kidsMake fuel bd tks (m :: rest) kept =
      (let child := nodeMake fuel bd tks (some m) false
       if kept.isEmpty then kidsMake fuel bd tks rest (kept ++ [child])
       else if kept.all fun other => !(child.2.isomorphic_to other.2) then
         kidsMake fuel bd tks rest (kept ++ [child])
       else kidsMake fuel bd tks rest kept) := by
  rw [kidsMake]

/-- The node/kids match of `nodeMake` always reports the same identity in
its first component. -/
theorem match_fst_val (w : Option Token) (fuel : Nat) (b2 : Board) (val : GNode)
    (mk : Nat → List GTree) :
    ((match w with
      | some _ => (GTree.node val [], b2)
      | none =>
        match fuel with
        | 0 => (GTree.node val [], b2)
        | f + 1 => (GTree.node val (mk f), b2)) : GTree × Board).1.val = val := by
  cases w with
  | some _ => rfl
  | none =>
    cases fuel with
    | zero => rfl
    | succ f => rfl

/-- The node/kids match of `nodeMake` always reports the node's board in its
second component. -/
theorem match_snd_val (w : Option Token) (fuel : Nat) (b2 : Board) (val : GNode)
    (mk : Nat → List GTree) :
    ((match w with
      | some _ => (GTree.node val [], b2)
      | none =>
        match fuel with
        | 0 => (GTree.node val [], b2)
        | f + 1 => (GTree.node val (mk f), b2)) : GTree × Board).2 = b2 := by
  cases w with
  | some _ => rfl
  | none =>
    cases fuel with
    | zero => rfl
    | succ f => rfl

/-- The private board of a move-playing node. -/
theorem nodeMake_snd_some (fuel : Nat) (bd : Board) (tks : List Token) (m : Coord)
    (isR : Bool) :
    (nodeMake fuel bd tks (some m) isR).2 = playForce bd m.1 m.2 (tks.headD emptyTok) := by
  rw [nodeMake_some]
  exact match_snd_val _ fuel _ _ (fun f =>
    (kidsMake f (playForce bd m.1 m.2 (tks.headD emptyTok)) (rotateTokens tks)
      (playForce bd m.1 m.2 (tks.headD emptyTok)).empty_cells []).map Prod.fst)

/-- The identity of a move-playing node. -/
theorem nodeMake_val_some (fuel : Nat) (bd : Board) (tks : List Token) (m : Coord)
    (isR : Bool) :
    (nodeMake fuel bd tks (some m) isR).1.val =
      ⟨some m, some (tks.headD emptyTok), (playForce bd m.1 m.2 (tks.headD emptyTok)).board⟩ := by
  rw [nodeMake_some]
  exact match_fst_val _ fuel _ _ (fun f =>
    (kidsMake f (playForce bd m.1 m.2 (tks.headD emptyTok)) (rotateTokens tks)
      (playForce bd m.1 m.2 (tks.headD emptyTok)).empty_cells []).map Prod.fst)

/-- The identity of the move-less root. -/
theorem nodeMake_val_none (fuel : Nat) (bd : Board) (tks : List Token) :
    (nodeMake fuel bd tks none true).1.val = ⟨none, none, bd.board⟩ := by
  rw [nodeMake_none]
  exact match_fst_val _ fuel _ _ (fun f =>
    (kidsMake f bd tks bd.empty_cells []).map Prod.fst)

/-- The root board itself is a good game-state board. -/
theorem goodBoard_root {b : Board} (hwf : b.WF) : goodBoard b b := by
  obtain ⟨hdims, hemp, hen, hpn, her, hpr, hei, hpi⟩ := hwf
  refine ⟨⟨hdims, hemp, hen, hpn, her, hpr, hei, hpi⟩, rfl, rfl, hemp, ?_⟩
  refine (List.filter_eq_self.2 ?_).symm
  intro c hc
  obtain ⟨h1, h2⟩ := her c hc
  have hcell := (hei c.1 h1 c.2 h2).1 hc
  rw [beq_iff_eq]
  exact hcell

/-- Playing an empty cell of a good game-state board yields a good
game-state board, with the expected grid and empty-cell list. -/
theorem goodBoard_play {b Bp : Board} (hwfb : b.WF) (hg : goodBoard b Bp) {m : Coord}
    (hm : m ∈ Bp.empty_cells) {tok : Token} (htok : tok ≠ emptyTok) :
    goodBoard b (playForce Bp m.1 m.2 tok) ∧
    (playForce Bp m.1 m.2 tok).empty_cells = Bp.empty_cells.erase m ∧
    (playForce Bp m.1 m.2 tok).board =
      Bp.board.set m.1 ((Bp.board.getD m.1 []).set m.2 tok) := by
  obtain ⟨hwfp, hrr, hcc, hempB, hecf⟩ := hg
  have hnp : (m.1, m.2) ∉ Bp.played_positions := WF_empty_not_played hwfp hm
  have hpf := playForce_explicit (b := Bp) (r := m.1) (c := m.2) tok hnp hm
  obtain ⟨⟨hsq, hgwf⟩, hwfpe, hpen, hppn, hper, hppr, hpei, hppi⟩ := hwfp
  obtain ⟨hm1, hm2⟩ := hper m hm
  have hwfpost : (playForce Bp m.1 m.2 tok).WF := by
    rw [hpf]
    exact WF_play ⟨⟨hsq, hgwf⟩, hwfpe, hpen, hppn, hper, hppr, hpei, hppi⟩ hm1 hm2 htok
      (play_ok_explicit tok hnp hm)
  have hecb : b.empty_cells.Nodup := hwfb.2.2.1
  have hpostec : (playForce Bp m.1 m.2 tok).empty_cells = Bp.empty_cells.erase m := by
    rw [hpf]
  have hpostboard : (playForce Bp m.1 m.2 tok).board =
      Bp.board.set m.1 ((Bp.board.getD m.1 []).set m.2 tok) := by
    rw [hpf]
  refine ⟨⟨hwfpost, by rw [hpf]; exact hrr, by rw [hpf]; exact hcc, by rw [hpf]; exact hempB, ?_⟩,
    hpostec, hpostboard⟩
  -- the filter characterization of the new empty-cell list
  rw [hpostec, hecf, (hecb.filter _).erase_eq_filter m, List.filter_filter]
  refine List.filter_congr ?_
  intro c hc
  obtain ⟨hc1, hc2⟩ := hwfb.2.2.2.2.1 c hc
  have hc1p : c.1 < Bp.num_rows := by omega
  have hc2p : c.2 < Bp.num_cols := by omega
  have hc1p2 : c.1 < Bp.num_rows := hc1p
  have hcell := cellD_set hgwf hm1 (by omega : m.2 < Bp.num_rows) tok c.1 c.2 hc1p
    (by omega : c.2 < Bp.num_rows)
  rw [hpostboard, hcell]
  by_cases hcm : c = m
  · subst hcm
    rw [if_pos ⟨rfl, rfl⟩]
    have hde : (c ≠ c) = False := by simp
    simp [htok]
  · have hnotboth : ¬(c.1 = m.1 ∧ c.2 = m.2) := by
      intro ⟨ha, hb2⟩
      exact hcm (Prod.ext ha hb2)
    rw [if_neg hnotboth]
    simp [hcm]

/-- The first component of the node/kids match, in closed form. -/
theorem match_fst (w : Option Token) (fuel : Nat) (b2 : Board) (val : GNode)
    (mk : Nat → List GTree) :
    ((match w with
      | some _ => (GTree.node val [], b2)
      | none =>
        match fuel with
        | 0 => (GTree.node val [], b2)
        | f + 1 => (GTree.node val (mk f), b2)) : GTree × Board).1 =
      GTree.node val
        (match w with
         | some _ => []
         | none =>
           match fuel with
           | 0 => []
           | f + 1 => mk f) := by
  cases w with
  | some _ => rfl
  | none =>
    cases fuel with
    | zero => rfl
    | succ f => rfl

/-- Closed form of a move-playing node's tree. -/
theorem nodeMake_fst_some (fuel : Nat) (bd : Board) (tks : List Token) (m : Coord)
    (isR : Bool) :
    (nodeMake fuel bd tks (some m) isR).1 =
      GTree.node
        ⟨some m, some (tks.headD emptyTok), (playForce bd m.1 m.2 (tks.headD emptyTok)).board⟩
        (match (if (playForce bd m.1 m.2 (tks.headD emptyTok)).winner = none ∧
            (playForce bd m.1 m.2 (tks.headD emptyTok)).full then some "Draw"
          else (playForce bd m.1 m.2 (tks.headD emptyTok)).winner) with
         | some _ => []
         | none =>
           match fuel with
           | 0 => []
           | f + 1 =>
             (kidsMake f (playForce bd m.1 m.2 (tks.headD emptyTok)) (rotateTokens tks)
               (playForce bd m.1 m.2 (tks.headD emptyTok)).empty_cells []).map Prod.fst) := by
  rw [nodeMake_some]
  exact match_fst _ fuel _ _ (fun f =>
    (kidsMake f (playForce bd m.1 m.2 (tks.headD emptyTok)) (rotateTokens tks)
      (playForce bd m.1 m.2 (tks.headD emptyTok)).empty_cells []).map Prod.fst)

/-- Closed form of the move-less root's tree. -/
theorem nodeMake_fst_none (fuel : Nat) (bd : Board) (tks : List Token) :
    (nodeMake fuel bd tks none true).1 =
      GTree.node ⟨none, none, bd.board⟩
        (match (if bd.winner = none ∧ bd.full then some "Draw" else bd.winner) with
         | some _ => []
         | none =>
           match fuel with
           | 0 => []
           | f + 1 => (kidsMake f bd tks bd.empty_cells []).map Prod.fst) := by
  rw [nodeMake_none]
  exact match_fst _ fuel _ _ (fun f => (kidsMake f bd tks bd.empty_cells []).map Prod.fst)

theorem forall2_map_fst {l1 l2 : List (GTree × Board)} (h : List.Forall₂ KidRel l1 l2) :
    l1.map Prod.fst = l2.map Prod.fst := by
  induction h with
  | nil => rfl
  | cons hq hrest ih => rw [List.map_cons, List.map_cons, hq.1, ih]

theorem forall2_append_single {l1 l2 : List (GTree × Board)} {q1 q2 : GTree × Board}
    (h : List.Forall₂ KidRel l1 l2) (hq : KidRel q1 q2) :
    List.Forall₂ KidRel (l1 ++ [q1]) (l2 ++ [q2]) := by
  induction h with
  | nil => exact List.Forall₂.cons hq List.Forall₂.nil
  | cons hx hrest ih => exact List.Forall₂.cons hx ih

theorem all_congr_forall2 (p1 p2 : GTree × Board → Bool)
    (hpt : ∀ q1 q2, KidRel q1 q2 → p1 q1 = p2 q2) :
    ∀ {l1 l2 : List (GTree × Board)}, List.Forall₂ KidRel l1 l2 → l1.all p1 = l2.all p2 := by
  intro l1 l2 h
  induction h with
  | nil => rfl
  | cons hq hrest ih => rw [List.all_cons, List.all_cons, hpt _ _ hq, ih]

theorem isEmpty_eq_of_length {α β : Type} {l1 : List α} {l2 : List β}
    (h : l1.length = l2.length) : l1.isEmpty = l2.isEmpty := by
  cases l1 with
  | nil =>
    cases l2 with
    | nil => rfl
    | cons y ys => cases h
  | cons x xs =>
    cases l2 with
    | nil => cases h
    | cons y ys => rfl

/-- The pruning loop keeps the candidate when the kept list is empty or the
isomorphism check passes. -/
theorem kidsMake_cons_keep (fuel : Nat) (bd : Board) (tks : List Token) (m : Coord)
    (rest : List Coord) (kept : List (GTree × Board))
    (hcond : kept.isEmpty = true ∨
      (kept.all fun other =>
        !((nodeMake fuel bd tks (some m) false).2.isomorphic_to other.2)) = true) :
    kidsMake fuel bd tks (m :: rest) kept =
      kidsMake fuel bd tks rest (kept ++ [nodeMake fuel bd tks (some m) false]) := by
  rw [kidsMake_cons]
  show (if kept.isEmpty then _ else _) = _
  cases hcond with
  | inl h =>
    rw [h]
    rfl
  | inr h =>
    cases hke : kept.isEmpty with
    | true => rfl
    | false =>
      rw [h]
      rfl

/-- The pruning loop drops the candidate when it is isomorphic to a kept
sibling. -/
theorem kidsMake_cons_skip (fuel : Nat) (bd : Board) (tks : List Token) (m : Coord)
    (rest : List Coord) (kept : List (GTree × Board))
    (h1 : kept.isEmpty = false)
    (h2 : (kept.all fun other =>
      !((nodeMake fuel bd tks (some m) false).2.isomorphic_to other.2)) = false) :
    kidsMake fuel bd tks (m :: rest) kept = kidsMake fuel bd tks rest kept := by
  rw [kidsMake_cons]
  show (if kept.isEmpty then _ else _) = _
  rw [h1, h2]
  rfl

/-- The grid/dimension/empty-cell components plus well-formedness, winner
and fullness of the private boards created by equal plays on component-equal
parents. -/
theorem play_post_facts {b1 b2 : Board} {tks : List Token} {m : Coord}
    (hw1 : b1.WF) (hw2 : b2.WF) (hrr : b1.num_rows = b2.num_rows)
    (hcc : b1.num_cols = b2.num_cols) (hemp : b1.empty = b2.empty)
    (hec : b1.empty_cells = b2.empty_cells) (hm : m ∈ b1.empty_cells)
    (htne : tks ≠ []) (hte : ∀ x ∈ tks, x ≠ emptyTok)
    (hpost : b1.board.set m.1 ((b1.board.getD m.1 []).set m.2 (tks.headD emptyTok)) =
      b2.board.set m.1 ((b2.board.getD m.1 []).set m.2 (tks.headD emptyTok))) :
    (playForce b1 m.1 m.2 (tks.headD emptyTok)).board =
        (playForce b2 m.1 m.2 (tks.headD emptyTok)).board ∧
    (playForce b1 m.1 m.2 (tks.headD emptyTok)).num_rows =
        (playForce b2 m.1 m.2 (tks.headD emptyTok)).num_rows ∧
    (playForce b1 m.1 m.2 (tks.headD emptyTok)).num_cols =
        (playForce b2 m.1 m.2 (tks.headD emptyTok)).num_cols ∧
    (playForce b1 m.1 m.2 (tks.headD emptyTok)).empty =
        (playForce b2 m.1 m.2 (tks.headD emptyTok)).empty ∧
    (playForce b1 m.1 m.2 (tks.headD emptyTok)).empty_cells =
        (playForce b2 m.1 m.2 (tks.headD emptyTok)).empty_cells ∧
    (playForce b1 m.1 m.2 (tks.headD emptyTok)).WF ∧
    (playForce b2 m.1 m.2 (tks.headD emptyTok)).WF ∧
    (playForce b1 m.1 m.2 (tks.headD emptyTok)).winner =
        (playForce b2 m.1 m.2 (tks.headD emptyTok)).winner ∧
    (playForce b1 m.1 m.2 (tks.headD emptyTok)).full =
        (playForce b2 m.1 m.2 (tks.headD emptyTok)).full := by
  have hm2 : m ∈ b2.empty_cells := hec ▸ hm
  have htok : tks.headD emptyTok ≠ emptyTok := hte _ (headD_mem_of_ne_nil htne)
  have hnp1 : (m.1, m.2) ∉ b1.played_positions := WF_empty_not_played hw1 hm
  have hnp2 : (m.1, m.2) ∉ b2.played_positions := WF_empty_not_played hw2 hm2
  have hpf1 := playForce_explicit (b := b1) (r := m.1) (c := m.2) (tks.headD emptyTok) hnp1 hm
  have hpf2 := playForce_explicit (b := b2) (r := m.1) (c := m.2) (tks.headD emptyTok) hnp2 hm2
  obtain ⟨hm11, hm12⟩ := hw1.2.2.2.2.1 m hm
  obtain ⟨hm21, hm22⟩ := hw2.2.2.2.2.1 m hm2
  have hPb : (playForce b1 m.1 m.2 (tks.headD emptyTok)).board =
      (playForce b2 m.1 m.2 (tks.headD emptyTok)).board := by
    rw [hpf1, hpf2]
    exact hpost
  have hPr : (playForce b1 m.1 m.2 (tks.headD emptyTok)).num_rows =
      (playForce b2 m.1 m.2 (tks.headD emptyTok)).num_rows := by
    rw [hpf1, hpf2]
    exact hrr
  have hPc : (playForce b1 m.1 m.2 (tks.headD emptyTok)).num_cols =
      (playForce b2 m.1 m.2 (tks.headD emptyTok)).num_cols := by
    rw [hpf1, hpf2]
    exact hcc
  have hPe : (playForce b1 m.1 m.2 (tks.headD emptyTok)).empty =
      (playForce b2 m.1 m.2 (tks.headD emptyTok)).empty := by
    rw [hpf1, hpf2]
    exact hemp
  have hPec : (playForce b1 m.1 m.2 (tks.headD emptyTok)).empty_cells =
      (playForce b2 m.1 m.2 (tks.headD emptyTok)).empty_cells := by
    rw [hpf1, hpf2]
    show b1.empty_cells.erase (m.1, m.2) = b2.empty_cells.erase (m.1, m.2)
    rw [hec]
  have hPw1 : (playForce b1 m.1 m.2 (tks.headD emptyTok)).WF := by
    rw [hpf1]
    exact WF_play hw1 hm11 hm12 htok (play_ok_explicit _ hnp1 hm)
  have hPw2 : (playForce b2 m.1 m.2 (tks.headD emptyTok)).WF := by
    rw [hpf2]
    exact WF_play hw2 hm21 hm22 htok (play_ok_explicit _ hnp2 hm2)
  exact ⟨hPb, hPr, hPc, hPe, hPec, hPw1, hPw2, winner_congr hPb hPr hPc hPe,
    by rw [Board.full, Board.full, hPec]⟩

/-- Building a node for the same move, tokens and fuel from two game-state
boards agreeing on grid, dimensions, empty marker and empty-cell list yields
the same tree (the histories the boards disagree on are never read). -/
theorem nodeMake_congr : ∀ (fuel : Nat) (b1 b2 : Board) (tks : List Token) (m : Coord),
    b1.WF → b2.WF → b1.num_rows = b2.num_rows → b1.num_cols = b2.num_cols →
    b1.empty = b2.empty → b1.empty_cells = b2.empty_cells → m ∈ b1.empty_cells →
    tks ≠ [] → (∀ x ∈ tks, x ≠ emptyTok) →
    b1.board.set m.1 ((b1.board.getD m.1 []).set m.2 (tks.headD emptyTok)) =
      b2.board.set m.1 ((b2.board.getD m.1 []).set m.2 (tks.headD emptyTok)) →
    (nodeMake fuel b1 tks (some m) false).1 = (nodeMake fuel b2 tks (some m) false).1 := by
  intro fuel
  induction fuel with
  | zero =>
    intro b1 b2 tks m hw1 hw2 hrr hcc hemp hec hm htne hte hpost
    obtain ⟨hPb, hPr, hPc, hPe, hPec, hPw1, hPw2, hPwin, hPfull⟩ :=
      play_post_facts hw1 hw2 hrr hcc hemp hec hm htne hte hpost
    rw [nodeMake_fst_some, nodeMake_fst_some, hPb, hPwin, hPfull]
  | succ f ih =>
    intro b1 b2 tks m hw1 hw2 hrr hcc hemp hec hm htne hte hpost
    obtain ⟨hPb, hPr, hPc, hPe, hPec, hPw1, hPw2, hPwin, hPfull⟩ :=
      play_post_facts hw1 hw2 hrr hcc hemp hec hm htne hte hpost
    rw [nodeMake_fst_some, nodeMake_fst_some, hPb, hPwin, hPfull, hPec]
    congr 1
    cases hscr : (if (playForce b2 m.1 m.2 (tks.headD emptyTok)).winner = none ∧
        (playForce b2 m.1 m.2 (tks.headD emptyTok)).full = true then some "Draw"
      else (playForce b2 m.1 m.2 (tks.headD emptyTok)).winner) with
    | some tk => rfl
    | none =>
      show (kidsMake f (playForce b1 m.1 m.2 (tks.headD emptyTok)) (rotateTokens tks)
          (playForce b2 m.1 m.2 (tks.headD emptyTok)).empty_cells []).map Prod.fst =
        (kidsMake f (playForce b2 m.1 m.2 (tks.headD emptyTok)) (rotateTokens tks)
          (playForce b2 m.1 m.2 (tks.headD emptyTok)).empty_cells []).map Prod.fst
      have htne' : rotateTokens tks ≠ [] := rotateTokens_ne_nil htne
      have hte' : ∀ x ∈ rotateTokens tks, x ≠ emptyTok := fun x hx => hte x (rotateTokens_mem hx)
      have hkids : ∀ (moves : List Coord) (kept1 kept2 : List (GTree × Board)),
          (∀ x ∈ moves, x ∈ (playForce b1 m.1 m.2 (tks.headD emptyTok)).empty_cells) →
          List.Forall₂ KidRel kept1 kept2 →
          List.Forall₂ KidRel
            (kidsMake f (playForce b1 m.1 m.2 (tks.headD emptyTok)) (rotateTokens tks)
              moves kept1)
            (kidsMake f (playForce b2 m.1 m.2 (tks.headD emptyTok)) (rotateTokens tks)
              moves kept2) := by
        intro moves
        induction moves with
        | nil =>
          intro kept1 kept2 _ hk
          rw [kidsMake_nil, kidsMake_nil]
          exact hk
        | cons m2 rest ihm =>
          intro kept1 kept2 hsub hk
          have hm21 : m2 ∈ (playForce b1 m.1 m.2 (tks.headD emptyTok)).empty_cells :=
            hsub m2 (List.mem_cons_self _ _)
          have hm22 : m2 ∈ (playForce b2 m.1 m.2 (tks.headD emptyTok)).empty_cells :=
            hPec ▸ hm21
          have hpost' : (playForce b1 m.1 m.2 (tks.headD emptyTok)).board.set m2.1
              (((playForce b1 m.1 m.2 (tks.headD emptyTok)).board.getD m2.1 []).set m2.2
                ((rotateTokens tks).headD emptyTok)) =
              (playForce b2 m.1 m.2 (tks.headD emptyTok)).board.set m2.1
              (((playForce b2 m.1 m.2 (tks.headD emptyTok)).board.getD m2.1 []).set m2.2
                ((rotateTokens tks).headD emptyTok)) := by
            rw [hPb]
          have hchild := ih (playForce b1 m.1 m.2 (tks.headD emptyTok))
            (playForce b2 m.1 m.2 (tks.headD emptyTok)) (rotateTokens tks) m2
            hPw1 hPw2 hPr hPc hPe hPec hm21 htne' hte' hpost'
          obtain ⟨hcb, -, -, -, hcec, -, -, -, -⟩ :=
            play_post_facts hPw1 hPw2 hPr hPc hPe hPec hm21 htne' hte' hpost'
          have hkq : KidRel
              (nodeMake f (playForce b1 m.1 m.2 (tks.headD emptyTok)) (rotateTokens tks)
                (some m2) false)
              (nodeMake f (playForce b2 m.1 m.2 (tks.headD emptyTok)) (rotateTokens tks)
                (some m2) false) := by
            refine ⟨hchild, ?_, ?_, ?_⟩
            · rw [nodeMake_snd_some, nodeMake_snd_some]
              exact hcb
            · rw [nodeMake_snd_some, nodeMake_snd_some]
              exact play_post_facts hPw1 hPw2 hPr hPc hPe hPec hm21 htne' hte' hpost'
                |>.2.1
            · rw [nodeMake_snd_some, nodeMake_snd_some]
              exact play_post_facts hPw1 hPw2 hPr hPc hPe hPec hm21 htne' hte' hpost'
                |>.2.2.1
          have hie : kept1.isEmpty = kept2.isEmpty := isEmpty_eq_of_length hk.length_eq
          have hallsame : (kept1.all fun other =>
              !((nodeMake f (playForce b1 m.1 m.2 (tks.headD emptyTok)) (rotateTokens tks)
                (some m2) false).2.isomorphic_to other.2)) =
              (kept2.all fun other =>
              !((nodeMake f (playForce b2 m.1 m.2 (tks.headD emptyTok)) (rotateTokens tks)
                (some m2) false).2.isomorphic_to other.2)) := by
            refine all_congr_forall2 _ _ ?_ hk
            intro q1 q2 hq
            show (!((nodeMake f (playForce b1 m.1 m.2 (tks.headD emptyTok)) (rotateTokens tks)
                (some m2) false).2.isomorphic_to q1.2)) =
              (!((nodeMake f (playForce b2 m.1 m.2 (tks.headD emptyTok)) (rotateTokens tks)
                (some m2) false).2.isomorphic_to q2.2))
            rw [isomorphic_to_congr hkq.2.1 hq.2.1 hq.2.2.1 hq.2.2.2]
          have hrestsub : ∀ x ∈ rest, x ∈ (playForce b1 m.1 m.2 (tks.headD emptyTok)).empty_cells :=
            fun x hx => hsub x (List.mem_cons_of_mem _ hx)
          cases hke : kept1.isEmpty with
          | true =>
            rw [kidsMake_cons_keep _ _ _ _ _ _ (Or.inl hke),
              kidsMake_cons_keep _ _ _ _ _ _ (Or.inl (hie ▸ hke))]
            exact ihm _ _ hrestsub (forall2_append_single hk hkq)
          | false =>
            cases hall : (kept1.all fun other =>
                !((nodeMake f (playForce b1 m.1 m.2 (tks.headD emptyTok)) (rotateTokens tks)
                  (some m2) false).2.isomorphic_to other.2)) with
            | true =>
              rw [kidsMake_cons_keep _ _ _ _ _ _ (Or.inr hall),
                kidsMake_cons_keep _ _ _ _ _ _ (Or.inr (hallsame ▸ hall))]
              exact ihm _ _ hrestsub (forall2_append_single hk hkq)
            | false =>
              rw [kidsMake_cons_skip _ _ _ _ _ _ hke hall,
                kidsMake_cons_skip _ _ _ _ _ _ (hie ▸ hke) (hallsame ▸ hall)]
              exact ihm _ _ hrestsub hk
      exact forall2_map_fst (hkids _ [] [] (fun x hx => hPec ▸ hx) List.Forall₂.nil)

theorem subtreesListAll_append : ∀ (l1 l2 : List GTree),
    subtreesListAll (l1 ++ l2) = subtreesListAll l1 ++ subtreesListAll l2 := by
  intro l1 l2
  induction l1 with
  | nil => rfl
  | cons t ts ih =>
    show t.subtreesList ++ subtreesListAll (ts ++ l2) = _
    rw [ih, ← List.append_assoc]
    rfl

theorem mem_subtrees_node {val : GNode} {cs : List GTree} {s : GTree}
    (hs : s ∈ (GTree.node val cs).subtreesList) :
    s = GTree.node val cs ∨ s ∈ subtreesListAll cs := by
  rw [GTree.subtreesList, List.mem_cons] at hs
  exact hs

/-- At fuel 0 a move-playing node is a leaf whatever the game state. -/
theorem nodeMake_fst_zero_some (bd : Board) (tks : List Token) (m : Coord) (isR : Bool) :
    (nodeMake 0 bd tks (some m) isR).1 =
      GTree.node
        ⟨some m, some (tks.headD emptyTok),
          (playForce bd m.1 m.2 (tks.headD emptyTok)).board⟩ [] := by
  rw [nodeMake_fst_some]
  congr 1
  cases hscr : (if (playForce bd m.1 m.2 (tks.headD emptyTok)).winner = none ∧
      (playForce bd m.1 m.2 (tks.headD emptyTok)).full = true then some "Draw"
    else (playForce bd m.1 m.2 (tks.headD emptyTok)).winner) with
  | some tk => rfl
  | none => rfl

/-- The pruning loop preserves the representation invariant of every subtree
it accumulates. -/
theorem kidsMake_ok_aux (b : Board) (tokens : List Token) (fuel : Nat)
    (hnode : ∀ (Bp : Board) (d : Nat) (m : Coord), goodBoard b Bp →
      b.empty_cells.length = Bp.empty_cells.length + d → m ∈ Bp.empty_cells →
      fuel = b.num_cells - d →
      ∀ s ∈ (nodeMake fuel Bp (rotIter d tokens) (some m) false).1.subtreesList,
        nodeOK b tokens s)
    (Bp : Board) (d : Nat) (hg : goodBoard b Bp)
    (hlen : b.empty_cells.length = Bp.empty_cells.length + d)
    (hfuel : fuel = b.num_cells - d) :
    ∀ (moves : List Coord) (kept : List (GTree × Board)),
      (∀ x ∈ moves, x ∈ Bp.empty_cells) →
      (∀ s ∈ subtreesListAll (kept.map Prod.fst), nodeOK b tokens s) →
      ∀ s ∈ subtreesListAll ((kidsMake fuel Bp (rotIter d tokens) moves kept).map Prod.fst),
        nodeOK b tokens s := by
  intro moves
  induction moves with
  | nil =>
    intro kept _ hkept
    rw [kidsMake_nil]
    exact hkept
  | cons m2 rest ihm =>
    intro kept hsub hkept
    have hm2 : m2 ∈ Bp.empty_cells := hsub m2 (List.mem_cons_self _ _)
    have hrestsub : ∀ x ∈ rest, x ∈ Bp.empty_cells := fun x hx =>
      hsub x (List.mem_cons_of_mem _ hx)
    have hkeptnew : ∀ s ∈ subtreesListAll
        ((kept ++ [nodeMake fuel Bp (rotIter d tokens) (some m2) false]).map Prod.fst),
        nodeOK b tokens s := by
      intro s hs
      rw [List.map_append, subtreesListAll_append] at hs
      cases List.mem_append.1 hs with
      | inl h => exact hkept s h
      | inr h =>
        have hsingle : subtreesListAll
            ([nodeMake fuel Bp (rotIter d tokens) (some m2) false].map Prod.fst) =
            (nodeMake fuel Bp (rotIter d tokens) (some m2) false).1.subtreesList ++ [] := by
          rw [List.map_cons, List.map_nil, subtreesListAll, subtreesListAll]
        rw [hsingle, List.append_nil] at h
        exact hnode Bp d m2 hg hlen hm2 hfuel s h
    cases hke : kept.isEmpty with
    | true =>
      rw [kidsMake_cons_keep _ _ _ _ _ _ (Or.inl hke)]
      exact ihm _ hrestsub hkeptnew
    | false =>
      cases hall : (kept.all fun other =>
          !((nodeMake fuel Bp (rotIter d tokens) (some m2) false).2.isomorphic_to other.2)) with
      | true =>
        rw [kidsMake_cons_keep _ _ _ _ _ _ (Or.inr hall)]
        exact ihm _ hrestsub hkeptnew
      | false =>
        rw [kidsMake_cons_skip _ _ _ _ _ _ hke hall]
        exact ihm _ hrestsub hkept

/-- Every subtree of a move-playing node built in a good game state admits
the representation. -/
theorem nodeMake_ok_aux (b : Board) (tokens : List Token) (hwfb : b.WF)
    (htne : tokens ≠ []) (hte : ∀ x ∈ tokens, x ≠ emptyTok) :
    ∀ (fuel : Nat) (Bp : Board) (d : Nat) (m : Coord), goodBoard b Bp →
      b.empty_cells.length = Bp.empty_cells.length + d → m ∈ Bp.empty_cells →
      fuel = b.num_cells - d →
      ∀ s ∈ (nodeMake fuel Bp (rotIter d tokens) (some m) false).1.subtreesList,
        nodeOK b tokens s := by
  intro fuel
  induction fuel with
  | zero =>
    intro Bp d m hg hlen hm hfuel s hs
    rw [nodeMake_fst_zero_some] at hs
    cases mem_subtrees_node hs with
    | inl hself =>
      refine Or.inr ⟨Bp, d, m, hg, hlen, hm, ?_⟩
      rw [hself, ← hfuel, nodeMake_fst_zero_some]
    | inr habs => exact absurd habs (List.not_mem_nil s)
  | succ f ih =>
    intro Bp d m hg hlen hm hfuel s hs
    have htokd : (rotIter d tokens).headD emptyTok ≠ emptyTok :=
      hte _ (rotIter_mem d (headD_mem_of_ne_nil (rotIter_ne_nil d htne)))
    obtain ⟨hgood2, hec2, -⟩ := goodBoard_play hwfb hg hm htokd
    rw [nodeMake_fst_some] at hs
    cases mem_subtrees_node hs with
    | inl hself =>
      refine Or.inr ⟨Bp, d, m, hg, hlen, hm, ?_⟩
      rw [hself, ← hfuel, nodeMake_fst_some]
    | inr hkid =>
      cases hscr : (if (playForce Bp m.1 m.2 ((rotIter d tokens).headD emptyTok)).winner = none ∧
          (playForce Bp m.1 m.2 ((rotIter d tokens).headD emptyTok)).full = true
        then some "Draw"
        else (playForce Bp m.1 m.2 ((rotIter d tokens).headD emptyTok)).winner) with
      | some tk =>
        rw [hscr] at hkid
        exact absurd hkid (List.not_mem_nil s)
      | none =>
        rw [hscr] at hkid
        have hred : subtreesListAll ((match (none : Option Token) with
            | some _ => ([] : List GTree)
            | none =>
              match f + 1 with
              | 0 => []
              | f2 + 1 =>
                (kidsMake f2 (playForce Bp m.1 m.2 ((rotIter d tokens).headD emptyTok))
                  (rotateTokens (rotIter d tokens))
                  (playForce Bp m.1 m.2 ((rotIter d tokens).headD emptyTok)).empty_cells
                  []).map Prod.fst)) =
            subtreesListAll ((kidsMake f
              (playForce Bp m.1 m.2 ((rotIter d tokens).headD emptyTok))
              (rotateTokens (rotIter d tokens))
              (playForce Bp m.1 m.2 ((rotIter d tokens).headD emptyTok)).empty_cells
              []).map Prod.fst) := rfl
        rw [hred, ← rotIter_succ_right] at hkid
        have hpos : 0 < Bp.empty_cells.length := List.length_pos.2 (List.ne_nil_of_mem hm)
        have hlen2 : b.empty_cells.length =
            (playForce Bp m.1 m.2 ((rotIter d tokens).headD emptyTok)).empty_cells.length
              + (d + 1) := by
          rw [hec2, List.length_erase_of_mem hm]
          omega
        have hf : f = b.num_cells - (d + 1) := by omega
        exact kidsMake_ok_aux b tokens f (fun Bp2 d2 m2 hg2 hl2 hm2b hf2 =>
            ih Bp2 d2 m2 hg2 hl2 hm2b hf2)
          (playForce Bp m.1 m.2 ((rotIter d tokens).headD emptyTok)) (d + 1)
          hgood2 hlen2 hf
          (playForce Bp m.1 m.2 ((rotIter d tokens).headD emptyTok)).empty_cells []
          (fun x hx => hx) (fun s2 hs2 => absurd hs2 (List.not_mem_nil s2)) s hkid

/-- Every subtree of the pruned game tree admits the representation. -/
theorem gameTree_subtrees_ok (b : Board) (tokens : List Token) (hwfb : b.WF)
    (htne : tokens ≠ []) (hte : ∀ x ∈ tokens, x ≠ emptyTok) :
    ∀ s ∈ (gameTree b tokens).subtreesList, nodeOK b tokens s := by
  intro s hs
  have hgt : gameTree b tokens = (nodeMake (b.num_cells + 1) b tokens none true).1 := rfl
  rw [hgt, nodeMake_fst_none] at hs
  cases mem_subtrees_node hs with
  | inl hself =>
    left
    rw [hself, hgt, nodeMake_fst_none]
  | inr hkid =>
    cases hscr : (if b.winner = none ∧ b.full = true then some "Draw" else b.winner) with
    | some tk =>
      rw [hscr] at hkid
      exact absurd hkid (List.not_mem_nil s)
    | none =>
      rw [hscr] at hkid
      have hred : subtreesListAll ((match (none : Option Token) with
          | some _ => ([] : List GTree)
          | none =>
            match b.num_cells + 1 with
            | 0 => []
            | f2 + 1 => (kidsMake f2 b tokens b.empty_cells []).map Prod.fst)) =
          subtreesListAll ((kidsMake b.num_cells b tokens b.empty_cells []).map Prod.fst) := rfl
      rw [hred] at hkid
      exact kidsMake_ok_aux b tokens b.num_cells
        (fun Bp2 d2 m2 hg2 hl2 hm2b hf2 =>
          nodeMake_ok_aux b tokens hwfb htne hte b.num_cells Bp2 d2 m2 hg2 hl2 hm2b hf2)
        b 0 (goodBoard_root hwfb) rfl (by omega)
        b.empty_cells [] (fun x hx => hx)
        (fun s2 hs2 => absurd hs2 (List.not_mem_nil s2)) s hkid

/-- The pruned game tree is coherent: the traversal identity of a node (its
move, token and resulting grid) determines its entire subtree.  The grid
determines the move count, hence the token rotation and the remaining fuel,
and — because deletions never reorder `empty_cells` — the exact candidate
move list; the histories two such nodes may disagree on are never read. -/
theorem gameTree_coherent (b : Board) (tokens : List Token) (hwfb : b.WF)
    (htne : tokens ≠ []) (hte : ∀ x ∈ tokens, x ≠ emptyTok) :
    Coherent (gameTree b tokens) := by
  intro s1 h1 s2 h2 hval
  have ok1 := gameTree_subtrees_ok b tokens hwfb htne hte s1 h1
  have ok2 := gameTree_subtrees_ok b tokens hwfb htne hte s2 h2
  have hrootmv : (gameTree b tokens).val.move = none := by
    have hgt : gameTree b tokens = (nodeMake (b.num_cells + 1) b tokens none true).1 := rfl
    rw [hgt, nodeMake_val_none]
  cases ok1 with
  | inl hr1 =>
    cases ok2 with
    | inl hr2 => rw [hr1, hr2]
    | inr hrep2 =>
      exfalso
      obtain ⟨Bp2, d2, m2, -, -, -, hs2e⟩ := hrep2
      have hmv1 : s1.val.move = none := by rw [hr1]; exact hrootmv
      have hmv2 : s2.val.move = some m2 := by rw [hs2e, nodeMake_val_some]
      rw [hval, hmv2] at hmv1
      cases hmv1
  | inr hrep1 =>
    cases ok2 with
    | inl hr2 =>
      exfalso
      obtain ⟨Bp1, d1, m1, -, -, -, hs1e⟩ := hrep1
      have hmv1 : s1.val.move = some m1 := by rw [hs1e, nodeMake_val_some]
      have hmv2 : s2.val.move = none := by rw [hr2]; exact hrootmv
      rw [hval, hmv2] at hmv1
      cases hmv1
    | inr hrep2 =>
      obtain ⟨Bp1, d1, m1, hg1, hlen1, hm1, hs1e⟩ := hrep1
      obtain ⟨Bp2, d2, m2, hg2, hlen2, hm2, hs2e⟩ := hrep2
      have hwf1 : Bp1.WF := hg1.1
      have hwf2 : Bp2.WF := hg2.1
      have hrr1 : Bp1.num_rows = b.num_rows := hg1.2.1
      have hcc1 : Bp1.num_cols = b.num_cols := hg1.2.2.1
      have hemp1 : Bp1.empty = emptyTok := hg1.2.2.2.1
      have hecf1 : Bp1.empty_cells =
          b.empty_cells.filter fun c => cellD Bp1.board c.1 c.2 == emptyTok := hg1.2.2.2.2
      have hrr2 : Bp2.num_rows = b.num_rows := hg2.2.1
      have hcc2 : Bp2.num_cols = b.num_cols := hg2.2.2.1
      have hemp2 : Bp2.empty = emptyTok := hg2.2.2.2.1
      have hecf2 : Bp2.empty_cells =
          b.empty_cells.filter fun c => cellD Bp2.board c.1 c.2 == emptyTok := hg2.2.2.2.2
      have htok1 : (rotIter d1 tokens).headD emptyTok ≠ emptyTok :=
        hte _ (rotIter_mem d1 (headD_mem_of_ne_nil (rotIter_ne_nil d1 htne)))
      have htok2 : (rotIter d2 tokens).headD emptyTok ≠ emptyTok :=
        hte _ (rotIter_mem d2 (headD_mem_of_ne_nil (rotIter_ne_nil d2 htne)))
      rw [hs1e, hs2e, nodeMake_val_some, nodeMake_val_some] at hval
      have hmv : (some m1 : Option Coord) = some m2 := congrArg GNode.move hval
      injection hmv with hmeq
      subst hmeq
      have hgrid : (playForce Bp1 m1.1 m1.2 ((rotIter d1 tokens).headD emptyTok)).board =
          (playForce Bp2 m1.1 m1.2 ((rotIter d2 tokens).headD emptyTok)).board :=
        congrArg GNode.grid hval
      obtain ⟨-, -, hb1⟩ := goodBoard_play hwfb ⟨hwf1, hrr1, hcc1, hemp1, hecf1⟩ hm1 htok1
      obtain ⟨-, -, hb2⟩ := goodBoard_play hwfb ⟨hwf2, hrr2, hcc2, hemp2, hecf2⟩ hm2 htok2
      rw [hb1, hb2] at hgrid
      have hm1r := hwf1.2.2.2.2.1 m1 hm1
      have hm2r := hwf2.2.2.2.2.1 m1 hm2
      have hgw1 : GridWF Bp1.num_rows Bp1.board := hwf1.1.2
      have hgw2 : GridWF Bp2.num_rows Bp2.board := hwf2.1.2
      have hsq1 : Bp1.num_rows = Bp1.num_cols := hwf1.1.1
      have hsq2 : Bp2.num_rows = Bp2.num_cols := hwf2.1.1
      have hecEq : Bp1.empty_cells = Bp2.empty_cells := by
        rw [hecf1, hecf2]
        refine List.filter_congr ?_
        intro c hc
        obtain ⟨hcr, hcc'⟩ := hwfb.2.2.2.2.1 c hc
        by_cases hcm : c = m1
        · subst hcm
          have h1c := (hwf1.2.2.2.2.2.2.1 c.1 hm1r.1 c.2 hm1r.2).1 hm1
          have h2c := (hwf2.2.2.2.2.2.2.1 c.1 hm2r.1 c.2 hm2r.2).1 hm2
          show (cellD Bp1.board c.1 c.2 == emptyTok) = (cellD Bp2.board c.1 c.2 == emptyTok)
          rw [h1c, h2c]
        · have hc1p : c.1 < Bp1.num_rows := by omega
          have hc2p : c.2 < Bp1.num_rows := by omega
          have hc1q : c.1 < Bp2.num_rows := by omega
          have hc2q : c.2 < Bp2.num_rows := by omega
          have hnb : ¬(c.1 = m1.1 ∧ c.2 = m1.2) := fun ⟨x, y⟩ => hcm (Prod.ext x y)
          have hs1 := cellD_set hgw1 hm1r.1 (by omega : m1.2 < Bp1.num_rows)
            ((rotIter d1 tokens).headD emptyTok) c.1 c.2 hc1p hc2p
          have hs2 := cellD_set hgw2 hm2r.1 (by omega : m1.2 < Bp2.num_rows)
            ((rotIter d2 tokens).headD emptyTok) c.1 c.2 hc1q hc2q
          rw [if_neg hnb] at hs1 hs2
          show (cellD Bp1.board c.1 c.2 == emptyTok) = (cellD Bp2.board c.1 c.2 == emptyTok)
          rw [← hs1, ← hs2, hgrid]
      have hdEq : d1 = d2 := by
        rw [hecEq] at hlen1
        omega
      subst hdEq
      rw [hs1e, hs2e]
      exact nodeMake_congr (b.num_cells - d1) Bp1 Bp2 (rotIter d1 tokens) m1
        hwf1 hwf2 (by rw [hrr1, hrr2]) (by rw [hcc1, hcc2]) (by rw [hemp1, hemp2])
        hecEq hm1 (rotIter_ne_nil d1 htne) (fun x hx => hte x (rotIter_mem d1 hx)) hgrid

/-- **C3**: iterating a `Node` of the pruned game tree — grown from any
well-formed board with a nonempty list of non-blank tokens — performs a
depth-first pre-order traversal with the visited-identity deduplication
(node identity = move, token played, board grid): the iteration reaches
`StopIteration` within one step more than the number of tree positions
(with the recursion depth of `depth_first_search` never exceeding 3, the
modeled fuel), and the yielded sequence is exactly the recursive pre-order
walk — duplicate-free and containing every identity occurring in the finite
tree, i.e. each distinct node exactly once. -/
theorem C3_depth_first_iteration (b : Board) (tokens : List Token) (hwf : b.WF)
    (hne : tokens ≠ []) (hok : ∀ x ∈ tokens, x ≠ emptyTok) :
    ∃ ys, iterateTree (gameTree b tokens) 3
        ((gameTree b tokens).keyList.length + 1) = some ys ∧
      ys = preYield [] (gameTree b tokens) ∧
      ys.Nodup ∧
      ∀ k, k ∈ ys ↔ k ∈ (gameTree b tokens).keyList := by
  have hco := gameTree_coherent b tokens hwf hne hok
  refine ⟨preYield [] (gameTree b tokens), ?_, rfl, preYield_nodup _,
    fun k => preYield_mem_iff hco k⟩
  refine iterateTree_eq_preYield hco _ ?_
  exact (List.subperm_of_subset (preYield_nodup _)
    (fun k hk => preYield_sub_keys _ [] k hk)).length_le

/-- Witness for C3: the pruned game tree of the fresh 2×2 board with tokens
O, X. -/
theorem C3_depth_first_iteration_witness :
    (Board.fresh 2 2).WF ∧ (["O", "X"] : List Token) ≠ [] ∧
    (∀ x ∈ (["O", "X"] : List Token), x ≠ emptyTok) ∧
    (∃ ys, iterateTree (gameTree (Board.fresh 2 2) ["O", "X"]) 3
        ((gameTree (Board.fresh 2 2) ["O", "X"]).keyList.length + 1) = some ys ∧
      ys = preYield [] (gameTree (Board.fresh 2 2) ["O", "X"]) ∧ ys.Nodup ∧
      ∀ k, k ∈ ys ↔ k ∈ (gameTree (Board.fresh 2 2) ["O", "X"]).keyList) :=
  ⟨by decide, by decide, by decide,
   C3_depth_first_iteration (Board.fresh 2 2) ["O", "X"] (by decide) (by decide) (by decide)⟩

/-- **C10 (amended)**: if the search's initialization board has an *empty
move history* (and duplicate-free empty cells), then on every board obtained
from it by successfully playing, in order, a prefix of one of the enumerated
permutations of its empty cells — with arbitrary tokens — `get_move` does
not raise: it returns no move, or a non-empty candidate list (from which the
move is drawn) all of whose members are empty cells of the queried board.
(Without the empty-history premise `get_move` can raise, because the
enumerated permutations range over the initial board's *empty* cells only
and can then never match the full played history — see the
counterexample.) -/
theorem C10_get_move_safe (B0 : Board) (tokens : List Token) (token : Token)
    (hplayed : B0.played_positions = []) (hnodup : B0.empty_cells.Nodup)
    (pi : List Coord) (hpi : pi ∈ permutationsOf B0.empty_cells)
    (moves : List (Coord × Token)) (k : Nat) (hmv : moves.map Prod.fst = pi.take k)
    (b : Board) (hb : playSeq B0 moves = .ok b) :
    ∃ r, get_move B0 tokens b token = .ok r ∧
      (r = none ∨ ∃ bm, r = some bm ∧ bm ≠ [] ∧ ∀ m ∈ bm, m ∈ b.empty_cells) := by
  have hperm : pi.Perm B0.empty_cells := mem_permutationsOf.1 hpi
  have hpilen : pi.length = B0.empty_cells.length := hperm.length_eq
  have hpinodup : pi.Nodup := (hperm.nodup_iff).2 hnodup
  have hprefnodup : (pi.take k).Nodup := hpinodup.sublist (List.take_sublist k pi)
  have hprefsub : ∀ p ∈ pi.take k, p ∈ B0.empty_cells := fun p hp =>
    hperm.mem_iff.1 (List.mem_of_mem_take hp)
  obtain ⟨hpl, hec⟩ := playSeq_ok hb
  rw [hplayed, List.nil_append, hmv] at hpl
  rw [hmv] at hec
  obtain ⟨hmem, hlen⟩ := foldl_erase_facts (pi.take k) B0.empty_cells hnodup
    hprefnodup hprefsub
  rw [← hec] at hmem hlen
  match hecase : b.empty_cells, (rfl : b.empty_cells = b.empty_cells) with
  | [], _ =>
    refine ⟨none, ?_, Or.inl rfl⟩
    exact ((get_move_cases B0 tokens b token).1 hecase)
  | [c], _ =>
    refine ⟨some [c], (get_move_cases B0 tokens b token).2.1 c hecase, Or.inr ?_⟩
    refine ⟨[c], rfl, by simp, ?_⟩
    intro m hm
    rw [List.mem_singleton.1 hm]
    exact List.mem_singleton_self c
  | c1 :: c2 :: tl, _ =>
    have hlen2 : 2 ≤ b.empty_cells.length := by
      rw [hecase]
      simp only [List.length_cons]
      omega
    -- in this case the prefix is short: k is at most the number of empty
    -- cells minus 2, so every enumerated permutation is long enough
    have hkE : (pi.take k).length < pi.length := by
      have h3 := hlen
      rw [hecase] at h3
      simp only [List.length_cons] at h3
      rw [List.length_take] at h3 ⊢
      omega
    have hkle : k ≤ pi.length := by
      rw [List.length_take] at hkE
      omega
    have htakelen : (pi.take k).length = k := by
      rw [List.length_take]
      omega
    set subset := ((winnersTable B0 tokens).filter fun pw =>
      pw.1.take b.played_positions.length == b.played_positions) with hsubdef
    have hsublen : ∀ pw ∈ subset, b.played_positions.length < pw.1.length := by
      intro pw hpw
      have hpwtab := (List.mem_filter.1 hpw).1
      rw [winnersTable, List.mem_map] at hpwtab
      obtain ⟨perm, hpermmem, rfl⟩ := hpwtab
      have : perm.length = B0.empty_cells.length :=
        (mem_permutationsOf.1 hpermmem).length_eq
      rw [hpl, htakelen, this, ← hpilen]
      omega
    have hsubne : subset ≠ [] := by
      have hπmem : (pi, simulatePerm tokens B0.copy 0 pi) ∈ winnersTable B0 tokens := by
        rw [winnersTable, List.mem_map]
        exact ⟨pi, hpi, rfl⟩
      have hcond : (pi.take b.played_positions.length == b.played_positions) = true := by
        rw [hpl, htakelen]
        exact beq_self_eq_true _
      intro habs
      have : (pi, simulatePerm tokens B0.copy 0 pi) ∈ subset :=
        List.mem_filter.2 ⟨hπmem, hcond⟩
      rw [habs] at this
      cases this
    obtain ⟨pairs, hpairs, hgm, hbmne, hbm⟩ :=
      (get_move_cases B0 tokens b token).2.2 hlen2 subset hsubdef hsubne hsublen
    refine ⟨some (bestMoves pairs), hgm, Or.inr ⟨bestMoves pairs, rfl, hbmne, ?_⟩⟩
    intro m hm
    obtain ⟨⟨v, hmv2⟩, -⟩ := hbm m hm
    rw [hpairs] at hmv2
    obtain ⟨pw, hpwsub, hpweq⟩ := List.mem_map.1 hmv2
    have hm_eq : m = pw.1.getD b.played_positions.length (0, 0) :=
      (congrArg Prod.fst hpweq).symm
    have hpwtab := (List.mem_filter.1 hpwsub).1
    have hpwcond := (List.mem_filter.1 hpwsub).2
    rw [winnersTable, List.mem_map] at hpwtab
    obtain ⟨perm, hpermmem, hpermeq⟩ := hpwtab
    have hpermfst : pw.1 = perm := by rw [← hpermeq]
    have hpermperm : perm.Perm B0.empty_cells := mem_permutationsOf.1 hpermmem
    have hpermlen : perm.length = pi.length := by
      rw [hpermperm.length_eq, hpilen]
    have hkperm : b.played_positions.length < perm.length := by
      have := hsublen pw hpwsub
      rw [hpermfst] at this
      exact this
    have hmget : m = perm[b.played_positions.length] := by
      rw [hm_eq, hpermfst, List.getD_eq_getElem?_getD,
        List.getElem?_eq_getElem hkperm, Option.getD_some]
    have hmmem : m ∈ perm := by
      rw [hmget]
      exact List.getElem_mem hkperm
    have hmB0 : m ∈ B0.empty_cells := hpermperm.mem_iff.1 hmmem
    have hmnotpref : m ∉ pi.take k := by
      have hpermnodup : perm.Nodup := hpermperm.nodup_iff.2 hnodup
      have hpermtake : perm.take b.played_positions.length = pi.take k := by
        have := hpwcond
        rw [hpermfst] at this
        rw [← hpl]
        exact eq_of_beq this
      intro habs
      rw [← hpermtake] at habs
      rw [hmget] at habs
      rw [List.mem_take_iff_getElem] at habs
      obtain ⟨i, hi, hik⟩ := habs
      have hne : i ≠ b.played_positions.length := by omega
      have hilt : i < perm.length := by omega
      exact hne ((List.Nodup.getElem_inj_iff hpermnodup).1 hik)
    rw [← hecase, hmem m]
    exact ⟨hmB0, hmnotpref⟩

/-- **C10 counterexample**: the claim fails when the search's initialization
board already has played moves.  Take the 2×2 board `exSmall` (history
`[(0,0)]`) as the initialization board and play the *empty* prefix of any
enumerated permutation, i.e. query `get_move` on the initialization board
itself: no enumerated permutation (they range over the three empty cells)
has the played history as a prefix, the surviving table is empty, and
Python's `max(agg_scores.values())` raises `ValueError` instead of
returning a move. -/
theorem C10_get_move_cex :
    playSeq exSmall [] = .ok exSmall ∧
    get_move exSmall ["O", "X"] exSmall "X" =
      .error "ValueError: max() arg is an empty sequence" := by
  constructor
  · rfl
  · rfl

/-- Witness for the amended C10: initialization board `Board.fresh 2 2`
(empty history), prefix of length 1 of one of the enumerated permutations,
played with token `O`, giving the board `exSmall`. -/
theorem C10_get_move_safe_witness :
    (Board.fresh 2 2).played_positions = [] ∧
    (Board.fresh 2 2).empty_cells.Nodup ∧
    (∃ pi2, pi2 ∈ permutationsOf (Board.fresh 2 2).empty_cells ∧
      ([((0, 0), "O")] : List (Coord × Token)).map Prod.fst = pi2.take 1 ∧
      playSeq (Board.fresh 2 2) [((0, 0), "O")] = .ok exSmall) ∧
    (∃ r, get_move (Board.fresh 2 2) ["O", "X"] exSmall "X" = .ok r ∧
      (r = none ∨ ∃ bm, r = some bm ∧ bm ≠ [] ∧ ∀ m ∈ bm, m ∈ exSmall.empty_cells)) := by
  have hpi2 : ((0, 0) :: (Board.fresh 2 2).empty_cells.erase (0, 0)) ∈
      permutationsOf (Board.fresh 2 2).empty_cells := by decide
  refine ⟨rfl, by decide, ⟨_, hpi2, by decide, rfl⟩, ?_⟩
  exact C10_get_move_safe (Board.fresh 2 2) ["O", "X"] "X" rfl (by decide)
    _ hpi2 [((0, 0), "O")] 1 (by decide) exSmall rfl

end TTT
